import Mathlib

/-!
# Finite Abelian Classifier: a verification development

A shallow embedding of `FiniteAbelianClassifier.cpp`.  The program classifies
a quotient `G/H` of a direct sum of cyclic groups `G` by a cyclic subgroup
`H = <generator>`.

Conventions of the embedding.

* `unsigned` values are natural numbers.  The two computed values that inputs
  the program accepts can push past 32 bits, the running least common multiple
  of `orderOfGenerator` and the quotient order `orderOfQgroup` of
  `findPossibleIsoGroup`, are reduced modulo `2 ^ 32` where the source stores
  them in an `unsigned`, and so is the index of the narrowing loop of `main`.
  The other counters (exponents, list lengths, orders of cosets) are bounded by
  the size of the data and are not reduced.
* `std::vector<T>` is `List T`; `std::map<unsigned, T>` is a list of
  key/value pairs kept in strictly increasing key order, so that iterating the
  list is iterating the map and equality of lists is `operator==` of maps.
* A `while` loop is a function by recursion on a `fuel` argument; a loop that
  is still running when the fuel is used up yields `Err.outOfFuel`.
* An operation whose behaviour is undefined in C++ (erasing `end()`, indexing
  a vector out of range, dividing by zero) yields `Err.undefined`; the `throw`
  in `orderOfGenerator` yields `Err.sizeMismatch`.
* The header `FiniteAbelianClassifier.h` (the types `Tuple`, `Group`, `Coset`
  and their member functions) is not part of the sources; those parts are
  modelled from the specification and are marked as such.
-/

namespace FiniteAbelianClassifier

/-! ## Results of fallible code -/

/-- Ways in which a run can fail to produce a value. -/
inductive Err where
  | sizeMismatch
  | undefined
  | outOfFuel
  deriving DecidableEq, Repr

deriving instance DecidableEq for Except

/-! ## `std::map<unsigned, T>` -/

/-- A map with `unsigned` keys: key/value pairs in increasing key order. -/
abbrev SMap (β : Type) := List (Nat × β)

/-- Lookup, `m.find(k)`. -/
def SMap.find {β : Type} : SMap β → Nat → Option β
  | [], _ => none
  | (k', v) :: rest, k => if k = k' then some v else SMap.find rest k

/-- The effect of `f(m[k])` for a mutating `f`: `operator[]` creates a
value-initialised entry when the key is absent (`f none`), the entry is then
replaced by the result.  The position of a new key keeps the list ordered. -/
def SMap.update {β : Type} : SMap β → Nat → (Option β → β) → SMap β
  | [], k, f => [(k, f none)]
  | (k', v) :: rest, k, f =>
    if k < k' then (k, f none) :: (k', v) :: rest
    else if k = k' then (k, f (some v)) :: rest
    else (k', v) :: SMap.update rest k f

/-- Assignment `m[k] = v`. -/
def SMap.assign {β : Type} (m : SMap β) (k : Nat) (v : β) : SMap β :=
  SMap.update m k (fun _ => v)

/-- Increment `m[k]++` on a map of counters (an absent key starts from `0`). -/
def SMap.incr (m : SMap Nat) (k : Nat) : SMap Nat :=
  SMap.update m k (fun o => o.getD 0 + 1)

/-! ## `primeFactorize` -/

/-- The loop `do { primes[p]++; n /= p; } while (n % p == 0);`. -/
def divideOut : Nat → Nat → Nat → SMap Nat → Except Err (Nat × SMap Nat)
  | 0, _, _, _ => .error .outOfFuel
  | fuel + 1, p, n, primes =>
    let primes := SMap.incr primes p
    let n := n / p
    if n % p = 0 then divideOut fuel p n primes else .ok (n, primes)

/-- The loop `for (unsigned p = 3; p <= sqrt(n); p += 2)` of `primeFactorize`,
entered with the current value of `p`.  The test `p <= sqrt(n)` compares `p`
with the real square root of `n`; for natural numbers that is `p * p ≤ n`. -/
def oddLoop (inner : Nat) : Nat → Nat → Nat → SMap Nat → Except Err (Nat × SMap Nat)
  | 0, _, _, _ => .error .outOfFuel
  | fuel + 1, p, n, primes =>
    if p * p ≤ n then
      if n % p = 0 then
        match divideOut inner p n (SMap.assign primes p 0) with
        | .ok (n, primes) => oddLoop inner fuel (p + 2) n primes
        | .error e => .error e
      else oddLoop inner fuel (p + 2) n primes
    else .ok (n, primes)

/-- The function `primeFactorize(n, primes)`; the result is the final value of the in/out
map `primes`. -/
def primeFactorize (fuel : Nat) (n : Nat) (primes : SMap Nat) : Except Err (SMap Nat) :=
  match (if n % 2 = 0 then divideOut fuel 2 n (SMap.assign primes 2 0) else .ok (n, primes)) with
  | .error e => .error e
  | .ok (n, primes) =>
    match oddLoop fuel fuel 3 n primes with
    | .error e => .error e
    | .ok (n, primes) =>
      if n ≠ 1 then
        match SMap.find primes n with
        | none => .ok (SMap.assign primes n 1)
        | some _ => .ok (SMap.incr primes n)
      else .ok primes

/-- The part of `primeFactorize(n, primes)` before the last `if`: the loop that divides out
`2` and the loop over the odd `p`; the result is the residual `n` and the map `primes` with
which the last `if` is entered. -/
def trialDivision (fuel : Nat) (n : Nat) (primes : SMap Nat) : Except Err (Nat × SMap Nat) :=
  match (if n % 2 = 0 then divideOut fuel 2 n (SMap.assign primes 2 0) else .ok (n, primes)) with
  | .error e => .error e
  | .ok (n, primes) => oddLoop fuel fuel 3 n primes

/-! ## Tuples, groups and cosets (declared in the header) -/

/-- Modelled from the spec: the type `Tuple` of `FiniteAbelianClassifier.h`, an
ordered sequence of `n` non-negative integers; `n` is the length of the list
and `x` its entries.  Equality is component-wise. -/
abbrev Tuple := List Nat

/-- Modelled from the spec: `operator+` of `Tuple` (in the missing header), the
component-wise integer sum of two tuples of the same arity; a mismatch of
arities is an error. -/
def Tuple.add (a b : Tuple) : Except Err Tuple :=
  if a.length = b.length then .ok (List.zipWith (· + ·) a b) else .error .sizeMismatch

/-- Modelled from the spec: the type `Group` of `FiniteAbelianClassifier.h`, the
ordered list `products` of the orders of the cyclic factors.  The attributes
`order` and `largestOrderElement` are derived from `products` below. -/
structure Group where
  products : List Nat
  deriving DecidableEq, Repr

/-- Modelled from the spec: the attribute `order` of `Group` (missing header), the
product of all `products[i]`, as `main` computes it for `G`. -/
def Group.order (G : Group) : Nat := G.products.foldl (· * ·) 1

/-- Modelled from the spec: the attribute `largestOrderElement` of `Group` after
`findLargestOrderElement()` (missing header), the least common multiple of
all `products[i]`. -/
def Group.largestOrderElement (G : Group) : Nat := G.products.foldl Nat.lcm 1

/-- Modelled from the spec: `Group::identity` (missing header), the all-zero tuple of
the arity of the group. -/
def Group.identity (G : Group) : Tuple := List.replicate G.products.length 0

/-- Modelled from the spec: `Group::mod` (missing header), reduction of every
component modulo the order of its cyclic factor; the arities must agree. -/
def Group.mod (G : Group) (t : Tuple) : Except Err Tuple :=
  if t.length = G.products.length then .ok (List.zipWith (· % ·) t G.products)
  else .error .sizeMismatch

/-- All tuples with `i`-th entry below the `i`-th bound, in lexicographic order. -/
def tuplesBelow : List Nat → List Tuple
  | [] => [[]]
  | n :: ns => (List.range n).flatMap (fun a => (tuplesBelow ns).map (fun t => a :: t))

/-- Modelled from the spec: `Group::generateElements` (missing header), all elements
of the group: the Cartesian product of `{0, ..., products[i] - 1}` over every
component `i`. -/
def Group.generateElements (G : Group) : List Tuple := tuplesBelow G.products

/-- Modelled from the spec: the type `Coset` of `FiniteAbelianClassifier.h`, a
collection of tuples and the order of the coset in the quotient. -/
structure Coset where
  elements : List Tuple
  order : Nat
  deriving DecidableEq, Repr

/-! ## `orderOfGenerator` -/

/-- The loop of `orderOfGenerator` over the index `i`, entered with the remaining
factor orders and generator entries and the current value of `currentOrder`.
`std::gcd(0, 0)` is `0`, and the division by it is undefined.  `currentOrder` is an
`unsigned`: `std::lcm` computes `m / gcd(m, n) * n` in unsigned arithmetic (and `0` when
an argument is `0`), so what is stored is the least common multiple modulo `2 ^ 32`. -/
def orderOfGeneratorLoop : List Nat → List Nat → Nat → Except Err Nat
  | p :: ps, g :: gs, currentOrder =>
    if Nat.gcd p g = 0 then .error .undefined
    else orderOfGeneratorLoop ps gs (Nat.lcm currentOrder (p / Nat.gcd p g) % 2 ^ 32)
  | _, _, currentOrder => .ok currentOrder

/-- The function `orderOfGenerator(G, generator)`; the result is an `unsigned`. -/
def orderOfGenerator (G : Group) (generator : Tuple) : Except Err Nat :=
  if G.products.length ≠ generator.length then .error .sizeMismatch
  else orderOfGeneratorLoop G.products generator 1

/-! ## `orderOfCoset` and `calcElementOrders` -/

/-- The statement `G.mod(a + b)`. -/
def modAdd (G : Group) (a b : Tuple) : Except Err Tuple :=
  match Tuple.add a b with
  | .ok s => G.mod s
  | .error e => .error e

/-- The statement `elements.erase(std::find(elements.begin(), elements.end(), x))`:
the first occurrence of `x` is removed; when there is none `std::find` returns
`end()`, which must not be erased. -/
def eraseFound (elements : List Tuple) (x : Tuple) : Except Err (List Tuple) :=
  if x ∈ elements then .ok (elements.erase x) else .error .undefined

/-- The `while` loop of `orderOfCoset`, entered with the current `conductor` and
`gh.order`; the result is the final `gh.order`. -/
def orderOfCosetLoop (G : Group) (H : List Tuple) (rep : Tuple) :
    Nat → Tuple → Nat → Except Err Nat
  | 0, _, _ => .error .outOfFuel
  | fuel + 1, conductor, order =>
    if conductor ∉ H then
      match modAdd G conductor rep with
      | .ok conductor => orderOfCosetLoop G H rep fuel conductor (order + 1)
      | .error e => .error e
    else .ok order

/-- The function `orderOfCoset(gh, H, G)`; the result is the final value of `gh`. -/
def orderOfCoset (fuel : Nat) (gh : Coset) (H : Coset) (G : Group) : Except Err Coset :=
  match gh.elements with
  | [] => .error .undefined
  | rep :: _ =>
    match orderOfCosetLoop G H.elements rep fuel rep 1 with
    | .ok order => .ok { gh with order := order }
    | .error e => .error e

/-- The loop `while (element != identity)` of `calcElementOrders`, which generates
the identity coset; the result is the final `H.elements` and `elements`. -/
def generateH (G : Group) (generator identity : Tuple) :
    Nat → Tuple → List Tuple → List Tuple → Except Err (List Tuple × List Tuple)
  | 0, _, _, _ => .error .outOfFuel
  | fuel + 1, element, H, elements =>
    if element ≠ identity then
      match modAdd G element generator with
      | .error e => .error e
      | .ok element =>
        match eraseFound elements element with
        | .error e => .error e
        | .ok elements => generateH G generator identity fuel element (H ++ [element]) elements
    else .ok (H, elements)

/-- The loop `for (const Tuple& e : H.elements)` of `calcElementOrders`, entered
with the members of `H` still to visit; the result is the final `gH.elements`
and `elements`. -/
def formCoset (G : Group) (element : Tuple) :
    List Tuple → List Tuple → List Tuple → Except Err (List Tuple × List Tuple)
  | [], gH, elements => .ok (gH, elements)
  | e :: rest, gH, elements =>
    match modAdd G e element with
    | .error err => .error err
    | .ok temp =>
      match eraseFound elements temp with
      | .error err => .error err
      | .ok elements => formCoset G element rest (gH ++ [temp]) elements

/-- The update of `orderTracker` at the end of the coset loop. -/
def tally (orderTracker : SMap Nat) (order : Nat) : SMap Nat :=
  match SMap.find orderTracker order with
  | none => SMap.assign orderTracker order 1
  | some _ => SMap.incr orderTracker order

/-- The loop `while (elements.size() > 0)` of `calcElementOrders`; the result is the
final `qGroup` and `orderTracker`. -/
def cosetLoop (G : Group) (H : Coset) (inner : Nat) :
    Nat → List Tuple → List Coset → SMap Nat → Except Err (List Coset × SMap Nat)
  | 0, _, _, _ => .error .outOfFuel
  | fuel + 1, elements, qGroup, orderTracker =>
    match elements with
    | [] => .ok (qGroup, orderTracker)
    | element :: _ =>
      match formCoset G element H.elements [] elements with
      | .error e => .error e
      | .ok (gHelements, elements) =>
        match orderOfCoset inner { elements := gHelements, order := 0 } H G with
        | .error e => .error e
        | .ok gH =>
          cosetLoop G H inner fuel elements (qGroup ++ [gH]) (tally orderTracker gH.order)

/-- The first part of `calcElementOrders`, up to `H.order = 1`: all elements of `G` are
generated and the identity coset `H` is built from `generator`.  The result is the
final `H.elements` and the elements of `G` not in `H`. -/
def identityCoset (fuel : Nat) (G : Group) (generator : Tuple) :
    Except Err (List Tuple × List Tuple) :=
  match eraseFound G.generateElements generator with
  | .error e => .error e
  | .ok elements => generateH G generator G.identity fuel generator [generator] elements

/-- The body of `calcElementOrders(G, generator, orderTracker)`; the result is the
final value of the local `qGroup` and of the in/out map `orderTracker`. -/
def calcElementOrdersState (fuel : Nat) (G : Group) (generator : Tuple)
    (orderTracker : SMap Nat) : Except Err (List Coset × SMap Nat) :=
  match identityCoset fuel G generator with
  | .error e => .error e
  | .ok (Helements, elements) =>
    let H : Coset := { elements := Helements, order := 1 }
    cosetLoop G H fuel fuel elements [H] (SMap.assign orderTracker 1 1)

/-- The function `calcElementOrders(G, generator, orderTracker)`; the result is the final
value of the in/out map `orderTracker`. -/
def calcElementOrders (fuel : Nat) (G : Group) (generator : Tuple)
    (orderTracker : SMap Nat) : Except Err (SMap Nat) :=
  match calcElementOrdersState fuel G generator orderTracker with
  | .ok (_, orderTracker) => .ok orderTracker
  | .error e => .error e


/-! ## `findPossibleIsoGroup` -/

/-- The local type `partitionNode`: a list of partitions and the index of the
partition currently looked at. -/
structure PartitionNode where
  partitions : List (List Nat)
  iterator : Nat
  deriving DecidableEq, Repr

/-- The statement `partitions[prime].partitions.push_back(currentPartition)`; a node
created by `operator[]` has no partitions and `iterator = 0`. -/
def pushPartition (partitions : SMap PartitionNode) (prime : Nat)
    (currentPartition : List Nat) : SMap PartitionNode :=
  SMap.update partitions prime (fun o =>
    match o with
    | none => { partitions := [currentPartition], iterator := 0 }
    | some node => { node with partitions := node.partitions ++ [currentPartition] })

/-- Reading `v[i]` for a signed index `i`. -/
def readAt (v : List Nat) (i : Int) : Except Err Nat :=
  if 0 ≤ i then
    match v[i.toNat]? with
    | some x => .ok x
    | none => .error .undefined
  else .error .undefined

/-- The assignment `v[i] = x` for a signed index `i`. -/
def writeAt (v : List Nat) (i : Int) (x : Nat) : Except Err (List Nat) :=
  if 0 ≤ i ∧ i.toNat < v.length then .ok (v.set i.toNat x) else .error .undefined

/-- The call `v.resize(n)`: the first `n` entries, filled up with zeros. -/
def resize (v : List Nat) (n : Nat) : List Nat :=
  v.take n ++ List.replicate (n - v.length) 0

/-- The loop `while (partitioner >= 0 && currentPartition[partitioner] == 1)`; the
result is the final `partitioner` and `rem_val`. -/
def skipOnes (currentPartition : List Nat) : Nat → Int → Nat → Except Err (Int × Nat)
  | 0, _, _ => .error .outOfFuel
  | fuel + 1, partitioner, rem_val =>
    if 0 ≤ partitioner then
      match readAt currentPartition partitioner with
      | .error e => .error e
      | .ok x =>
        if x = 1 then skipOnes currentPartition fuel (partitioner - 1) (rem_val + 1)
        else .ok (partitioner, rem_val)
    else .ok (partitioner, rem_val)

/-- The loop `while (rem_val > currentPartition[partitioner])`; the result is the final
`currentPartition`, `partitioner` and `rem_val`. -/
def spread : Nat → List Nat → Int → Nat → Except Err (List Nat × Int × Nat)
  | 0, _, _, _ => .error .outOfFuel
  | fuel + 1, currentPartition, partitioner, rem_val =>
    match readAt currentPartition partitioner with
    | .error e => .error e
    | .ok x =>
      if rem_val > x then
        match (if partitioner + 1 = currentPartition.length then
                .ok (currentPartition ++ [x])
              else writeAt currentPartition (partitioner + 1) x) with
        | .error e => .error e
        | .ok currentPartition => spread fuel currentPartition (partitioner + 1) (rem_val - x)
      else .ok (currentPartition, partitioner, rem_val)

/-- The loop `while (true)` that partitions one exponent, entered with the
current `currentPartition` and `partitioner`; the result is the final map
`partitions`. -/
def partitionLoop (prime : Nat) (inner : Nat) :
    Nat → List Nat → Int → SMap PartitionNode → Except Err (SMap PartitionNode)
  | 0, _, _, _ => .error .outOfFuel
  | fuel + 1, currentPartition, partitioner, partitions =>
    let partitions := pushPartition partitions prime currentPartition
    match skipOnes currentPartition inner partitioner 0 with
    | .error e => .error e
    | .ok (partitioner, rem_val) =>
      if partitioner < 0 then .ok partitions
      else
        match readAt currentPartition partitioner with
        | .error e => .error e
        | .ok x =>
          match writeAt currentPartition partitioner (x - 1) with
          | .error e => .error e
          | .ok currentPartition =>
            match spread inner currentPartition partitioner (rem_val + 1) with
            | .error e => .error e
            | .ok (currentPartition, partitioner, rem_val) =>
              match (if partitioner + 1 = currentPartition.length then
                      .ok (currentPartition ++ [rem_val])
                    else
                      writeAt (resize currentPartition (partitioner + 2).toNat)
                        (partitioner + 1) rem_val) with
              | .error e => .error e
              | .ok currentPartition =>
                partitionLoop prime inner fuel currentPartition (partitioner + 1) partitions

/-- The loop `for (const auto& prime : factors)`, entered with the entries of `factors`
still to visit; the result is the final map `partitions`. -/
def partitionAll (fuel : Nat) :
    List (Nat × Nat) → SMap PartitionNode → Except Err (SMap PartitionNode)
  | [], partitions => .ok partitions
  | (prime, power) :: rest, partitions =>
    match partitionLoop prime fuel fuel [power] 0 partitions with
    | .error e => .error e
    | .ok partitions => partitionAll fuel rest partitions

/-- The loop `for (auto& part : partitions)` inside the candidate loop, entered with
the entries of `partitions` still to visit, the `products` of the group under
construction and `allDone`; the result is the visited entries after the update
of their `iterator`, the final `products` and the final `allDone`.
`pow((long) prime, (long) p)` is the exact power. -/
def buildCandidate :
    List (Nat × PartitionNode) → List Nat → Bool →
      Except Err (List (Nat × PartitionNode) × List Nat × Bool)
  | [], products, allDone => .ok ([], products, allDone)
  | (prime, node) :: rest, products, allDone =>
    match node.partitions[node.iterator]? with
    | none => .error .undefined
    | some partition =>
      let products := products ++ partition.map (fun p => prime ^ p)
      let node := if allDone then { node with iterator := node.iterator + 1 } else node
      let step : PartitionNode × Bool :=
        if node.iterator = node.partitions.length then ({ node with iterator := 0 }, allDone)
        else (node, false)
      match buildCandidate rest products step.2 with
      | .error e => .error e
      | .ok (rest, products, allDone) => .ok ((prime, step.1) :: rest, products, allDone)

/-- The loop `while (!allDone)`, entered with `allDone = false`.  Besides the program
variables `partitions` and `groups` the loop carries the history `built` of every
candidate constructed so far (kept or not), which is not a program variable.  The
result is the final `partitions`, `groups` and `built`. -/
def candidateLoop (G : Group) :
    Nat → SMap PartitionNode → List Group → List Group →
      Except Err (SMap PartitionNode × List Group × List Group)
  | 0, _, _, _ => .error .outOfFuel
  | fuel + 1, partitions, groups, built =>
    match buildCandidate partitions [] true with
    | .error e => .error e
    | .ok (partitions, products, allDone) =>
      let candidate : Group := { products := products }
      let groups := groups ++ [candidate]
      let groups :=
        if G.largestOrderElement < candidate.largestOrderElement then groups.dropLast else groups
      if allDone then .ok (partitions, groups, built ++ [candidate])
      else candidateLoop G fuel partitions groups (built ++ [candidate])

/-- The part of `findPossibleIsoGroup` before the candidate loop: the map `partitions`
for the order of `G/H`.  `G.order` is the attribute of the header, the product of the
factor orders.  The division `G.order / orderOfGen` is undefined when `orderOfGen` is `0`.
Its result is stored in the `unsigned` variable `orderOfQgroup`, which keeps it modulo
`2 ^ 32`; that value is what `primeFactorize(unsigned n, ...)` is given. -/
def quotientPartitions (fuel : Nat) (G : Group) (generator : Tuple) :
    Except Err (SMap PartitionNode) :=
  match orderOfGenerator G generator with
  | .error e => .error e
  | .ok orderOfGen =>
    if orderOfGen = 0 then .error .undefined
    else
      let orderOfQgroup := G.order / orderOfGen % 2 ^ 32
      match primeFactorize fuel orderOfQgroup [] with
      | .error e => .error e
      | .ok factors => partitionAll fuel factors []

/-- The body of `findPossibleIsoGroup(groups, G, generator)`; the result is the final value
of the local map `partitions`, of the in/out vector `groups` and the history of the
candidates built. -/
def findPossibleIsoGroupState (fuel : Nat) (groups : List Group) (G : Group)
    (generator : Tuple) : Except Err (SMap PartitionNode × List Group × List Group) :=
  match quotientPartitions fuel G generator with
  | .error e => .error e
  | .ok partitions => candidateLoop G fuel partitions groups []

/-- The function `findPossibleIsoGroup(groups, G, generator)`; the result is the final
value of the in/out vector `groups`. -/
def findPossibleIsoGroup (fuel : Nat) (groups : List Group) (G : Group)
    (generator : Tuple) : Except Err (List Group) :=
  match findPossibleIsoGroupState fuel groups G generator with
  | .ok (_, groups, _) => .ok groups
  | .error e => .error e


/-- The in/out vector `groups` as the caller of `findPossibleIsoGroup(groups, G, generator)`
has it when the call is over.  The statements before the candidate loop (lines 161 to 224)
do not write to `groups`: when the call is left there by the exception of
`orderOfGenerator`, the vector is as it was passed.  When the call returns, it is the vector
that the candidate loop leaves.  A run that ends in another way has no such value. -/
def findPossibleIsoGroupInOut (fuel : Nat) (groups : List Group) (G : Group)
    (generator : Tuple) : Option (List Group) :=
  match quotientPartitions fuel G generator with
  | .error .sizeMismatch => some groups
  | .error _ => none
  | .ok partitions =>
    match candidateLoop G fuel partitions groups [] with
    | .ok (_, groups, _) => some groups
    | .error _ => none

/-! ## `main` -/

/-- The expression `GStats.rbegin()->first` of `main`: the largest key of the map;
`rbegin()` of an empty map must not be dereferenced. -/
def lastKey (m : SMap Nat) : Except Err Nat :=
  match m.getLast? with
  | none => .error .undefined
  | some kv => .ok kv.1

/-- The narrowing loop of `main`,
`for (unsigned i = 0; i < possibleIsoGroups.size(); i++)`, entered with the current `i`:
a candidate with `largestOrderElement < maxOrder` is erased and `i` is decremented before
the `i++` of the loop.  The index is an `unsigned` of 32 bits: the decrement of `0` wraps
around to `2 ^ 32 - 1` and the increment brings it back to `0`. -/
def narrowLoop (maxOrder : Nat) : Nat → Nat → List Group → Except Err (List Group)
  | 0, _, _ => .error .outOfFuel
  | fuel + 1, i, possibleIsoGroups =>
    if i < possibleIsoGroups.length then
      match possibleIsoGroups[i]? with
      | none => .error .undefined
      | some g =>
        if g.largestOrderElement < maxOrder then
          narrowLoop maxOrder fuel (((i + 2 ^ 32 - 1) % 2 ^ 32 + 1) % 2 ^ 32)
            (possibleIsoGroups.eraseIdx i)
        else narrowLoop maxOrder fuel ((i + 1) % 2 ^ 32) possibleIsoGroups
    else .ok possibleIsoGroups

/-- The narrowing step of `main` (lines 62 to 70): `maxOrder` is the largest key of
`GStats`, and the candidates with a smaller `largestOrderElement` are erased from
`possibleIsoGroups`; the result is the final `possibleIsoGroups`. -/
def narrow (fuel : Nat) (GStats : SMap Nat) (possibleIsoGroups : List Group) :
    Except Err (List Group) :=
  match lastKey GStats with
  | .error e => .error e
  | .ok maxOrder => narrowLoop maxOrder fuel 0 possibleIsoGroups

/-- The last loop of `main`, over the candidates `g` of `possibleIsoGroups`: the histogram
`possibleStats` of `g` is computed from an empty map and compared with `GStats`; the loop
stops at the first candidate with an equal histogram, which is the result. -/
def matchLoop (fuel : Nat) (GStats : SMap Nat) : List Group → Except Err (Option Group)
  | [] => .ok none
  | g :: rest =>
    match calcElementOrders fuel g g.identity [] with
    | .error e => .error e
    | .ok possibleStats =>
      if possibleStats = GStats then .ok (some g) else matchLoop fuel GStats rest

/-! ## Notions used to state the properties -/

/-- The number that a prime -> exponent map stands for: the product of `prime ^ exponent`
over all entries. -/
def factorProduct (m : SMap Nat) : Nat := (m.map (fun pe => pe.1 ^ pe.2)).prod

/-- Every cyclic factor has a positive order. -/
def Group.Valid (G : Group) : Prop := ∀ p ∈ G.products, 0 < p

instance (G : Group) : Decidable G.Valid := by
  unfold Group.Valid; infer_instance

/-- The tuple `t` is an element of `G`: it has the arity of `G` and its `i`-th
component lies in `[0, products[i])`. -/
def Group.Mem (G : Group) (t : Tuple) : Prop := List.Forall₂ (· < ·) t G.products

instance (G : Group) (t : Tuple) : Decidable (G.Mem t) := by
  unfold Group.Mem; infer_instance

/-- The sum of two elements of `G`, component-wise modulo the factor orders. -/
def Group.add (G : Group) (a b : Tuple) : Tuple :=
  List.zipWith (· % ·) (List.zipWith (· + ·) a b) G.products

/-- The inverse of an element of `G`. -/
def Group.neg (G : Group) (a : Tuple) : Tuple :=
  List.zipWith (fun x p => (p - x) % p) a G.products

/-- The multiple `m * x` of an element `x` of `G`. -/
def Group.multiple (G : Group) (m : Nat) (x : Tuple) : Tuple :=
  List.zipWith (fun a p => (m * a) % p) x G.products

/-- The elements of `G` as a type. -/
def Elem (G : Group) : Type := { t : Tuple // G.Mem t }

instance (G : Group) : DecidableEq (Elem G) := by
  unfold Elem; infer_instance

/-- The sum of two elements of `G`. -/
instance Elem.instAdd (G : Group) [hG : Fact G.Valid] : Add (Elem G) where
  add a b := ⟨G.add a.1 b.1, by
    have ha := List.forall₂_iff_get.1 a.2
    have hb := List.forall₂_iff_get.1 b.2
    refine List.forall₂_iff_get.2 ⟨by simp [Group.add, ha.1, hb.1], ?_⟩
    intro i h₁ h₂
    simp only [Group.add, List.get_eq_getElem, List.getElem_zipWith]
    exact Nat.mod_lt _ (hG.out _ (List.getElem_mem _))⟩

/-- The identity of `G`. -/
instance Elem.instZero (G : Group) [hG : Fact G.Valid] : Zero (Elem G) where
  zero := ⟨G.identity, by
    refine List.forall₂_iff_get.2 ⟨by simp [Group.identity], ?_⟩
    intro i h₁ h₂
    simp only [Group.identity, List.get_eq_getElem, List.getElem_replicate]
    exact hG.out _ (List.getElem_mem _)⟩

/-- The inverse of an element of `G`. -/
instance Elem.instNeg (G : Group) [hG : Fact G.Valid] : Neg (Elem G) where
  neg a := ⟨G.neg a.1, by
    have ha := List.forall₂_iff_get.1 a.2
    refine List.forall₂_iff_get.2 ⟨by simp [Group.neg, ha.1], ?_⟩
    intro i h₁ h₂
    simp only [Group.neg, List.get_eq_getElem, List.getElem_zipWith]
    exact Nat.mod_lt _ (hG.out _ (List.getElem_mem _))⟩

/-- The elements of a group with positive factor orders form an abelian group under
`Group.add`. -/
instance Elem.instAddCommGroup (G : Group) [hG : Fact G.Valid] : AddCommGroup (Elem G) where
  add_assoc a b c := by
    have ha := List.forall₂_iff_get.1 a.2
    have hb := List.forall₂_iff_get.1 b.2
    have hc := List.forall₂_iff_get.1 c.2
    apply Subtype.ext
    show G.add (G.add a.1 b.1) c.1 = G.add a.1 (G.add b.1 c.1)
    apply List.ext_getElem (by simp [Group.add, ha.1, hb.1, hc.1])
    intro i h₁ h₂
    simp only [Group.add, List.getElem_zipWith]
    rw [Nat.mod_add_mod, Nat.add_mod_mod, Nat.add_assoc]
  add_comm a b := by
    apply Subtype.ext
    show G.add a.1 b.1 = G.add b.1 a.1
    unfold Group.add
    congr 1
    exact List.zipWith_comm_of_comm _ Nat.add_comm _ _
  zero_add a := by
    have ha := List.forall₂_iff_get.1 a.2
    apply Subtype.ext
    show G.add G.identity a.1 = a.1
    apply List.ext_getElem (by simp [Group.add, Group.identity, ha.1])
    intro i h₁ h₂
    simp only [Group.add, Group.identity, List.getElem_zipWith, List.getElem_replicate,
      Nat.zero_add]
    exact Nat.mod_eq_of_lt (ha.2 i h₂ (by rw [← ha.1]; exact h₂))
  add_zero a := by
    have ha := List.forall₂_iff_get.1 a.2
    apply Subtype.ext
    show G.add a.1 G.identity = a.1
    apply List.ext_getElem (by simp [Group.add, Group.identity, ha.1])
    intro i h₁ h₂
    simp only [Group.add, Group.identity, List.getElem_zipWith, List.getElem_replicate,
      Nat.add_zero]
    exact Nat.mod_eq_of_lt (ha.2 i h₂ (by rw [← ha.1]; exact h₂))
  nsmul := nsmulRec
  zsmul := zsmulRec
  neg_add_cancel a := by
    have ha := List.forall₂_iff_get.1 a.2
    apply Subtype.ext
    show G.add (G.neg a.1) a.1 = G.identity
    apply List.ext_getElem (by simp [Group.add, Group.neg, Group.identity, ha.1])
    intro i h₁ h₂
    have hi : i < a.1.length := by simp [Group.add, Group.neg, ha.1] at h₁; omega
    have hlt := ha.2 i hi (by rw [← ha.1]; exact hi)
    simp only [List.get_eq_getElem] at hlt
    simp only [Group.add, Group.neg, Group.identity, List.getElem_zipWith,
      List.getElem_replicate]
    rw [Nat.mod_add_mod, Nat.sub_add_cancel (le_of_lt hlt), Nat.mod_self]

/-- The multiple `k * generator` is the identity of `G`: `products[i]` divides
`k * generator[i]` for every `i`. -/
def annihilates (G : Group) (generator : Tuple) (k : Nat) : Prop :=
  ∀ pg ∈ List.zip G.products generator, pg.1 ∣ k * pg.2

instance (G : Group) (generator : Tuple) (k : Nat) : Decidable (annihilates G generator k) := by
  unfold annihilates; infer_instance

/-- The number `q` is the order of the coset of `e` in the quotient of `G` by the
subgroup generated by `g`: the least `q ≥ 1` with `q * e` in the subgroup. -/
def IsQuotientOrder {G : Group} [Fact G.Valid] (g e : Elem G) (q : Nat) : Prop :=
  1 ≤ q ∧ q • e ∈ AddSubgroup.zmultiples g ∧
    ∀ m, 1 ≤ m → m < q → m • e ∉ AddSubgroup.zmultiples g

/-- The keys of a map are in strictly increasing order: the list is a `std::map`. -/
def SMap.Sorted {β : Type} (m : SMap β) : Prop := (m.map Prod.fst).Pairwise (· < ·)

instance {β : Type} (m : SMap β) : Decidable (SMap.Sorted m) := by
  unfold SMap.Sorted; infer_instance

/-- The subgroup `H = <generator>` of `G`: the multiples of the generator. -/
def Group.subgroup (G : Group) (generator : Tuple) : Finset Tuple :=
  (Finset.range G.order).image (fun m => G.multiple m generator)

/-- The coset of `x` with respect to `H = <generator>`: the set of all `h + x` with
`h` in `H`. -/
def Group.coset (G : Group) (generator x : Tuple) : Finset Tuple :=
  (G.subgroup generator).image (fun h => G.add h x)

/-- The number `k` is the order of the coset of `x` as an element of `G/H`: the least
`m ≥ 1` with `m * x` in `H = <generator>`. -/
def Group.cosetOrderIs (G : Group) (generator x : Tuple) (k : Nat) : Prop :=
  1 ≤ k ∧ G.multiple k x ∈ G.subgroup generator ∧
    ∀ m < k, 1 ≤ m → G.multiple m x ∉ G.subgroup generator

instance (G : Group) (generator x : Tuple) (k : Nat) :
    Decidable (G.cosetOrderIs generator x k) := by
  unfold Group.cosetOrderIs; infer_instance

/-- The cosets of `H = <generator>` in `G` whose order in `G/H` is `k`. -/
def Group.cosetsOfOrder (G : Group) (generator : Tuple) (k : Nat) : Finset (Finset Tuple) :=
  (G.generateElements.toFinset.filter (fun x => G.cosetOrderIs generator x k)).image
    (G.coset generator)

/-- The number of cosets of `H = <generator>` in `G` whose order in `G/H` is `k`. -/
def Group.cosetCount (G : Group) (generator : Tuple) (k : Nat) : Nat :=
  (G.cosetsOfOrder generator k).card

/-- The sum of all counts of a histogram. -/
def countSum (m : SMap Nat) : Nat := (m.map Prod.snd).sum

/-- The greedy partition of `n ≥ 1` into parts of size at most `y`: parts `y` as long as
more than `y` is left, then the rest. -/
def fillParts (y n : Nat) : List Nat := List.replicate ((n - 1) / y) y ++ [(n - 1) % y + 1]

/-- The partition that follows `q` in the order of the partition loop: the rightmost
entry `x` greater than `1` is decreased by one and everything from it on is
redistributed greedily in parts of at most `x - 1`; there is none when all entries
are `1`. -/
def nextPartition : List Nat → Option (List Nat)
  | [] => none
  | x :: rest =>
    match nextPartition rest with
    | some rest' => some (x :: rest')
    | none => if x ≤ 1 then none else some (fillParts (x - 1) (x + rest.length))

/-- The partitions reached from `q` by at most `n - 1` steps of `nextPartition`. -/
def partitionChain : Nat → List Nat → List (List Nat)
  | 0, _ => []
  | n + 1, q =>
    q :: (match nextPartition q with
          | none => []
          | some q' => partitionChain n q')

/-- The list `q` is a partition of `e`: a non-increasing sequence of positive integers
with sum `e`. -/
def IsPartitionOf (e : Nat) (q : List Nat) : Prop :=
  q.Sorted (· ≥ ·) ∧ (∀ x ∈ q, 1 ≤ x) ∧ q.sum = e

instance (e : Nat) (q : List Nat) : Decidable (IsPartitionOf e q) := by
  unfold IsPartitionOf; infer_instance

/-- All choices of one partition per prime, for a list of primes with their lists of
partitions, in the order of the candidate loop (the choice for the first prime changes
fastest). -/
def choices : List (Nat × List (List Nat)) → List (List (Nat × List Nat))
  | [] => [[]]
  | (p, ps) :: rest => (choices rest).flatMap (fun c => ps.map (fun part => (p, part) :: c))

/-- The candidate group of a choice: one cyclic factor `prime ^ part` for every part of
every chosen partition. -/
def candidateOf (c : List (Nat × List Nat)) : Group :=
  { products := c.flatMap (fun pp => pp.2.map (fun k => pp.1 ^ k)) }

/-- The primes of a map of partitions with their lists of partitions. -/
def partitionLists (partitions : SMap PartitionNode) : List (Nat × List (List Nat)) :=
  partitions.map (fun kn => (kn.1, kn.2.partitions))

/-- The position of the cursors of a map of partitions, read as a number with mixed
radix (the first prime is the lowest digit). -/
def cursorIndex : SMap PartitionNode → Nat
  | [] => 0
  | (_, node) :: rest => node.iterator + node.partitions.length * cursorIndex rest

/-- The number of choices of one partition per prime. -/
def choiceCount (partitions : SMap PartitionNode) : Nat :=
  (partitions.map (fun kn => kn.2.partitions.length)).prod

/-- The map of partitions with all cursors at `0`. -/
def resetCursors (partitions : SMap PartitionNode) : SMap PartitionNode :=
  partitions.map (fun kn => (kn.1, { kn.2 with iterator := 0 }))

/-- The node `kn` of the map of partitions belongs to the prime factor `pe`: it has the
prime as key, its cursor at `0`, and its list holds every partition of the exponent
exactly once. -/
def IsPartitionNode (pe : Nat × Nat) (kn : Nat × PartitionNode) : Prop :=
  kn.1 = pe.1 ∧ kn.2.iterator = 0 ∧ kn.2.partitions.Nodup ∧
    ∀ q, q ∈ kn.2.partitions ↔ IsPartitionOf pe.2 q

/-- The elements of `G` are finitely many: they are listed by `generateElements`. -/
instance Elem.instFintype (G : Group) : Fintype (Elem G) :=
  Fintype.subtype G.generateElements.toFinset (fun t => by
    rw [List.mem_toFinset]
    show t ∈ tuplesBelow G.products ↔ List.Forall₂ (· < ·) t G.products
    induction G.products generalizing t with
    | nil => simp [tuplesBelow]
    | cons p ps ih =>
      simp only [tuplesBelow, List.mem_flatMap, List.mem_range, List.mem_map]
      constructor
      · rintro ⟨a, ha, s, hs, rfl⟩
        exact List.Forall₂.cons ha ((ih s).1 hs)
      · intro h
        cases h with
        | cons h1 h2 => exact ⟨_, h1, _, (ih _).2 h2, rfl⟩)

/-- The direct product of the cyclic groups `Z_n` for the entries `n` of a list. -/
def CyclicProduct : List Nat → Type
  | [] => PUnit
  | n :: L => ZMod n × CyclicProduct L

/-- The group structure of a product of cyclic groups. -/
instance CyclicProduct.instAddCommGroup : (L : List Nat) → AddCommGroup (CyclicProduct L)
  | [] => inferInstanceAs (AddCommGroup PUnit)
  | n :: L =>
    letI := CyclicProduct.instAddCommGroup L
    inferInstanceAs (AddCommGroup (ZMod n × CyclicProduct L))

/-- The element of `G` that a tuple in range is. -/
def Elem.ofMem {G : Group} (t : Tuple) (h : G.Mem t) : Elem G := ⟨t, h⟩

/-- The group `c` is, as a group, the quotient of `G` by the subgroup that `generator`
generates. -/
def IsQuotient (G : Group) (generator : Tuple) (c : Group) : Prop :=
  ∃ (hG : G.Valid) (hg : G.Mem generator) (hc : c.Valid),
    haveI := Fact.mk hG
    haveI := Fact.mk hc
    Nonempty ((Elem G ⧸ AddSubgroup.zmultiples (Elem.ofMem generator hg)) ≃+ Elem c)

/-- The map of partitions for a factorisation: for every prime the chain of partitions
from `[exponent]`, with the cursor at `0`. -/
def chainNodes (fuel : Nat) (factors : SMap Nat) : SMap PartitionNode :=
  factors.map (fun pe => (pe.1, { partitions := partitionChain fuel [pe.2], iterator := 0 }))

/-! ## Theorems -/

/-! ### Facts about maps -/

theorem SMap.mem_update {β : Type} (m : SMap β) (k : Nat) (f : Option β → β) (kv : Nat × β)
    (h : kv ∈ SMap.update m k f) : kv.1 = k ∨ kv ∈ m := by
  induction m with
  | nil =>
    simp only [SMap.update, List.mem_singleton] at h
    left; rw [h]
  | cons hd tl ih =>
    obtain ⟨k', v⟩ := hd
    simp only [SMap.update] at h
    split_ifs at h with h1 h2
    · rcases List.mem_cons.1 h with h | h
      · left; rw [h]
      · right; exact h
    · rcases List.mem_cons.1 h with h | h
      · left; rw [h]
      · right; exact List.mem_cons_of_mem _ h
    · rcases List.mem_cons.1 h with h | h
      · right; rw [h]; exact List.mem_cons_self _ _
      · rcases ih h with h | h
        · left; exact h
        · right; exact List.mem_cons_of_mem _ h

theorem factorProduct_incr (m : SMap Nat) (k : Nat) :
    factorProduct (SMap.incr m k) = k * factorProduct m := by
  induction m with
  | nil => simp [SMap.incr, SMap.update, factorProduct]
  | cons hd tl ih =>
    obtain ⟨k', v⟩ := hd
    simp only [SMap.incr, SMap.update]
    split_ifs with h1 h2
    · simp [factorProduct]
    · subst h2
      simp [factorProduct, pow_succ]
      ring
    · have ih' : factorProduct (SMap.update tl k fun o => o.getD 0 + 1) = k * factorProduct tl := ih
      simp only [factorProduct, List.map_cons, List.prod_cons] at ih' ⊢
      rw [ih']; ring

theorem SMap.find_eq_none {β : Type} (m : SMap β) (k : Nat) :
    SMap.find m k = none ↔ ∀ kv ∈ m, kv.1 ≠ k := by
  induction m with
  | nil => simp [SMap.find]
  | cons hd tl ih =>
    obtain ⟨k', v⟩ := hd
    simp only [SMap.find]
    split_ifs with h
    · simp [h]
    · simp [ih, Ne.symm h]

theorem factorProduct_assign (m : SMap Nat) (k v : Nat) (h : ∀ kv ∈ m, kv.1 ≠ k) :
    factorProduct (SMap.assign m k v) = k ^ v * factorProduct m := by
  induction m with
  | nil => simp [SMap.assign, SMap.update, factorProduct]
  | cons hd tl ih =>
    obtain ⟨k', v'⟩ := hd
    have hk : k' ≠ k := h (k', v') (List.mem_cons_self _ _)
    have ih' := ih (fun kv hkv => h kv (List.mem_cons_of_mem _ hkv))
    simp only [SMap.assign, SMap.update]
    split_ifs with h1 h2
    · simp [factorProduct]
    · exact absurd h2.symm hk
    · simp only [SMap.assign] at ih'
      simp only [factorProduct, List.map_cons, List.prod_cons] at ih' ⊢
      rw [ih']; ring

/-! ### `primeFactorize` -/

theorem divideOut_spec (p : Nat) (hp : 2 ≤ p) :
    ∀ (fuel n : Nat) (primes : SMap Nat), 0 < n → n % p = 0 → n ≤ fuel →
      ∃ n' primes', divideOut fuel p n primes = .ok (n', primes') ∧
        n' * factorProduct primes' = n * factorProduct primes ∧ 0 < n' ∧ n' ≤ n ∧
        n' % p ≠ 0 ∧ (∀ kv ∈ primes', kv.1 = p ∨ kv ∈ primes) := by
  intro fuel
  induction fuel with
  | zero => intro n primes hn _ hf; omega
  | succ fuel ih =>
    intro n primes hn hmod hf
    have hdvd : p ∣ n := Nat.dvd_of_mod_eq_zero hmod
    have hdiv : n / p * p = n := Nat.div_mul_cancel hdvd
    have hpos : 0 < n / p := Nat.div_pos (Nat.le_of_dvd hn hdvd) (by omega)
    have hlt : n / p < n := Nat.div_lt_self hn (by omega)
    simp only [divideOut]
    split_ifs with h
    · obtain ⟨n', primes', h1, h2, h3, h4, h5, h6⟩ :=
        ih (n / p) (SMap.incr primes p) hpos h (by omega)
      refine ⟨n', primes', h1, ?_, h3, by omega, h5, ?_⟩
      · rw [h2, factorProduct_incr, ← mul_assoc, hdiv]
      · intro kv hkv
        rcases h6 kv hkv with h | h
        · exact Or.inl h
        · exact SMap.mem_update _ _ _ _ h
    · refine ⟨n / p, SMap.incr primes p, rfl, ?_, hpos, by omega, h, ?_⟩
      · rw [factorProduct_incr, ← mul_assoc, hdiv]
      · intro kv hkv
        exact SMap.mem_update _ _ _ _ hkv

theorem oddLoop_spec (inner : Nat) :
    ∀ (fuel p n : Nat) (primes : SMap Nat), 2 ≤ p → 0 < n → n + 1 ≤ fuel + p → 1 ≤ fuel →
      n ≤ inner → (∀ kv ∈ primes, kv.1 < p) →
      ∃ n' primes', oddLoop inner fuel p n primes = .ok (n', primes') ∧
        n' * factorProduct primes' = n * factorProduct primes ∧ 0 < n' := by
  intro fuel
  induction fuel with
  | zero => intro p n primes _ _ _ h; omega
  | succ fuel ih =>
    intro p n primes hp hn hf _ hin hkeys
    simp only [oddLoop]
    split_ifs with h1 h2
    · have hpn : 2 * p ≤ n := le_trans (Nat.mul_le_mul_right p hp) h1
      have hne : ∀ kv ∈ primes, kv.1 ≠ p := fun kv hkv => Nat.ne_of_lt (hkeys kv hkv)
      obtain ⟨n₁, primes₁, e1, e2, e3, e4, _, e6⟩ :=
        divideOut_spec p hp inner n (SMap.assign primes p 0) hn h2 hin
      rw [e1]
      simp only
      have hkeys₁ : ∀ kv ∈ primes₁, kv.1 < p + 2 := by
        intro kv hkv
        rcases e6 kv hkv with h | h
        · omega
        · rcases SMap.mem_update _ _ _ _ h with h | h
          · omega
          · have := hkeys kv h; omega
      obtain ⟨n', primes', f1, f2, f3⟩ :=
        ih (p + 2) n₁ primes₁ (by omega) e3 (by omega) (by omega) (by omega) hkeys₁
      refine ⟨n', primes', f1, ?_, f3⟩
      rw [f2, e2, factorProduct_assign _ _ _ hne, pow_zero, one_mul]
    · have hpn : 2 * p ≤ n := le_trans (Nat.mul_le_mul_right p hp) h1
      exact ih (p + 2) n primes (by omega) hn (by omega) (by omega) hin
        (fun kv hkv => by have := hkeys kv hkv; omega)
    · exact ⟨n, primes, rfl, rfl, hn⟩

theorem primeFactorize_spec (n fuel : Nat) (hn : 0 < n) (hf : n ≤ fuel) :
    ∃ primes, primeFactorize fuel n [] = .ok primes ∧ factorProduct primes = n := by
  have key : ∀ (m : Nat) (ps : SMap Nat), 0 < m → m ≤ fuel → (∀ kv ∈ ps, kv.1 < 3) →
      m * factorProduct ps = n →
      ∃ primes, (match oddLoop fuel fuel 3 m ps with
        | .error e => .error e
        | .ok (n, primes) =>
          if n ≠ 1 then
            match SMap.find primes n with
            | none => .ok (SMap.assign primes n 1)
            | some _ => .ok (SMap.incr primes n)
          else .ok primes) = Except.ok primes ∧ factorProduct primes = n := by
    intro m ps hm hmf hkeys hprod
    obtain ⟨n', primes', f1, f2, f3⟩ :=
      oddLoop_spec fuel fuel 3 m ps (by omega) hm (by omega) (by omega) hmf hkeys
    rw [f1]
    simp only
    split_ifs with h1
    · cases hfind : SMap.find primes' n' with
      | none =>
        refine ⟨_, rfl, ?_⟩
        rw [factorProduct_assign _ _ _ ((SMap.find_eq_none _ _).1 hfind), pow_one, f2, hprod]
      | some v =>
        refine ⟨_, rfl, ?_⟩
        rw [factorProduct_incr, f2, hprod]
    · refine ⟨_, rfl, ?_⟩
      have : n' = 1 := by simpa using h1
      rw [this, one_mul] at f2
      rw [f2, hprod]
  unfold primeFactorize
  split_ifs with h2
  · obtain ⟨n₁, primes₁, e1, e2, e3, e4, _, e6⟩ :=
      divideOut_spec 2 (le_refl 2) fuel n (SMap.assign [] 2 0) hn h2 hf
    rw [e1]
    simp only
    apply key n₁ primes₁ e3 (by omega)
    · intro kv hkv
      rcases e6 kv hkv with h | h
      · omega
      · simp [SMap.assign, SMap.update] at h
        rw [h]; decide
    · rw [e2]; simp [SMap.assign, SMap.update, factorProduct]
  · simp only
    exact key n [] hn hf (by simp) (by simp [factorProduct])

/-- C10. For every positive `n`, `primeFactorize(n)` started with an empty map returns
(given fuel of at least `n`) a map whose product of `prime ^ exponent` over all entries is
`n` again; for `n = 1` the map is empty. -/
theorem primeFactorize_roundtrip (n fuel : Nat) (hn : 0 < n) (hf : n ≤ fuel) :
    ∃ primes, primeFactorize fuel n [] = .ok primes ∧ factorProduct primes = n ∧
      (n = 1 → primes = []) := by
  obtain ⟨primes, h1, h2⟩ := primeFactorize_spec n fuel hn hf
  refine ⟨primes, h1, h2, ?_⟩
  intro h
  subst h
  obtain ⟨fuel, rfl⟩ : ∃ k, fuel = k + 1 := ⟨fuel - 1, by omega⟩
  have : primeFactorize (fuel + 1) 1 [] = .ok [] := by
    simp [primeFactorize, oddLoop]
  rw [this] at h1
  injection h1 with h1
  exact h1.symm

theorem primeFactorize_roundtrip_witness :
    0 < 360 ∧ 360 ≤ 360 ∧ ∃ primes, primeFactorize 360 360 [] = .ok primes ∧
      factorProduct primes = 360 ∧ (360 = 1 → primes = []) :=
  ⟨by decide, by decide, primeFactorize_roundtrip 360 360 (by decide) (by decide)⟩

theorem Elem.val_add {G : Group} [Fact G.Valid] (a b : Elem G) :
    (a + b).1 = G.add a.1 b.1 := rfl

theorem Elem.val_zero {G : Group} [Fact G.Valid] : (0 : Elem G).1 = G.identity := rfl

theorem Elem.val_nsmul {G : Group} [Fact G.Valid] (m : Nat) (a : Elem G) :
    (m • a).1 = G.multiple m a.1 := by
  have ha := List.forall₂_iff_get.1 a.2
  induction m with
  | zero =>
    rw [zero_smul, Elem.val_zero]
    apply List.ext_getElem (by simp [Group.identity, Group.multiple, ha.1])
    intro i h₁ h₂
    simp [Group.identity, Group.multiple]
  | succ m ih =>
    rw [succ_nsmul, Elem.val_add, ih]
    apply List.ext_getElem (by simp [Group.add, Group.multiple, ha.1])
    intro i h₁ h₂
    simp only [Group.add, Group.multiple, List.getElem_zipWith]
    rw [Nat.mod_add_mod, Nat.succ_mul]

/-! ### `orderOfGenerator` -/

theorem div_gcd_dvd_iff (p g m : Nat) (hp : 0 < p) : p / Nat.gcd p g ∣ m ↔ p ∣ m * g := by
  have hd : 0 < Nat.gcd p g := Nat.gcd_pos_of_pos_left g hp
  obtain ⟨p', hp'⟩ : Nat.gcd p g ∣ p := Nat.gcd_dvd_left p g
  obtain ⟨g', hg'⟩ : Nat.gcd p g ∣ g := Nat.gcd_dvd_right p g
  have hcop : Nat.Coprime p' g' := by
    have h := Nat.coprime_div_gcd_div_gcd hd
    rwa [Nat.div_eq_of_eq_mul_right hd hp', Nat.div_eq_of_eq_mul_right hd hg'] at h
  have e1 : p / Nat.gcd p g = p' := Nat.div_eq_of_eq_mul_right hd hp'
  rw [e1]
  constructor
  · rintro ⟨c, rfl⟩
    refine ⟨c * g', ?_⟩
    calc p' * c * g = p' * c * (Nat.gcd p g * g') := by rw [← hg']
      _ = (Nat.gcd p g * p') * (c * g') := by ring
      _ = p * (c * g') := by rw [← hp']
  · intro h
    have h2 : Nat.gcd p g * p' ∣ Nat.gcd p g * (m * g') := by
      have : Nat.gcd p g * (m * g') = m * (Nat.gcd p g * g') := by ring
      rw [this, ← hg', ← hp']
      exact h
    have h3 : p' ∣ m * g' := (Nat.mul_dvd_mul_iff_left hd).1 h2
    exact hcop.dvd_of_dvd_mul_right h3

/-- The least common multiple `k` of the current order and of the orders
`p / gcd(p, g)` of the remaining components: the loop of `orderOfGenerator` returns `k`
when `k` is below `2 ^ 32`, no reduction modulo `2 ^ 32` taking effect on the way. -/
theorem orderOfGeneratorLoop_spec :
    ∀ (ps gs : List Nat) (cur : Nat), (∀ p ∈ ps, 0 < p) → 0 < cur →
      ∃ k, 0 < k ∧ (∀ m, k ∣ m ↔ cur ∣ m ∧ ∀ pg ∈ List.zip ps gs, pg.1 ∣ m * pg.2) ∧
        (k < 2 ^ 32 → orderOfGeneratorLoop ps gs cur = .ok k) := by
  intro ps
  induction ps with
  | nil =>
    intro gs cur _ h
    exact ⟨cur, h, by simp, fun _ => by simp [orderOfGeneratorLoop]⟩
  | cons p ps ih =>
    intro gs cur hpos hcur
    cases gs with
    | nil => exact ⟨cur, hcur, by simp, fun _ => by simp [orderOfGeneratorLoop]⟩
    | cons g gs =>
      have hp := hpos p (List.mem_cons_self _ _)
      have hq : 0 < p / Nat.gcd p g :=
        Nat.div_pos (Nat.le_of_dvd hp (Nat.gcd_dvd_left p g)) (Nat.gcd_pos_of_pos_left g hp)
      obtain ⟨k, k1, k2, k3⟩ := ih gs (Nat.lcm cur (p / Nat.gcd p g))
        (fun q hq => hpos q (List.mem_cons_of_mem _ hq)) (Nat.lcm_pos hcur hq)
      refine ⟨k, k1, ?_, ?_⟩
      · intro m
        rw [k2, Nat.lcm_dvd_iff, div_gcd_dvd_iff p g m hp]
        simp only [List.zip_cons_cons, List.mem_cons, forall_eq_or_imp]
        tauto
      · intro hk
        have hdvd : Nat.lcm cur (p / Nat.gcd p g) ∣ k := ((k2 k).1 (dvd_refl k)).1
        have hlt : Nat.lcm cur (p / Nat.gcd p g) < 2 ^ 32 :=
          lt_of_le_of_lt (Nat.le_of_dvd k1 hdvd) hk
        simp only [orderOfGeneratorLoop]
        rw [if_neg (Nat.gcd_pos_of_pos_left g hp).ne', Nat.mod_eq_of_lt hlt]
        exact k3 hk

/-- With positive factor orders no division of the loop of `orderOfGenerator` is by zero:
the loop returns a value. -/
theorem orderOfGeneratorLoop_total :
    ∀ (ps gs : List Nat) (cur : Nat), (∀ p ∈ ps, 0 < p) →
      ∃ n, orderOfGeneratorLoop ps gs cur = .ok n := by
  intro ps
  induction ps with
  | nil => intro gs cur _; exact ⟨cur, by simp [orderOfGeneratorLoop]⟩
  | cons p ps ih =>
    intro gs cur hpos
    cases gs with
    | nil => exact ⟨cur, by simp [orderOfGeneratorLoop]⟩
    | cons g gs =>
      have hp := hpos p (List.mem_cons_self _ _)
      simp only [orderOfGeneratorLoop]
      rw [if_neg (Nat.gcd_pos_of_pos_left g hp).ne']
      exact ih gs _ (fun q hq => hpos q (List.mem_cons_of_mem _ hq))

/-- The loop of `orderOfGenerator` fails only by a division by zero, at a factor order
`0` whose generator entry is `0`. -/
theorem orderOfGeneratorLoop_error :
    ∀ (ps gs : List Nat) (cur : Nat) (e : Err), orderOfGeneratorLoop ps gs cur = .error e →
      e = .undefined ∧ (0, 0) ∈ List.zip ps gs := by
  intro ps
  induction ps with
  | nil => intro gs cur e h; simp [orderOfGeneratorLoop] at h
  | cons p ps ih =>
    intro gs cur e h
    cases gs with
    | nil => simp [orderOfGeneratorLoop] at h
    | cons g gs =>
      simp only [orderOfGeneratorLoop] at h
      split_ifs at h with h0
      · injection h with h
        obtain ⟨hp0, hg0⟩ := Nat.gcd_eq_zero_iff.1 h0
        refine ⟨h.symm, ?_⟩
        rw [hp0, hg0]
        exact List.mem_cons_self _ _
      · obtain ⟨e1, e2⟩ := ih gs _ e h
        exact ⟨e1, List.mem_cons_of_mem _ e2⟩

/-- The order of the generator, the least positive `k` with `k * generator = 0`: the
multiples `m` with `m * generator = 0` are the multiples of it, and it is the value of
`orderOfGenerator` when it is below `2 ^ 32`. -/
theorem orderOfGenerator_spec (G : Group) (generator : Tuple) (hG : G.Valid)
    (hlen : generator.length = G.products.length) :
    ∃ k, 0 < k ∧ (∀ m, annihilates G generator m ↔ k ∣ m) ∧
      (k < 2 ^ 32 → orderOfGenerator G generator = .ok k) := by
  obtain ⟨k, k1, k2, k3⟩ := orderOfGeneratorLoop_spec G.products generator 1 hG Nat.one_pos
  refine ⟨k, k1, ?_, ?_⟩
  · intro m
    rw [k2]
    simp [annihilates]
  · intro hk
    rw [← k3 hk]
    simp [orderOfGenerator, hlen]

/-- For positive factor orders and a generator of the arity of `G`, `orderOfGenerator`
returns a value. -/
theorem orderOfGenerator_total (G : Group) (generator : Tuple) (hG : G.Valid)
    (hlen : generator.length = G.products.length) :
    ∃ n, orderOfGenerator G generator = .ok n := by
  obtain ⟨n, hn⟩ := orderOfGeneratorLoop_total G.products generator 1 hG
  exact ⟨n, by rw [← hn]; simp [orderOfGenerator, hlen]⟩

/-! ### The elements of a group -/

theorem Group.Mem.length_eq {G : Group} {t : Tuple} (h : G.Mem t) :
    t.length = G.products.length := List.Forall₂.length_eq h

theorem modAdd_eq (G : Group) {a b : Tuple} (la : a.length = G.products.length)
    (lb : b.length = G.products.length) : modAdd G a b = .ok (G.add a b) := by
  simp [modAdd, Tuple.add, Group.mod, Group.add, la, lb]

theorem modAdd_elem {G : Group} [Fact G.Valid] (a b : Elem G) :
    modAdd G a.1 b.1 = .ok (a + b).1 :=
  modAdd_eq G a.2.length_eq b.2.length_eq

theorem mem_tuplesBelow : ∀ (ps : List Nat) (t : Tuple),
    t ∈ tuplesBelow ps ↔ List.Forall₂ (· < ·) t ps := by
  intro ps
  induction ps with
  | nil => intro t; simp [tuplesBelow]
  | cons p ps ih =>
    intro t
    simp only [tuplesBelow, List.mem_flatMap, List.mem_range, List.mem_map]
    constructor
    · rintro ⟨a, ha, s, hs, rfl⟩
      exact List.Forall₂.cons ha ((ih s).1 hs)
    · intro h
      cases h with
      | cons h1 h2 => exact ⟨_, h1, _, (ih _).2 h2, rfl⟩

theorem nodup_tuplesBelow : ∀ (ps : List Nat), (tuplesBelow ps).Nodup := by
  intro ps
  induction ps with
  | nil => simp [tuplesBelow]
  | cons p ps ih =>
    simp only [tuplesBelow]
    rw [List.nodup_flatMap]
    constructor
    · intro a _
      exact ih.map (fun s t h => by injection h)
    · apply List.Pairwise.imp _ (List.nodup_range p)
      intro a b hab
      simp only [Function.onFun, List.Disjoint, List.mem_map]
      rintro t ⟨s, _, rfl⟩ ⟨s', _, h⟩
      injection h with h1 h2
      exact hab h1.symm

theorem length_tuplesBelow : ∀ (ps : List Nat), (tuplesBelow ps).length = ps.prod := by
  intro ps
  induction ps with
  | nil => simp [tuplesBelow]
  | cons p ps ih =>
    have h : (List.length ∘ fun a => List.map (fun t => a :: t) (tuplesBelow ps)) =
        fun _ => ps.prod := by
      funext a; simp [ih]
    simp [tuplesBelow, List.length_flatMap, h]

theorem Group.order_eq_prod (G : Group) : G.order = G.products.prod := by
  unfold Group.order
  exact (List.prod_eq_foldl).symm

theorem Group.mem_generateElements (G : Group) (t : Tuple) :
    t ∈ G.generateElements ↔ G.Mem t := mem_tuplesBelow _ _

theorem Group.nodup_generateElements (G : Group) : G.generateElements.Nodup :=
  nodup_tuplesBelow _

theorem Group.length_generateElements (G : Group) : G.generateElements.length = G.order := by
  rw [Group.order_eq_prod]; exact length_tuplesBelow _

theorem Group.order_pos (G : Group) (hG : G.Valid) : 0 < G.order := by
  rw [Group.order_eq_prod]
  exact List.prod_pos hG

/-- The order of the group annihilates every tuple. -/
theorem annihilates_order (G : Group) (generator : Tuple) :
    annihilates G generator G.order := by
  intro pg hpg
  have : pg.1 ∈ G.products := (List.of_mem_zip hpg).1
  rw [Group.order_eq_prod]
  exact Dvd.dvd.mul_right (List.dvd_prod this) _

theorem Elem.nsmul_eq_zero_iff {G : Group} [Fact G.Valid] (g : Elem G) (m : Nat) :
    m • g = 0 ↔ annihilates G g.1 m := by
  have hg := List.forall₂_iff_get.1 g.2
  rw [Subtype.ext_iff, Elem.val_nsmul, Elem.val_zero]
  unfold annihilates Group.multiple Group.identity
  constructor
  · intro h pg hpg
    obtain ⟨i, hi, rfl⟩ := List.mem_iff_getElem.1 hpg
    have h1 : (List.zipWith (fun a p => m * a % p) g.1 G.products)[i]? =
        (List.replicate G.products.length 0)[i]? := by rw [h]
    simp only [List.length_zip] at hi
    simp only [List.getElem_zip]
    have : ((List.zipWith (fun a p => m * a % p) g.1 G.products)[i]?) = some (m * g.1[i] % G.products[i]) := by
      rw [List.getElem?_eq_getElem (by simp; omega)]
      simp
    rw [this] at h1
    have h2 : (List.replicate G.products.length 0)[i]? = some 0 := by
      rw [List.getElem?_eq_getElem (by simp; omega)]
      simp
    rw [h2] at h1
    injection h1 with h1
    exact Nat.dvd_of_mod_eq_zero h1
  · intro h
    apply List.ext_getElem (by simp [hg.1])
    intro i h₁ h₂
    simp only [List.getElem_zipWith, List.getElem_replicate]
    apply Nat.mod_eq_zero_of_dvd
    have hi : i < g.1.length := by simp at h₁; omega
    have hi' : i < G.products.length := by simp at h₂; omega
    exact h (G.products[i], g.1[i]) (by
      rw [List.mem_iff_getElem]
      exact ⟨i, by simp; omega, by simp⟩)

theorem Elem.order_nsmul {G : Group} [hG : Fact G.Valid] (x : Elem G) : G.order • x = 0 := by
  rw [Elem.nsmul_eq_zero_iff]
  intro pg hpg
  have : pg.1 ∈ G.products := (List.of_mem_zip hpg).1
  rw [Group.order_eq_prod]
  exact Dvd.dvd.mul_right (List.dvd_prod this) _

theorem Elem.isOfFinAddOrder {G : Group} [hG : Fact G.Valid] (x : Elem G) :
    IsOfFinAddOrder x :=
  isOfFinAddOrder_iff_nsmul_eq_zero.2 ⟨G.order, G.order_pos hG.out, Elem.order_nsmul x⟩

theorem Elem.addOrderOf_pos {G : Group} [Fact G.Valid] (x : Elem G) : 0 < addOrderOf x :=
  (Elem.isOfFinAddOrder x).addOrderOf_pos

theorem Elem.addOrderOf_le {G : Group} [hG : Fact G.Valid] (x : Elem G) :
    addOrderOf x ≤ G.order :=
  Nat.le_of_dvd (G.order_pos hG.out) (addOrderOf_dvd_of_nsmul_eq_zero (Elem.order_nsmul x))

/-- The value of `orderOfGenerator` is the order of the generator as an element of the
group, when that order is below `2 ^ 32`. -/
theorem orderOfGenerator_eq_addOrderOf {G : Group} [hG : Fact G.Valid] (g : Elem G)
    (hfit : addOrderOf g < 2 ^ 32) :
    orderOfGenerator G g.1 = .ok (addOrderOf g) := by
  obtain ⟨k, h2, h3, h1⟩ := orderOfGenerator_spec G g.1 hG.out g.2.length_eq
  have hk : k = addOrderOf g := by
    apply Nat.dvd_antisymm
    · rw [← h3, ← Elem.nsmul_eq_zero_iff]
      exact addOrderOf_nsmul_eq_zero g
    · apply addOrderOf_dvd_of_nsmul_eq_zero
      rw [Elem.nsmul_eq_zero_iff, h3]
  rw [hk] at h1
  exact h1 hfit

/-- The order of an element is below `2 ^ 32` when some positive multiple below `2 ^ 32`
annihilates it. -/
theorem Elem.addOrderOf_lt_of_annihilates {G : Group} [Fact G.Valid] (g : Elem G)
    (hfit : ∃ k, 1 ≤ k ∧ k < 2 ^ 32 ∧ annihilates G g.1 k) : addOrderOf g < 2 ^ 32 := by
  obtain ⟨k, k1, k2, k3⟩ := hfit
  have : addOrderOf g ∣ k := by
    apply addOrderOf_dvd_of_nsmul_eq_zero
    rw [Elem.nsmul_eq_zero_iff]
    exact k3
  exact lt_of_le_of_lt (Nat.le_of_dvd k1 this) k2

/-! ### The identity coset -/

theorem eraseFound_of_mem {pool : List Tuple} {x : Tuple} (h : x ∈ pool) :
    eraseFound pool x = .ok (pool.erase x) := by
  simp [eraseFound, h]

theorem Elem.val_ne_identity_iff {G : Group} [Fact G.Valid] (x : Elem G) :
    x.1 ≠ G.identity ↔ x ≠ 0 := by
  rw [Ne, Ne, Subtype.ext_iff, Elem.val_zero]

theorem Elem.nsmul_injOn {G : Group} [Fact G.Valid] (g : Elem G) {i j : Nat}
    (hi : 1 ≤ i) (hi' : i ≤ addOrderOf g) (hj : 1 ≤ j) (hj' : j ≤ addOrderOf g)
    (h : i • g = j • g) : i = j := by
  rw [nsmul_inj_mod] at h
  rcases Nat.lt_or_ge i (addOrderOf g) with h1 | h1 <;>
    rcases Nat.lt_or_ge j (addOrderOf g) with h2 | h2
  · rwa [Nat.mod_eq_of_lt h1, Nat.mod_eq_of_lt h2] at h
  · have : j = addOrderOf g := le_antisymm hj' h2
    rw [Nat.mod_eq_of_lt h1, this, Nat.mod_self] at h
    omega
  · have : i = addOrderOf g := le_antisymm hi' h1
    rw [Nat.mod_eq_of_lt h2, this, Nat.mod_self] at h
    omega
  · omega

theorem generateH_spec {G : Group} [Fact G.Valid] (g : Elem G) :
    ∀ (fuel j : Nat) (H pool : List Tuple), 1 ≤ j → j ≤ addOrderOf g →
      addOrderOf g - j < fuel →
      (∀ i, j < i → i ≤ addOrderOf g → (i • g).1 ∈ pool) →
      generateH G g.1 G.identity fuel (j • g).1 H pool =
        .ok (H ++ (List.range' (j + 1) (addOrderOf g - j)).map (fun i => (i • g).1),
          pool.diff ((List.range' (j + 1) (addOrderOf g - j)).map (fun i => (i • g).1))) := by
  intro fuel
  induction fuel with
  | zero => intro j H pool _ _ h; omega
  | succ fuel ih =>
    intro j H pool hj hj' hf hpool
    unfold generateH
    by_cases hz : j • g = 0
    · have hjn : j = addOrderOf g :=
        le_antisymm hj' (Nat.le_of_dvd hj (addOrderOf_dvd_of_nsmul_eq_zero hz))
      have : ¬ ((j • g).1 ≠ G.identity) := by
        rw [Elem.val_ne_identity_iff]; simpa using hz
      rw [if_neg this, hjn]
      simp
    · have hjn : j < addOrderOf g := by
        rcases Nat.lt_or_ge j (addOrderOf g) with h | h
        · exact h
        · exfalso
          apply hz
          rw [le_antisymm hj' h]
          exact addOrderOf_nsmul_eq_zero g
      have : (j • g).1 ≠ G.identity := (Elem.val_ne_identity_iff _).2 hz
      rw [if_pos this]
      have hadd : modAdd G (j • g).1 g.1 = .ok ((j + 1) • g).1 := by
        rw [modAdd_elem, succ_nsmul]
      rw [hadd]
      simp only
      rw [eraseFound_of_mem (hpool (j + 1) (by omega) (by omega))]
      simp only
      rw [ih (j + 1) _ _ (by omega) (by omega) (by omega)]
      · have e : addOrderOf g - j = (addOrderOf g - (j + 1)) + 1 := by omega
        rw [e, List.range'_succ]
        simp [List.diff_cons]
      · intro i hi hi'
        rw [List.mem_erase_of_ne]
        · exact hpool i (by omega) hi'
        · intro h
          have := Elem.nsmul_injOn g (by omega) hi' (by omega) (by omega) (Subtype.ext h)
          omega

theorem identityCoset_spec {G : Group} [Fact G.Valid] (g : Elem G) (fuel : Nat)
    (hf : addOrderOf g ≤ fuel) :
    identityCoset fuel G g.1 =
      .ok ((List.range' 1 (addOrderOf g)).map (fun i => (i • g).1),
        G.generateElements.diff ((List.range' 1 (addOrderOf g)).map (fun i => (i • g).1))) := by
  have hpos := Elem.addOrderOf_pos g
  unfold identityCoset
  rw [eraseFound_of_mem ((G.mem_generateElements _).2 g.2)]
  simp only
  have h1 : g.1 = (1 • g).1 := by rw [one_nsmul]
  have := generateH_spec g fuel 1 [g.1] (G.generateElements.erase g.1) (le_refl 1) hpos
    (by omega) (by
      intro i hi hi'
      rw [List.mem_erase_of_ne]
      · exact (G.mem_generateElements _).2 (i • g).2
      · intro h
        rw [h1] at h
        have := Elem.nsmul_injOn g (by omega) hi' (le_refl 1) hpos (Subtype.ext h)
        omega)
  rw [← h1] at this
  rw [this]
  have e : addOrderOf g = (addOrderOf g - 1) + 1 := by omega
  conv_rhs => rw [e, List.range'_succ]
  simp [List.diff_cons]

theorem mem_multiplesList_iff {G : Group} [Fact G.Valid] (g y : Elem G) :
    y.1 ∈ (List.range' 1 (addOrderOf g)).map (fun i => (i • g).1) ↔
      y ∈ AddSubgroup.zmultiples g := by
  rw [(Elem.isOfFinAddOrder g).mem_zmultiples_iff_mem_range_addOrderOf]
  simp only [List.mem_map, List.mem_range'_1, Finset.mem_image, Finset.mem_range]
  constructor
  · rintro ⟨i, ⟨hi, hi'⟩, h⟩
    have h := Subtype.ext h
    rcases Nat.lt_or_ge i (addOrderOf g) with h1 | h1
    · exact ⟨i, h1, h⟩
    · refine ⟨0, Elem.addOrderOf_pos g, ?_⟩
      have : i = addOrderOf g := by omega
      rw [← h, this, addOrderOf_nsmul_eq_zero, zero_nsmul]
  · rintro ⟨i, hi, h⟩
    rcases Nat.eq_zero_or_pos i with h0 | h0
    · refine ⟨addOrderOf g, ⟨Elem.addOrderOf_pos g, by omega⟩, ?_⟩
      rw [← h, h0, addOrderOf_nsmul_eq_zero, zero_nsmul]
    · exact ⟨i, ⟨h0, by omega⟩, by rw [h]⟩

theorem nodup_multiplesList {G : Group} [Fact G.Valid] (g : Elem G) :
    ((List.range' 1 (addOrderOf g)).map (fun i => i • g)).Nodup := by
  apply List.Nodup.map_on _ (List.nodup_range' 1 (addOrderOf g))
  intro i hi j hj h
  rw [List.mem_range'_1] at hi hj
  exact Elem.nsmul_injOn g hi.1 (by omega) hj.1 (by omega) h

/-! ### The other cosets -/

theorem mem_cosetList_iff {G : Group} [Fact G.Valid] (g e y : Elem G) :
    y.1 ∈ (List.range' 1 (addOrderOf g)).map (fun i => (i • g + e).1) ↔
      y - e ∈ AddSubgroup.zmultiples g := by
  rw [← mem_multiplesList_iff]
  simp only [List.mem_map]
  constructor
  · rintro ⟨i, hi, h⟩
    refine ⟨i, hi, ?_⟩
    have : i • g + e = y := Subtype.ext h
    rw [← this, add_sub_cancel_right]
  · rintro ⟨i, hi, h⟩
    refine ⟨i, hi, ?_⟩
    have : i • g = y - e := Subtype.ext h
    rw [this, sub_add_cancel]

theorem nodup_cosetList {G : Group} [Fact G.Valid] (g e : Elem G) :
    ((List.range' 1 (addOrderOf g)).map (fun i => (i • g + e).1)).Nodup := by
  apply List.Nodup.map_on _ (List.nodup_range' 1 (addOrderOf g))
  intro i hi j hj h
  rw [List.mem_range'_1] at hi hj
  have h' : i • g + e = j • g + e := Subtype.ext h
  exact Elem.nsmul_injOn g hi.1 (by omega) hj.1 (by omega) (add_right_cancel h')

theorem formCoset_spec {G : Group} [Fact G.Valid] (g e : Elem G) :
    ∀ (idx : List Nat) (acc pool : List Tuple),
      (∀ i ∈ idx, (i • g + e).1 ∈ pool) →
      (idx.map (fun i => (i • g + e).1)).Nodup →
      formCoset G e.1 (idx.map (fun i => (i • g).1)) acc pool =
        .ok (acc ++ idx.map (fun i => (i • g + e).1),
          pool.diff (idx.map (fun i => (i • g + e).1))) := by
  intro idx
  induction idx with
  | nil => intro acc pool _ _; simp [formCoset]
  | cons i idx ih =>
    intro acc pool hmem hnd
    simp only [List.map_cons, formCoset]
    rw [modAdd_elem]
    simp only
    rw [eraseFound_of_mem (hmem i (List.mem_cons_self _ _))]
    simp only
    rw [List.map_cons, List.nodup_cons] at hnd
    rw [ih _ _ _ hnd.2]
    · simp [List.diff_cons]
    · intro j hj
      rw [List.mem_erase_of_ne]
      · exact hmem j (List.mem_cons_of_mem _ hj)
      · intro h
        apply hnd.1
        rw [← h]
        exact List.mem_map_of_mem _ hj

theorem orderOfCosetLoop_spec {G : Group} [Fact G.Valid] (g rep : Elem G) (q : Nat) :
    ∀ (fuel m : Nat), 1 ≤ m → m ≤ q → q - m < fuel →
      q • rep ∈ AddSubgroup.zmultiples g →
      (∀ k, m ≤ k → k < q → k • rep ∉ AddSubgroup.zmultiples g) →
      orderOfCosetLoop G ((List.range' 1 (addOrderOf g)).map (fun i => (i • g).1)) rep.1
        fuel (m • rep).1 m = .ok q := by
  intro fuel
  induction fuel with
  | zero => intro m _ _ h; omega
  | succ fuel ih =>
    intro m hm hmq hf hq hlt
    unfold orderOfCosetLoop
    by_cases hin : m • rep ∈ AddSubgroup.zmultiples g
    · have : m = q := by
        rcases Nat.lt_or_ge m q with h | h
        · exact absurd hin (hlt m (le_refl m) h)
        · omega
      rw [if_neg (by rw [mem_multiplesList_iff]; simpa using hin), this]
    · rw [if_pos (by rw [mem_multiplesList_iff]; exact hin)]
      have hne : m ≠ q := by rintro rfl; exact hin hq
      have hadd : modAdd G (m • rep).1 rep.1 = .ok ((m + 1) • rep).1 := by
        rw [modAdd_elem, succ_nsmul]
      rw [hadd]
      simp only
      exact ih (m + 1) (by omega) (by omega) (by omega) hq
        (fun k hk hk' => hlt k (by omega) hk')

theorem exists_isQuotientOrder {G : Group} [Fact G.Valid] (g e : Elem G) :
    ∃ q, IsQuotientOrder g e q ∧ q ≤ G.order := by
  classical
  have hex : ∃ q, 1 ≤ q ∧ q • e ∈ AddSubgroup.zmultiples g :=
    ⟨addOrderOf e, Elem.addOrderOf_pos e, by
      rw [addOrderOf_nsmul_eq_zero]; exact AddSubgroup.zero_mem _⟩
  refine ⟨Nat.find hex, ⟨(Nat.find_spec hex).1, (Nat.find_spec hex).2, ?_⟩, ?_⟩
  · intro m hm hlt hmem
    exact Nat.find_min hex hlt ⟨hm, hmem⟩
  · refine le_trans (Nat.find_min' hex ⟨Elem.addOrderOf_pos e, ?_⟩) (Elem.addOrderOf_le e)
    rw [addOrderOf_nsmul_eq_zero]; exact AddSubgroup.zero_mem _

theorem IsQuotientOrder.congr {G : Group} [Fact G.Valid] {g e e' : Elem G} {q : Nat}
    (h : IsQuotientOrder g e q) (he : e' - e ∈ AddSubgroup.zmultiples g) :
    IsQuotientOrder g e' q := by
  have key : ∀ m : Nat, m • e' ∈ AddSubgroup.zmultiples g ↔
      m • e ∈ AddSubgroup.zmultiples g := by
    intro m
    have h1 : m • e' = m • (e' - e) + m • e := by rw [← nsmul_add, sub_add_cancel]
    have h2 : m • (e' - e) ∈ AddSubgroup.zmultiples g := AddSubgroup.nsmul_mem _ he m
    rw [h1]
    exact AddSubgroup.add_mem_cancel_left _ h2
  exact ⟨h.1, (key q).2 h.2.1, fun m hm hlt => fun hmem => h.2.2 m hm hlt ((key m).1 hmem)⟩

theorem IsQuotientOrder.unique {G : Group} [Fact G.Valid] {g e : Elem G} {q q' : Nat}
    (h : IsQuotientOrder g e q) (h' : IsQuotientOrder g e q') : q = q' := by
  rcases Nat.lt_trichotomy q q' with hlt | heq | hgt
  · exact absurd h.2.1 (h'.2.2 q h.1 hlt)
  · exact heq
  · exact absurd h'.2.1 (h.2.2 q' h'.1 hgt)

theorem orderOfCoset_spec {G : Group} [Fact G.Valid] (g e : Elem G) (inner o : Nat)
    (hin : G.order ≤ inner) :
    ∃ q, orderOfCoset inner
        { elements := (List.range' 1 (addOrderOf g)).map (fun i => (i • g + e).1), order := o }
        { elements := (List.range' 1 (addOrderOf g)).map (fun i => (i • g).1), order := 1 } G =
        .ok { elements := (List.range' 1 (addOrderOf g)).map (fun i => (i • g + e).1),
              order := q } ∧
      IsQuotientOrder g e q := by
  have hpos := Elem.addOrderOf_pos g
  obtain ⟨q, hq, hle⟩ := exists_isQuotientOrder g (1 • g + e)
  refine ⟨q, ?_, hq.congr ?_⟩
  · have e1 : addOrderOf g = (addOrderOf g - 1) + 1 := by omega
    have hq1 := hq.1
    have hloop := orderOfCosetLoop_spec g (1 • g + e) q inner 1 (le_refl 1) hq.1 (by omega)
      hq.2.1 (fun k hk hk' => hq.2.2 k hk hk')
    rw [one_nsmul (1 • g + e)] at hloop
    obtain ⟨tail, ht⟩ : ∃ tail, (List.range' 1 (addOrderOf g)).map (fun i => (i • g + e).1) =
        (1 • g + e).1 :: tail :=
      ⟨_, by conv_lhs => rw [e1, List.range'_succ, List.map_cons]⟩
    unfold orderOfCoset
    simp only
    rw [ht]
    simp only
    rw [hloop]
  · have : e - (1 • g + e) = -g := by rw [one_nsmul]; abel
    rw [this]
    exact AddSubgroup.neg_mem _ (AddSubgroup.mem_zmultiples g)

theorem mem_diff_iff_of_nodup {pool l : List Tuple} {a : Tuple} (h : pool.Nodup) :
    a ∈ pool.diff l ↔ a ∈ pool ∧ a ∉ l := by
  rw [h.diff_eq_filter]
  simp

theorem nodup_diff {pool : List Tuple} (l : List Tuple) (h : pool.Nodup) :
    (pool.diff l).Nodup := by
  rw [h.diff_eq_filter]
  exact h.filter _

theorem append_diff_perm {pool l : List Tuple} (h : pool.Nodup) (hl : l.Nodup)
    (hsub : ∀ x ∈ l, x ∈ pool) : (l ++ pool.diff l).Perm pool := by
  rw [List.perm_ext_iff_of_nodup _ h]
  · intro a
    rw [List.mem_append, mem_diff_iff_of_nodup h]
    constructor
    · rintro (h1 | h1)
      · exact hsub a h1
      · exact h1.1
    · intro h1
      by_cases h2 : a ∈ l
      · exact Or.inl h2
      · exact Or.inr ⟨h1, h2⟩
  · rw [List.nodup_append]
    refine ⟨hl, nodup_diff l h, ?_⟩
    intro a h1 h2
    exact ((mem_diff_iff_of_nodup h).1 h2).2 h1

theorem cosetList_perm {G : Group} [Fact G.Valid] (g e : Elem G) (pool : List Tuple)
    (hnd : pool.Nodup)
    (hsub : ∀ i ∈ List.range' 1 (addOrderOf g), (i • g + e).1 ∈ pool) :
    ((List.range' 1 (addOrderOf g)).map (fun i => (i • g + e).1) ++
      pool.diff ((List.range' 1 (addOrderOf g)).map (fun i => (i • g + e).1))).Perm pool := by
  apply append_diff_perm hnd (nodup_cosetList g e)
  intro x hx
  obtain ⟨i, hi, rfl⟩ := List.mem_map.1 hx
  exact hsub i hi

theorem cosetLoop_spec {G : Group} [Fact G.Valid] (g : Elem G) (inner : Nat)
    (hin : G.order ≤ inner) :
    ∀ (fuel : Nat) (pool : List Tuple) (qGroup : List Coset) (tracker : SMap Nat),
      pool.length < fuel → pool.Nodup → (∀ x ∈ pool, G.Mem x) →
      (∀ y : Elem G, y.1 ∈ pool → ∀ h ∈ AddSubgroup.zmultiples g, (h + y).1 ∈ pool) →
      ∃ cs : List Coset,
        cosetLoop G
            { elements := (List.range' 1 (addOrderOf g)).map (fun i => (i • g).1), order := 1 }
            inner fuel pool qGroup tracker =
          .ok (qGroup ++ cs, (cs.map (fun C => C.order)).foldl tally tracker) ∧
        (cs.map (fun C => C.elements)).flatten.Perm pool ∧
        ∀ C ∈ cs, ∃ e : Elem G, e.1 ∈ pool ∧
          C.elements = (List.range' 1 (addOrderOf g)).map (fun i => (i • g + e).1) ∧
          IsQuotientOrder g e C.order := by
  intro fuel
  induction fuel with
  | zero => intro pool _ _ h; omega
  | succ fuel ih =>
    intro pool qGroup tracker hf hnd hval hclosed
    cases pool with
    | nil => exact ⟨[], by simp [cosetLoop], by simp, by simp⟩
    | cons x rest =>
      have hpos := Elem.addOrderOf_pos g
      let e : Elem G := ⟨x, hval x (List.mem_cons_self _ _)⟩
      have hsub : ∀ i ∈ List.range' 1 (addOrderOf g), (i • g + e).1 ∈ x :: rest := by
        intro i _
        exact hclosed e (List.mem_cons_self _ _) (i • g)
          (AddSubgroup.nsmul_mem _ (AddSubgroup.mem_zmultiples g) i)
      have hform := formCoset_spec g e (List.range' 1 (addOrderOf g)) [] (x :: rest) hsub
        (nodup_cosetList g e)
      obtain ⟨q, hord, hq⟩ := orderOfCoset_spec g e inner 0 hin
      have hperm := cosetList_perm g e (x :: rest) hnd hsub
      have hlen := hperm.length_eq
      simp only [List.length_append, List.length_map, List.length_range'] at hlen
      -- the remaining pool
      obtain ⟨cs, h1, h2, h3⟩ := ih
        ((x :: rest).diff ((List.range' 1 (addOrderOf g)).map (fun i => (i • g + e).1)))
        (qGroup ++ [{ elements := (List.range' 1 (addOrderOf g)).map (fun i => (i • g + e).1),
                      order := q }])
        (tally tracker q)
        (by simp only [List.length_cons] at hf hlen ⊢; omega)
        (nodup_diff _ hnd)
        (fun y hy => hval y ((List.diff_sublist _ _).subset hy))
        (by
          intro y hy h hh
          rw [mem_diff_iff_of_nodup hnd] at hy ⊢
          refine ⟨hclosed y hy.1 h hh, ?_⟩
          intro hmem
          apply hy.2
          rw [mem_cosetList_iff] at hmem ⊢
          have : y - e = (h + y - e) - h := by abel
          rw [this]
          exact AddSubgroup.sub_mem _ hmem hh)
      refine ⟨{ elements := (List.range' 1 (addOrderOf g)).map (fun i => (i • g + e).1),
                order := q } :: cs, ?_, ?_, ?_⟩
      · unfold cosetLoop
        simp only
        have hform' : formCoset G x ((List.range' 1 (addOrderOf g)).map (fun i => (i • g).1)) []
            (x :: rest) = _ := hform
        rw [hform']
        simp only [List.nil_append]
        rw [hord]
        simp only
        rw [h1]
        simp
      · simp only [List.map_cons, List.flatten_cons]
        exact (List.Perm.append_left _ h2).trans hperm
      · intro C hC
        rcases List.mem_cons.1 hC with rfl | hC
        · exact ⟨e, List.mem_cons_self _ _, rfl, hq⟩
        · obtain ⟨e', he1, he2, he3⟩ := h3 C hC
          exact ⟨e', (List.diff_sublist _ _).subset he1, he2, he3⟩

/-! ### Histograms -/

theorem SMap.sorted_cons {β : Type} (k : Nat) (v : β) (m : SMap β) :
    SMap.Sorted ((k, v) :: m) ↔ (∀ kv ∈ m, k < kv.1) ∧ SMap.Sorted m := by
  simp [SMap.Sorted, List.pairwise_cons]

theorem SMap.sorted_update {β : Type} (m : SMap β) (k : Nat) (f : Option β → β)
    (h : SMap.Sorted m) : SMap.Sorted (SMap.update m k f) := by
  induction m with
  | nil => simp [SMap.update, SMap.Sorted]
  | cons hd tl ih =>
    obtain ⟨k', v⟩ := hd
    rw [SMap.sorted_cons] at h
    simp only [SMap.update]
    split_ifs with h1 h2
    · rw [SMap.sorted_cons]
      refine ⟨?_, (SMap.sorted_cons _ _ _).2 h⟩
      intro kv hkv
      rcases List.mem_cons.1 hkv with rfl | hkv
      · exact h1
      · exact lt_trans h1 (h.1 kv hkv)
    · subst h2
      exact (SMap.sorted_cons _ _ _).2 h
    · rw [SMap.sorted_cons]
      refine ⟨?_, ih h.2⟩
      intro kv hkv
      rcases SMap.mem_update _ _ _ _ hkv with h3 | h3
      · rw [h3]; omega
      · exact h.1 kv h3

theorem SMap.find_update {β : Type} (m : SMap β) (k : Nat) (f : Option β → β)
    (h : SMap.Sorted m) (k' : Nat) :
    SMap.find (SMap.update m k f) k' =
      if k' = k then some (f (SMap.find m k)) else SMap.find m k' := by
  induction m with
  | nil =>
    simp only [SMap.update, SMap.find]
  | cons hd tl ih =>
    obtain ⟨k₁, v⟩ := hd
    rw [SMap.sorted_cons] at h
    simp only [SMap.update]
    by_cases h1 : k < k₁
    · rw [if_pos h1]
      by_cases h3 : k' = k
      · subst h3
        have hnone : SMap.find ((k₁, v) :: tl) k' = none := by
          rw [SMap.find_eq_none]
          intro kv hkv
          rcases List.mem_cons.1 hkv with rfl | hkv
          · simp only; omega
          · have := h.1 kv hkv; omega
        rw [hnone]
        simp [SMap.find]
      · simp [SMap.find, h3]
    · rw [if_neg h1]
      by_cases h2 : k = k₁
      · subst h2
        rw [if_pos rfl]
        by_cases h4 : k' = k
        · subst h4
          simp [SMap.find]
        · simp [SMap.find, h4]
      · rw [if_neg h2]
        by_cases h5 : k' = k
        · subst h5
          simp only [SMap.find, if_neg h2]
          rw [ih h.2, if_pos rfl]
          simp
        · simp only [SMap.find]
          by_cases h6 : k' = k₁
          · subst h6
            rw [if_pos rfl, if_neg h5, if_pos rfl]
          · rw [if_neg h6, ih h.2, if_neg h5, if_neg h5, if_neg h6]

theorem tally_eq_incr (m : SMap Nat) (o : Nat) : tally m o = SMap.incr m o := by
  unfold tally
  cases hfind : SMap.find m o with
  | some v => rfl
  | none =>
    simp only
    rw [SMap.find_eq_none] at hfind
    unfold SMap.assign SMap.incr
    induction m with
    | nil => simp [SMap.update]
    | cons hd tl ih =>
      obtain ⟨k', v⟩ := hd
      have hk : k' ≠ o := hfind (k', v) (List.mem_cons_self _ _)
      simp only [SMap.update]
      split_ifs with h1 h2
      · simp
      · exact absurd h2.symm hk
      · rw [ih (fun kv hkv => hfind kv (List.mem_cons_of_mem _ hkv))]

theorem SMap.sorted_tally (m : SMap Nat) (o : Nat) (h : SMap.Sorted m) :
    SMap.Sorted (tally m o) := by
  rw [tally_eq_incr]; exact SMap.sorted_update _ _ _ h

theorem SMap.find_tally (m : SMap Nat) (o : Nat) (h : SMap.Sorted m) (k : Nat) :
    SMap.find (tally m o) k =
      if k = o then some ((SMap.find m o).getD 0 + 1) else SMap.find m k := by
  rw [tally_eq_incr]; exact SMap.find_update _ _ _ h k

/-- Tallying a list of orders adds, for every key, the number of its occurrences. -/
theorem foldl_tally_spec (orders : List Nat) :
    ∀ (m : SMap Nat), SMap.Sorted m →
      SMap.Sorted (orders.foldl tally m) ∧
      ∀ k, SMap.find (orders.foldl tally m) k =
        if orders.count k = 0 then SMap.find m k
        else some ((SMap.find m k).getD 0 + orders.count k) := by
  induction orders with
  | nil => intro m h; exact ⟨h, fun k => by simp⟩
  | cons o os ih =>
    intro m h
    obtain ⟨h1, h2⟩ := ih (tally m o) (SMap.sorted_tally m o h)
    refine ⟨h1, ?_⟩
    intro k
    rw [List.foldl_cons, h2 k, SMap.find_tally m o h]
    by_cases hk : k = o
    · subst hk
      simp only [if_true, List.count_cons_self, Nat.add_one_ne_zero, if_false, Option.getD_some]
      split_ifs with h3
      · rw [h3]
      · congr 1; omega
    · have : List.count k (o :: os) = List.count k os := by
        rw [List.count_cons_of_ne]; exact fun h => hk h.symm.symm
      rw [this]
      simp only [if_neg hk]

/-! ### The subgroup and its cosets as sets of tuples -/

theorem mem_subgroup_iff {G : Group} [Fact G.Valid] (g x : Elem G) :
    x.1 ∈ G.subgroup g.1 ↔ x ∈ AddSubgroup.zmultiples g := by
  rw [(Elem.isOfFinAddOrder g).mem_zmultiples_iff_mem_range_addOrderOf]
  simp only [Group.subgroup, Finset.mem_image, Finset.mem_range]
  constructor
  · rintro ⟨m, _, h⟩
    refine ⟨m % addOrderOf g, Nat.mod_lt _ (Elem.addOrderOf_pos g), ?_⟩
    rw [mod_addOrderOf_nsmul]
    apply Subtype.ext
    rw [Elem.val_nsmul, h]
  · rintro ⟨m, hm, h⟩
    refine ⟨m, lt_of_lt_of_le hm (Elem.addOrderOf_le g), ?_⟩
    rw [← h, Elem.val_nsmul]

theorem subgroup_subset {G : Group} [Fact G.Valid] (g : Elem G) {t : Tuple}
    (h : t ∈ G.subgroup g.1) : G.Mem t := by
  simp only [Group.subgroup, Finset.mem_image, Finset.mem_range] at h
  obtain ⟨m, _, rfl⟩ := h
  rw [← Elem.val_nsmul]
  exact (m • g).2

theorem cosetOrderIs_iff {G : Group} [Fact G.Valid] (g x : Elem G) (k : Nat) :
    G.cosetOrderIs g.1 x.1 k ↔ IsQuotientOrder g x k := by
  unfold Group.cosetOrderIs IsQuotientOrder
  simp only [← Elem.val_nsmul, mem_subgroup_iff]
  constructor
  · rintro ⟨h1, h2, h3⟩
    exact ⟨h1, h2, fun m hm hlt => h3 m hlt hm⟩
  · rintro ⟨h1, h2, h3⟩
    exact ⟨h1, h2, fun m hlt hm => h3 m hm hlt⟩

theorem mem_coset_iff {G : Group} [Fact G.Valid] (g x : Elem G) (t : Tuple) :
    t ∈ G.coset g.1 x.1 ↔ ∃ y : Elem G, y.1 = t ∧ y - x ∈ AddSubgroup.zmultiples g := by
  simp only [Group.coset, Finset.mem_image]
  constructor
  · rintro ⟨h, hh, rfl⟩
    let h' : Elem G := ⟨h, subgroup_subset g hh⟩
    refine ⟨h' + x, rfl, ?_⟩
    rw [add_sub_cancel_right]
    exact (mem_subgroup_iff g h').1 hh
  · rintro ⟨y, rfl, hy⟩
    refine ⟨(y - x).1, (mem_subgroup_iff g (y - x)).2 hy, ?_⟩
    rw [← Elem.val_add, sub_add_cancel]

theorem coset_eq_toFinset {G : Group} [Fact G.Valid] (g x e : Elem G)
    (h : x - e ∈ AddSubgroup.zmultiples g) :
    G.coset g.1 x.1 =
      ((List.range' 1 (addOrderOf g)).map (fun i => (i • g + e).1)).toFinset := by
  ext t
  rw [mem_coset_iff, List.mem_toFinset]
  constructor
  · rintro ⟨y, rfl, hy⟩
    rw [mem_cosetList_iff]
    have : y - e = (y - x) + (x - e) := by abel
    rw [this]
    exact AddSubgroup.add_mem _ hy h
  · intro ht
    obtain ⟨i, _, rfl⟩ := List.mem_map.1 ht
    refine ⟨i • g + e, rfl, ?_⟩
    have : i • g + e - x = i • g - (x - e) := by abel
    rw [this]
    exact AddSubgroup.sub_mem _
      (AddSubgroup.nsmul_mem _ (AddSubgroup.mem_zmultiples g) i) h

/-- A list of cosets that partitions `G`, every coset with its order, has as many
cosets of order `k` as there are cosets of order `k` in the quotient. -/
theorem cosetCount_eq_count {G : Group} [Fact G.Valid] (g : Elem G) (L : List Coset)
    (hperm : (L.map (fun C => C.elements)).flatten.Perm G.generateElements)
    (hL : ∀ C ∈ L, ∃ e : Elem G,
      C.elements = (List.range' 1 (addOrderOf g)).map (fun i => (i • g + e).1) ∧
      IsQuotientOrder g e C.order) (k : Nat) :
    G.cosetCount g.1 k = (L.map (fun C => C.order)).count k := by
  have hpos := Elem.addOrderOf_pos g
  -- the cosets of the list are pairwise different as sets
  have hnd : (L.map (fun C => C.elements)).flatten.Nodup :=
    hperm.nodup_iff.2 G.nodup_generateElements
  have hpw : L.Pairwise (fun C D => C.elements.toFinset ≠ D.elements.toFinset) := by
    have h1 := (List.nodup_flatten.1 hnd).2
    rw [List.pairwise_map] at h1
    apply List.Pairwise.imp_of_mem _ h1
    intro C D hC _ hdis heq
    obtain ⟨e, he, _⟩ := hL C hC
    have hmem : (1 • g + e).1 ∈ C.elements := by
      rw [he]
      exact List.mem_map.2 ⟨1, by rw [List.mem_range'_1]; omega, rfl⟩
    have hmem' : (1 • g + e).1 ∈ D.elements := by
      rw [← List.mem_toFinset, ← heq, List.mem_toFinset]; exact hmem
    exact hdis hmem hmem'
  have hnd2 : ((L.filter (fun C => C.order = k)).map (fun C => C.elements.toFinset)).Nodup := by
    unfold List.Nodup
    rw [List.pairwise_map]
    exact hpw.sublist (List.filter_sublist _)
  have hset : G.cosetsOfOrder g.1 k =
      ((L.filter (fun C => C.order = k)).map (fun C => C.elements.toFinset)).toFinset := by
    ext S
    simp only [Group.cosetsOfOrder, Finset.mem_image, Finset.mem_filter, List.mem_toFinset,
      List.mem_map, List.mem_filter, decide_eq_true_eq]
    constructor
    · rintro ⟨x, ⟨hx, hord⟩, rfl⟩
      let x' : Elem G := ⟨x, (G.mem_generateElements x).1 hx⟩
      have hx' : x ∈ (L.map (fun C => C.elements)).flatten := hperm.mem_iff.2 hx
      obtain ⟨l, hl, hxl⟩ := List.mem_flatten.1 hx'
      obtain ⟨C, hC, rfl⟩ := List.mem_map.1 hl
      obtain ⟨e, he, hq⟩ := hL C hC
      have hxe : x' - e ∈ AddSubgroup.zmultiples g := by
        rw [← mem_cosetList_iff, ← he]; exact hxl
      refine ⟨C, ⟨hC, ?_⟩, ?_⟩
      · exact (hq.congr hxe).unique ((cosetOrderIs_iff g x' k).1 hord)
      · rw [he]
        exact (coset_eq_toFinset g x' e hxe).symm
    · rintro ⟨C, ⟨hC, hk⟩, rfl⟩
      obtain ⟨e, he, hq⟩ := hL C hC
      refine ⟨e.1, ⟨(G.mem_generateElements _).2 e.2, ?_⟩, ?_⟩
      · rw [cosetOrderIs_iff, ← hk]; exact hq
      · rw [he]
        exact coset_eq_toFinset g e e (by rw [sub_self]; exact AddSubgroup.zero_mem _)
  unfold Group.cosetCount
  rw [hset, List.toFinset_card_of_nodup hnd2, List.length_map, List.count_eq_countP,
    List.countP_map, List.countP_eq_length_filter]
  congr 1

/-! ### `calcElementOrders` -/

/-- What `calcElementOrders` computes: the list `qGroup` starts with `H`, its cosets
partition `G`, each coset is the translate of `H` by one of its elements and carries its
order in `G/H`, and the orders of the cosets after `H` have been tallied. -/
theorem calcElementOrdersState_spec {G : Group} [hG : Fact G.Valid] (g : Elem G) (fuel : Nat)
    (hf : G.order ≤ fuel) (tracker : SMap Nat) :
    ∃ cs : List Coset,
      calcElementOrdersState fuel G g.1 tracker =
        .ok ({ elements := (List.range' 1 (addOrderOf g)).map (fun i => (i • g).1),
               order := 1 } :: cs,
          (cs.map (fun C => C.order)).foldl tally (SMap.assign tracker 1 1)) ∧
      (((List.range' 1 (addOrderOf g)).map (fun i => (i • g).1)) ++
        (cs.map (fun C => C.elements)).flatten).Perm G.generateElements ∧
      ∀ C ∈ cs, ∃ e : Elem G, e ∉ AddSubgroup.zmultiples g ∧
        C.elements = (List.range' 1 (addOrderOf g)).map (fun i => (i • g + e).1) ∧
        IsQuotientOrder g e C.order := by
  have hpos := Elem.addOrderOf_pos g
  have hH : (List.range' 1 (addOrderOf g)).map (fun i => (i • g).1) =
      (List.range' 1 (addOrderOf g)).map (fun i => (i • g + 0).1) := by
    simp only [add_zero]
  have hperm0 := cosetList_perm g 0 G.generateElements G.nodup_generateElements
    (fun i _ => (G.mem_generateElements _).2 (i • g + 0).2)
  rw [← hH] at hperm0
  have hlen := hperm0.length_eq
  simp only [List.length_append, List.length_map, List.length_range',
    G.length_generateElements] at hlen
  have hpoolmem : ∀ y : Elem G,
      y.1 ∈ G.generateElements.diff ((List.range' 1 (addOrderOf g)).map (fun i => (i • g).1)) ↔
        y ∉ AddSubgroup.zmultiples g := by
    intro y
    rw [mem_diff_iff_of_nodup G.nodup_generateElements, mem_multiplesList_iff]
    simp [(G.mem_generateElements _).2 y.2]
  obtain ⟨cs, h1, h2, h3⟩ := cosetLoop_spec g fuel hf fuel
    (G.generateElements.diff ((List.range' 1 (addOrderOf g)).map (fun i => (i • g).1)))
    [{ elements := (List.range' 1 (addOrderOf g)).map (fun i => (i • g).1), order := 1 }]
    (SMap.assign tracker 1 1) (by omega) (nodup_diff _ G.nodup_generateElements)
    (fun x hx => (G.mem_generateElements x).1 ((List.diff_sublist _ _).subset hx))
    (by
      intro y hy h hh
      rw [hpoolmem] at hy ⊢
      intro hmem
      exact hy ((AddSubgroup.add_mem_cancel_left _ hh).1 hmem))
  refine ⟨cs, ?_, ?_, ?_⟩
  · unfold calcElementOrdersState
    rw [identityCoset_spec g fuel (le_trans (Elem.addOrderOf_le g) hf)]
    simp only
    rw [h1]
    simp
  · exact (List.Perm.append_left _ h2).trans hperm0
  · intro C hC
    obtain ⟨e, he1, he2, he3⟩ := h3 C hC
    exact ⟨e, (hpoolmem e).1 he1, he2, he3⟩

/-- The histogram of `calcElementOrders`, for any initial `orderTracker`: the
tracker with `1 -> 1` assigned and then one more for every coset other than `H`, by order;
the orders counted this way are those of all cosets of `G/H`. -/
theorem calcElementOrders_spec {G : Group} [hG : Fact G.Valid] (g : Elem G) (fuel : Nat)
    (hf : G.order ≤ fuel) (tracker : SMap Nat) :
    ∃ orders : List Nat,
      calcElementOrders fuel G g.1 tracker =
        .ok (orders.foldl tally (SMap.assign tracker 1 1)) ∧
      (∀ k, G.cosetCount g.1 k = (1 :: orders).count k) ∧
      (orders.length + 1) * addOrderOf g = G.order ∧
      ∀ k ∈ orders, ∃ e : Elem G, e ∉ AddSubgroup.zmultiples g ∧ IsQuotientOrder g e k := by
  obtain ⟨cs, h1, h2, h3⟩ := calcElementOrdersState_spec g fuel hf tracker
  refine ⟨cs.map (fun C => C.order), ?_, ?_, ?_, ?_⟩
  · unfold calcElementOrders
    rw [h1]
  · intro k
    have := cosetCount_eq_count g
      ({ elements := (List.range' 1 (addOrderOf g)).map (fun i => (i • g).1),
         order := 1 } :: cs)
      (by simpa using h2)
      (by
        intro C hC
        rcases List.mem_cons.1 hC with rfl | hC
        · refine ⟨0, by simp only [add_zero], ?_⟩
          refine ⟨le_refl 1, ?_, fun m hm hlt => by simp only at hlt; omega⟩
          rw [nsmul_zero]; exact AddSubgroup.zero_mem _
        · obtain ⟨e, _, he2, he3⟩ := h3 C hC
          exact ⟨e, he2, he3⟩) k
    rw [this]
    simp
  · have hlen := h2.length_eq
    rw [List.length_append, List.length_map, List.length_range', List.length_flatten,
      G.length_generateElements] at hlen
    have hsum : ((cs.map (fun C => C.elements)).map List.length).sum =
        cs.length * addOrderOf g := by
      have : ∀ l ∈ (cs.map (fun C => C.elements)).map List.length, l = addOrderOf g := by
        intro l hl
        simp only [List.mem_map] at hl
        obtain ⟨_, ⟨C, hC, rfl⟩, rfl⟩ := hl
        obtain ⟨e, _, he2, _⟩ := h3 C hC
        rw [he2]; simp
      rw [List.sum_eq_card_nsmul _ _ this]
      simp
    rw [hsum] at hlen
    rw [List.length_map, ← hlen]
    ring
  · intro k hk
    obtain ⟨C, hC, rfl⟩ := List.mem_map.1 hk
    obtain ⟨e, he1, _, he3⟩ := h3 C hC
    exact ⟨e, he1, he3⟩

theorem sorted_assign_empty (k v : Nat) : SMap.Sorted (SMap.assign ([] : SMap Nat) k v) := by
  simp [SMap.assign, SMap.update, SMap.Sorted]

/-- C1. For every valid `G` and every generator in range, `calcElementOrders`
started from an empty tracker returns (given fuel of at least the order of `G`) the map
that sends every `k` to the number of cosets of `H = <generator>` whose order in `G/H`
is `k`, with no entry for an order that no coset has. -/
theorem calcElementOrders_counts_cosets (G : Group) (generator : Tuple) (fuel : Nat)
    (hG : G.Valid) (hgen : G.Mem generator) (hf : G.order ≤ fuel) :
    ∃ hist, calcElementOrders fuel G generator [] = .ok hist ∧ SMap.Sorted hist ∧
      ∀ k, SMap.find hist k =
        if G.cosetCount generator k = 0 then none else some (G.cosetCount generator k) := by
  haveI : Fact G.Valid := ⟨hG⟩
  obtain ⟨orders, h1, h2, _, _⟩ := calcElementOrders_spec (⟨generator, hgen⟩ : Elem G) fuel hf []
  obtain ⟨s1, s2⟩ := foldl_tally_spec orders (SMap.assign [] 1 1) (sorted_assign_empty 1 1)
  refine ⟨_, h1, s1, ?_⟩
  intro k
  rw [s2 k, h2 k]
  by_cases hk : k = 1
  · subst hk
    simp [SMap.assign, SMap.update, SMap.find]
    split_ifs with h
    · rw [h]
    · rw [Nat.add_comm]
  · have hk' : ¬ (1 = k) := fun h => hk h.symm
    simp [SMap.assign, SMap.update, SMap.find, hk, hk', List.count_cons]

theorem calcElementOrders_counts_cosets_witness :
    calcElementOrders 4 ⟨[2, 2]⟩ [0, 0] [] = .ok [(1, 1), (2, 3)] ∧
    calcElementOrders 4 ⟨[4]⟩ [0] [] = .ok [(1, 1), (2, 1), (4, 2)] ∧
    calcElementOrders 8 ⟨[4, 2]⟩ [1, 0] [] = .ok [(1, 1), (2, 1)] ∧
    ∃ hist, calcElementOrders 8 ⟨[4, 2]⟩ [1, 0] [] = .ok hist ∧ SMap.Sorted hist ∧
      ∀ k, SMap.find hist k =
        if Group.cosetCount ⟨[4, 2]⟩ [1, 0] k = 0 then none
        else some (Group.cosetCount ⟨[4, 2]⟩ [1, 0] k) :=
  ⟨by decide, by decide, by decide,
    calcElementOrders_counts_cosets ⟨[4, 2]⟩ [1, 0] 8 (by decide) (by decide) (by decide)⟩

theorem countSum_incr (m : SMap Nat) (k : Nat) : countSum (SMap.incr m k) = countSum m + 1 := by
  induction m with
  | nil => simp [SMap.incr, SMap.update, countSum]
  | cons hd tl ih =>
    obtain ⟨k', v⟩ := hd
    simp only [SMap.incr, SMap.update]
    split_ifs with h1 h2
    · simp [countSum]; omega
    · simp [countSum]; omega
    · have ih' : countSum (SMap.update tl k fun o => o.getD 0 + 1) = countSum tl + 1 := ih
      simp only [countSum, List.map_cons, List.sum_cons] at ih' ⊢
      rw [ih']; omega

theorem countSum_foldl_tally (orders : List Nat) :
    ∀ m : SMap Nat, countSum (orders.foldl tally m) = countSum m + orders.length := by
  induction orders with
  | nil => intro m; simp
  | cons o os ih =>
    intro m
    rw [List.foldl_cons, ih, tally_eq_incr, countSum_incr, List.length_cons]
    omega

/-- The counts of the histogram of `G/H` add up to the order of the quotient. -/
theorem calcElementOrders_countSum {G : Group} [hG : Fact G.Valid] (g : Elem G) (fuel : Nat)
    (hf : G.order ≤ fuel) :
    ∃ hist, calcElementOrders fuel G g.1 [] = .ok hist ∧ addOrderOf g ∣ G.order ∧
      countSum hist = G.order / addOrderOf g := by
  obtain ⟨orders, h1, _, h3, _⟩ := calcElementOrders_spec g fuel hf []
  have hpos := Elem.addOrderOf_pos g
  refine ⟨_, h1, ?_, ?_⟩
  · exact ⟨orders.length + 1, by rw [← h3]; ring⟩
  · rw [countSum_foldl_tally, ← h3, Nat.mul_div_cancel _ hpos]
    simp [countSum, SMap.assign, SMap.update]
    omega

/-- C4, as amended. For every valid `G` and generator whose order is below `2 ^ 32` (some
positive `k < 2 ^ 32` has `k * generator = 0` in `G`; `G.order` is such a `k` when it is
below `2 ^ 32`), `orderOfGenerator` divides the order of `G`, and the quotient of the two
is the sum of all counts of the histogram that `calcElementOrders` returns from an empty
tracker. -/
theorem orderOfGenerator_dvd_and_countSum (G : Group) (generator : Tuple) (fuel : Nat)
    (hG : G.Valid) (hgen : G.Mem generator) (hf : G.order ≤ fuel)
    (hfit : ∃ k, 1 ≤ k ∧ k < 2 ^ 32 ∧ annihilates G generator k) :
    ∃ n hist, orderOfGenerator G generator = .ok n ∧ n ∣ G.order ∧
      calcElementOrders fuel G generator [] = .ok hist ∧ G.order / n = countSum hist := by
  haveI : Fact G.Valid := ⟨hG⟩
  obtain ⟨g, hg⟩ : ∃ g : Elem G, g.1 = generator := ⟨Elem.ofMem generator hgen, rfl⟩
  subst hg
  obtain ⟨hist, h1, h2, h3⟩ := calcElementOrders_countSum g fuel hf
  exact ⟨_, hist, orderOfGenerator_eq_addOrderOf g (Elem.addOrderOf_lt_of_annihilates g hfit),
    h2, h1, h3.symm⟩

theorem orderOfGenerator_dvd_and_countSum_witness :
    Group.Valid ⟨[4, 2]⟩ ∧ Group.Mem ⟨[4, 2]⟩ [1, 0] ∧
    (1 ≤ 4 ∧ 4 < 2 ^ 32 ∧ annihilates ⟨[4, 2]⟩ [1, 0] 4) ∧
    ∃ n hist, orderOfGenerator ⟨[4, 2]⟩ [1, 0] = .ok n ∧ n ∣ Group.order ⟨[4, 2]⟩ ∧
      calcElementOrders 8 ⟨[4, 2]⟩ [1, 0] [] = .ok hist ∧
      Group.order ⟨[4, 2]⟩ / n = countSum hist :=
  ⟨by decide, by decide, by decide,
    orderOfGenerator_dvd_and_countSum ⟨[4, 2]⟩ [1, 0] 8 (by decide) (by decide) (by decide)
      ⟨4, by decide, by decide, by decide⟩⟩

/-- C4 as stated fails when the order of the generator does not fit an `unsigned`: in
`Z_65537 x Z_65539` the generator `(1, 1)` has order `65537 * 65539 = 2 ^ 32 + 262147`;
`orderOfGenerator` returns `262147`, which does not divide the order of the group. -/
theorem orderOfGenerator_wraps_not_dvd :
    Group.Valid ⟨[65537, 65539]⟩ ∧ Group.Mem ⟨[65537, 65539]⟩ [1, 1] ∧
    Group.order ⟨[65537, 65539]⟩ = 2 ^ 32 + 262147 ∧
    orderOfGenerator ⟨[65537, 65539]⟩ [1, 1] = .ok 262147 ∧
    ¬ 262147 ∣ Group.order ⟨[65537, 65539]⟩ :=
  ⟨by decide, by decide, by decide, by decide, by decide⟩

/-- C5, as amended. For every `G` with positive factor orders and every generator of the
arity of `G` whose order is below `2 ^ 32` (some positive `k < 2 ^ 32` has
`products[i]` dividing `k * generator[i]` for every `i`), `orderOfGenerator` returns the
order of the generator: the least `k ≥ 1` with `products[i]` dividing `k * generator[i]`
for every `i`.  When moreover every component of the generator is in range, this is the
number of elements that `calcElementOrders` puts into `H`. -/
theorem orderOfGenerator_is_order (G : Group) (generator : Tuple) (hG : G.Valid)
    (hlen : generator.length = G.products.length)
    (hfit : ∃ k, 1 ≤ k ∧ k < 2 ^ 32 ∧ annihilates G generator k) :
    ∃ k, orderOfGenerator G generator = .ok k ∧ 1 ≤ k ∧ annihilates G generator k ∧
      (∀ m, 1 ≤ m → annihilates G generator m → k ≤ m) ∧
      (G.Mem generator → ∀ fuel, G.order ≤ fuel →
        ∃ H elements, identityCoset fuel G generator = .ok (H, elements) ∧ H.length = k) := by
  obtain ⟨k, h2, h3, h1⟩ := orderOfGenerator_spec G generator hG hlen
  obtain ⟨k', k1, k2, k3⟩ := hfit
  have hk : k < 2 ^ 32 := lt_of_le_of_lt (Nat.le_of_dvd k1 ((h3 k').1 k3)) k2
  refine ⟨k, h1 hk, h2, (h3 k).2 (dvd_refl k), ?_, ?_⟩
  · intro m hm ha
    exact Nat.le_of_dvd hm ((h3 m).1 ha)
  · intro hgen fuel hf
    haveI : Fact G.Valid := ⟨hG⟩
    have hfit' : addOrderOf (Elem.ofMem generator hgen) < 2 ^ 32 :=
      Elem.addOrderOf_lt_of_annihilates (Elem.ofMem generator hgen) ⟨k', k1, k2, k3⟩
    have e : orderOfGenerator G generator = .ok (addOrderOf (Elem.ofMem generator hgen)) :=
      orderOfGenerator_eq_addOrderOf (Elem.ofMem generator hgen) hfit'
    rw [h1 hk] at e
    injection e with e
    refine ⟨_, _, identityCoset_spec (Elem.ofMem generator hgen) fuel
      (le_trans (Elem.addOrderOf_le _) hf), ?_⟩
    rw [List.length_map, List.length_range', e]

theorem orderOfGenerator_is_order_witness :
    Group.Valid ⟨[4, 6]⟩ ∧ [2, 3].length = (Group.products ⟨[4, 6]⟩).length ∧
    (1 ≤ 2 ∧ 2 < 2 ^ 32 ∧ annihilates ⟨[4, 6]⟩ [2, 3] 2) ∧
    ∃ k, orderOfGenerator ⟨[4, 6]⟩ [2, 3] = .ok k ∧ 1 ≤ k ∧ annihilates ⟨[4, 6]⟩ [2, 3] k ∧
      (∀ m, 1 ≤ m → annihilates ⟨[4, 6]⟩ [2, 3] m → k ≤ m) ∧
      (Group.Mem ⟨[4, 6]⟩ [2, 3] → ∀ fuel, Group.order ⟨[4, 6]⟩ ≤ fuel →
        ∃ H elements, identityCoset fuel ⟨[4, 6]⟩ [2, 3] = .ok (H, elements) ∧ H.length = k) :=
  ⟨by decide, by decide, by decide,
    orderOfGenerator_is_order ⟨[4, 6]⟩ [2, 3] (by decide) (by decide)
      ⟨2, by decide, by decide, by decide⟩⟩

/-- C5 as stated fails in two ways.  For a generator that is out of range: in `Z_4` the
generator `(4)` has order `1` by `orderOfGenerator`, but `calcElementOrders` looks for
`(4)` among the elements of `G`, does not find it and erases `end()`; and the loop that
fills `H`, run on its own, puts the two elements `(4)` and `(0)` into `H`.  For a generator
whose order does not fit an `unsigned`: in `Z_65536 x Z_65537` the generator `(1, 1)` has
order `65536 * 65537 = 2 ^ 32 + 65536`; `orderOfGenerator` returns `65536`, and
`65536 * (1, 1)` is not the identity. -/
theorem orderOfGenerator_not_the_order :
    orderOfGenerator ⟨[4]⟩ [4] = .ok 1 ∧
    (∀ fuel, identityCoset fuel ⟨[4]⟩ [4] = .error .undefined) ∧
    generateH ⟨[4]⟩ [4] [0] 2 [4] [[4]] [[0]] = .ok ([[4], [0]], []) ∧
    Group.Valid ⟨[65536, 65537]⟩ ∧ Group.Mem ⟨[65536, 65537]⟩ [1, 1] ∧
    orderOfGenerator ⟨[65536, 65537]⟩ [1, 1] = .ok 65536 ∧
    ¬ annihilates ⟨[65536, 65537]⟩ [1, 1] 65536 ∧
    annihilates ⟨[65536, 65537]⟩ [1, 1] (2 ^ 32 + 65536) :=
  ⟨by decide, fun _ => by simp [identityCoset, eraseFound, Group.generateElements, tuplesBelow],
    by decide, by decide, by decide, by decide, by decide, by decide⟩

/-! ### The partition loop -/

theorem readAt_natCast (v : List Nat) (i : Nat) (x : Nat) (h : v[i]? = some x) :
    readAt v (i : Int) = .ok x := by
  simp [readAt, h]

theorem writeAt_natCast (v : List Nat) (i : Nat) (x : Nat) (h : i < v.length) :
    writeAt v (i : Int) x = .ok (v.set i x) := by
  simp [writeAt, h]

theorem getElem?_block (a : List Nat) (c s y i : Nat) (hi : i < c) :
    (a ++ List.replicate c y ++ List.replicate s 1)[a.length + i]? = some y := by
  rw [List.append_assoc, List.getElem?_append_right (by omega)]
  simp only [add_tsub_cancel_left]
  rw [List.getElem?_append_left (by simpa using hi)]
  simp [List.getElem?_replicate, hi]

theorem set_block (a : List Nat) (c s y : Nat) :
    (a ++ List.replicate c y ++ List.replicate (s + 1) 1).set (a.length + c) y =
      a ++ List.replicate (c + 1) y ++ List.replicate s 1 := by
  rw [List.set_append_right _ _ (by simp)]
  simp only [List.length_append, List.length_replicate, Nat.sub_self]
  rw [List.replicate_succ, List.set_cons_zero, List.append_assoc, List.append_assoc]
  congr 1
  rw [List.replicate_succ']
  simp

theorem spread_spec (a : List Nat) (y : Nat) (hy : 1 ≤ y) :
    ∀ (fuel c s rem k : Nat), k + 1 = a.length + c → 1 ≤ c → 1 ≤ rem → rem ≤ s + 1 →
      rem ≤ fuel →
      ∃ t, spread fuel (a ++ List.replicate c y ++ List.replicate s 1) (k : Int) rem =
          .ok (a ++ List.replicate (c + t) y ++ List.replicate (s - t) 1,
            ((k + t : Nat) : Int), rem - t * y) ∧
        t ≤ s ∧ t * y < rem ∧ rem - t * y ≤ y := by
  intro fuel
  induction fuel with
  | zero => intro c s rem k _ _ h1 _ h2; omega
  | succ fuel ih =>
    intro c s rem k hk hc hrem hs hf
    unfold spread
    have hread : readAt (a ++ List.replicate c y ++ List.replicate s 1) (k : Int) = .ok y := by
      apply readAt_natCast
      have : k = a.length + (c - 1) := by omega
      rw [this]
      exact getElem?_block a c s y (c - 1) (by omega)
    rw [hread]
    simp only
    by_cases hgt : rem > y
    · rw [if_pos hgt]
      obtain ⟨s', rfl⟩ : ∃ s', s = s' + 1 := ⟨s - 1, by omega⟩
      have hne : ¬ ((k : Int) + 1 =
          ((a ++ List.replicate c y ++ List.replicate (s' + 1) 1).length : Int)) := by
        simp only [List.length_append, List.length_replicate]
        omega
      rw [if_neg hne]
      have hidx : (k : Int) + 1 = ((a.length + c : Nat) : Int) := by omega
      rw [hidx, writeAt_natCast _ _ _ (by simp)]
      simp only
      rw [set_block]
      obtain ⟨t, h1, h2, h3, h4⟩ :=
        ih (c + 1) s' (rem - y) (a.length + c) (by omega) (by omega) (by omega) (by omega)
          (by omega)
      refine ⟨t + 1, ?_, by omega, ?_, ?_⟩
      · rw [h1]
        have e1 : c + 1 + t = c + (t + 1) := by omega
        have e2 : s' - t = s' + 1 - (t + 1) := by omega
        have e3 : a.length + c + t = k + (t + 1) := by omega
        have e4 : rem - y - t * y = rem - (t + 1) * y := by
          rw [Nat.add_mul, Nat.one_mul]; omega
        rw [e1, e2, e3, e4]
      · rw [Nat.add_mul, Nat.one_mul]; omega
      · rw [Nat.add_mul, Nat.one_mul]; omega
    · rw [if_neg hgt]
      exact ⟨0, by simp, by omega, by omega, by omega⟩

theorem skipOnes_ones_aux (v : List Nat) :
    ∀ (r fuel rem k : Nat), r < fuel → r ≤ k + 1 →
      (∀ i, k + 1 - r ≤ i → i ≤ k → v[i]? = some 1) →
      skipOnes v fuel (k : Int) rem =
        if r = k + 1 then skipOnes v (fuel - r) (-1) (rem + r)
        else skipOnes v (fuel - r) ((k - r : Nat) : Int) (rem + r) := by
  intro r
  induction r with
  | zero => intro fuel rem k _ _ _; simp
  | succ r ih =>
    intro fuel rem k hf hk hones
    obtain ⟨fuel, rfl⟩ : ∃ n, fuel = n + 1 := ⟨fuel - 1, by omega⟩
    conv_lhs => unfold skipOnes
    rw [if_pos (by omega), readAt_natCast _ _ 1 (hones k (by omega) (le_refl k))]
    simp only [if_true]
    rcases Nat.eq_zero_or_pos k with hk0 | hk0
    · subst hk0
      have hr : r = 0 := by omega
      subst hr
      simp
    · have h1 : (k : Int) - 1 = ((k - 1 : Nat) : Int) := by omega
      rw [h1, ih fuel (rem + 1) (k - 1) (by omega) (by omega)
        (fun i hi hi' => hones i (by omega) (by omega))]
      have e1 : fuel + 1 - (r + 1) = fuel - r := by omega
      have e2 : rem + 1 + r = rem + (r + 1) := by omega
      have e3 : k - 1 - r = k - (r + 1) := by omega
      rw [e1, e2, e3]
      by_cases hrk : r = k - 1 + 1
      · rw [if_pos hrk, if_pos (by omega)]
      · rw [if_neg hrk, if_neg (by omega)]

theorem nextPartition_ones (r : Nat) : nextPartition (List.replicate r 1) = none := by
  induction r with
  | zero => rfl
  | succ r ih => simp [List.replicate_succ, nextPartition, ih]

theorem nextPartition_decomp (a : List Nat) (x r : Nat) (hx : 2 ≤ x) :
    nextPartition (a ++ x :: List.replicate r 1) = some (a ++ fillParts (x - 1) (x + r)) := by
  induction a with
  | nil =>
    simp only [List.nil_append, nextPartition, nextPartition_ones, List.length_replicate]
    rw [if_neg (by omega)]
  | cons a0 a ih => simp [nextPartition, ih]

theorem partition_decomp (q : List Nat) (hq : ∀ x ∈ q, 1 ≤ x) :
    (∃ r, q = List.replicate r 1) ∨
      ∃ a x r, q = a ++ x :: List.replicate r 1 ∧ 2 ≤ x := by
  induction q with
  | nil => exact Or.inl ⟨0, rfl⟩
  | cons x0 rest ih =>
    have h0 : 1 ≤ x0 := hq x0 (List.mem_cons_self _ _)
    rcases ih (fun x hx => hq x (List.mem_cons_of_mem _ hx)) with ⟨r, rfl⟩ | ⟨a, x, r, rfl, hx⟩
    · rcases Nat.lt_or_ge 1 x0 with h | h
      · exact Or.inr ⟨[], x0, r, rfl, h⟩
      · have : x0 = 1 := by omega
        subst this
        exact Or.inl ⟨r + 1, rfl⟩
    · exact Or.inr ⟨x0 :: a, x, r, rfl, hx⟩

theorem fillParts_eq (y r t rem' : Nat) (hy : 1 ≤ y) (h1 : t * y < r + 1)
    (h2 : r + 1 - t * y ≤ y) (h3 : rem' = r + 1 - t * y) :
    fillParts y (y + 1 + r) = List.replicate (1 + t) y ++ [rem'] := by
  unfold fillParts
  have e : y + 1 + r - 1 = (rem' - 1) + y * (1 + t) := by
    rw [Nat.mul_add, Nat.mul_one, Nat.mul_comm y t]; omega
  have hlt : rem' - 1 < y := by omega
  rw [e, Nat.add_mul_div_left _ _ (by omega), Nat.add_mul_mod_self_left,
    Nat.div_eq_of_lt hlt, Nat.mod_eq_of_lt hlt, Nat.zero_add]
  congr 2
  omega

theorem fillParts_sum (y n : Nat) (hn : 1 ≤ n) : (fillParts y n).sum = n := by
  unfold fillParts
  simp only [List.sum_append, List.sum_replicate, smul_eq_mul, List.sum_cons, List.sum_nil]
  have := Nat.div_add_mod (n - 1) y
  rw [Nat.mul_comm] at this
  omega

theorem fillParts_pos (y n : Nat) (hy : 1 ≤ y) : ∀ x ∈ fillParts y n, 1 ≤ x := by
  intro x hx
  unfold fillParts at hx
  rcases List.mem_append.1 hx with h | h
  · rw [(List.mem_replicate.1 h).2]; exact hy
  · rw [List.mem_singleton.1 h]; omega

theorem fillParts_le (y n : Nat) (hy : 1 ≤ y) : ∀ x ∈ fillParts y n, x ≤ y := by
  intro x hx
  unfold fillParts at hx
  rcases List.mem_append.1 hx with h | h
  · rw [(List.mem_replicate.1 h).2]
  · rw [List.mem_singleton.1 h]
    have := Nat.mod_lt (n - 1) (show 0 < y by omega)
    omega

theorem partitionLoop_step (prime inner fuel : Nat) (q : List Nat)
    (parts : SMap PartitionNode) (hq : ∀ x ∈ q, 1 ≤ x) (hne : q ≠ [])
    (hin : q.sum + 1 ≤ inner) :
    partitionLoop prime inner (fuel + 1) q ((q.length - 1 : Nat) : Int) parts =
      match nextPartition q with
      | none => .ok (pushPartition parts prime q)
      | some q' =>
        partitionLoop prime inner fuel q' ((q'.length - 1 : Nat) : Int)
          (pushPartition parts prime q) := by
  rcases partition_decomp q hq with ⟨r, rfl⟩ | ⟨a, x, r, rfl, hx⟩
  · -- only ones: the loop ends
    have hr : 1 ≤ r := by
      rcases Nat.eq_zero_or_pos r with h | h
      · subst h; exact absurd rfl hne
      · exact h
    have hsum : r + 1 ≤ inner := by simpa using hin
    rw [nextPartition_ones]
    conv_lhs => unfold partitionLoop
    simp only [List.length_replicate]
    rw [skipOnes_ones_aux _ r inner 0 (r - 1) (by omega) (by omega)
      (fun i _ hi => by rw [List.getElem?_replicate]; simp; omega)]
    rw [if_pos (by omega)]
    obtain ⟨n, hn⟩ : ∃ n, inner - r = n + 1 := ⟨inner - r - 1, by omega⟩
    rw [hn]
    unfold skipOnes
    simp
  · -- the general step
    have hsum : a.sum + x + r + 1 ≤ inner := by
      simp only [List.sum_append, List.sum_cons, List.sum_replicate, smul_eq_mul,
        Nat.mul_one] at hin
      omega
    rw [nextPartition_decomp a x r hx]
    simp only
    conv_lhs => unfold partitionLoop
    simp only [List.length_append, List.length_cons, List.length_replicate]
    have hk : a.length + (r + 1) - 1 = a.length + r := by omega
    rw [hk, skipOnes_ones_aux _ r inner 0 (a.length + r) (by omega) (by omega)
      (fun i hi hi' => by
        rw [List.getElem?_append_right (by omega)]
        obtain ⟨j, hj⟩ : ∃ j, i - a.length = j + 1 := ⟨i - a.length - 1, by omega⟩
        rw [hj, List.getElem?_cons_succ, List.getElem?_replicate]
        simp; omega)]
    rw [if_neg (by omega)]
    obtain ⟨n, hn⟩ : ∃ n, inner - r = n + 1 := ⟨inner - r - 1, by omega⟩
    have hread : readAt (a ++ x :: List.replicate r 1) ((a.length : Nat) : Int) = .ok x :=
      readAt_natCast _ _ _ (by rw [List.getElem?_append_right (le_refl _)]; simp)
    have hk2 : a.length + r - r = a.length := by omega
    rw [hn, hk2]
    conv_lhs => unfold skipOnes
    rw [if_pos (by omega), hread]
    simp only
    rw [if_neg (by omega)]
    simp only
    rw [if_neg (by omega), hread]
    simp only
    rw [writeAt_natCast _ _ _ (by simp)]
    simp only
    have hset : (a ++ x :: List.replicate r 1).set a.length (x - 1) =
        a ++ List.replicate 1 (x - 1) ++ List.replicate r 1 := by
      rw [List.set_append_right _ _ (le_refl _)]
      simp
    rw [hset]
    obtain ⟨t, h1, h2, h3, h4⟩ := spread_spec a (x - 1) (by omega) inner 1 r (0 + r + 1)
      a.length rfl (le_refl 1) (by omega) (by omega) (by omega)
    rw [h1]
    simp only
    have hfill : fillParts (x - 1) (x + r) =
        List.replicate (1 + t) (x - 1) ++ [0 + r + 1 - t * (x - 1)] := by
      have := fillParts_eq (x - 1) r t (0 + r + 1 - t * (x - 1)) (by omega)
        (by omega) (by omega) (by omega)
      rw [← this]
      congr 1
      omega
    have hlen : a.length + (fillParts (x - 1) (x + r)).length - 1 = a.length + t + 1 := by
      rw [hfill]; simp; omega
    rw [hlen]
    have hres : (if ((a.length + t : Nat) : Int) + 1 =
          ((a ++ List.replicate (1 + t) (x - 1) ++ List.replicate (r - t) 1).length : Int) then
          (Except.ok ((a ++ List.replicate (1 + t) (x - 1) ++ List.replicate (r - t) 1) ++
            [0 + r + 1 - t * (x - 1)]) : Except Err (List Nat))
        else
          writeAt (resize (a ++ List.replicate (1 + t) (x - 1) ++ List.replicate (r - t) 1)
            (((a.length + t : Nat) : Int) + 2).toNat) (((a.length + t : Nat) : Int) + 1)
            (0 + r + 1 - t * (x - 1))) =
        .ok (a ++ fillParts (x - 1) (x + r)) := by
      rw [hfill]
      by_cases hrt : r = t
      · subst hrt
        rw [if_pos (by simp; omega)]
        simp
      · rw [if_neg (by simp; omega)]
        obtain ⟨s, hs⟩ : ∃ s, r - t = s + 1 := ⟨r - t - 1, by omega⟩
        have htn : (((a.length + t : Nat) : Int) + 2).toNat = a.length + (1 + t) + 1 := by
          omega
        have hidx : ((a.length + t : Nat) : Int) + 1 = ((a.length + (1 + t) : Nat) : Int) := by
          omega
        rw [hs, htn, hidx]
        have hrs : resize (a ++ List.replicate (1 + t) (x - 1) ++ List.replicate (s + 1) 1)
            (a.length + (1 + t) + 1) = a ++ List.replicate (1 + t) (x - 1) ++ [1] := by
          unfold resize
          have hl : (a ++ List.replicate (1 + t) (x - 1)).length = a.length + (1 + t) := by
            simp
          rw [List.take_append_eq_append_take, List.take_of_length_le (by rw [hl]; omega), hl]
          have hz : a.length + (1 + t) + 1 - (a.length + (1 + t + (s + 1))) = 0 := by omega
          simp [List.replicate_succ, hz]
        rw [hrs, writeAt_natCast _ _ _ (by simp)]
        congr 1
        rw [List.set_append_right _ _ (by simp)]
        simp
    rw [hres]
    simp only
    have : ((a.length + t : Nat) : Int) + 1 = ((a.length + t + 1 : Nat) : Int) := by omega
    rw [this]

/-! ### The order of the partitions -/

theorem fillParts_small (y n : Nat) (hn : 1 ≤ n) (h : n ≤ y) : fillParts y n = [n] := by
  unfold fillParts
  have h1 : (n - 1) / y = 0 := Nat.div_eq_of_lt (by omega)
  have h2 : (n - 1) % y = n - 1 := Nat.mod_eq_of_lt (by omega)
  rw [h1, h2]
  simp; omega

theorem fillParts_large (y n : Nat) (hy : 1 ≤ y) (h : y < n) :
    fillParts y n = y :: fillParts y (n - y) := by
  unfold fillParts
  have e : n - 1 = (n - y - 1) + y := by omega
  rw [e, Nat.add_div_right _ (by omega), Nat.add_mod_right, List.replicate_succ]
  simp

theorem fillParts_sorted (y n : Nat) (hy : 1 ≤ y) : (fillParts y n).Sorted (· ≥ ·) := by
  unfold fillParts
  rw [List.Sorted, List.pairwise_append]
  refine ⟨List.pairwise_replicate.2 (Or.inr (le_refl y)), List.pairwise_singleton _ _, ?_⟩
  intro a ha b hb
  rw [(List.mem_replicate.1 ha).2, List.mem_singleton.1 hb]
  have := Nat.mod_lt (n - 1) (show 0 < y by omega)
  show y ≥ _
  omega

theorem eq_ones_of_nextPartition_none :
    ∀ (q : List Nat), (∀ x ∈ q, 1 ≤ x) → nextPartition q = none →
      q = List.replicate q.length 1 := by
  intro q
  induction q with
  | nil => intro _ _; rfl
  | cons x rest ih =>
    intro hq h
    simp only [nextPartition] at h
    cases hrest : nextPartition rest with
    | some r => rw [hrest] at h; simp at h
    | none =>
      rw [hrest] at h
      simp only at h
      have hx : x ≤ 1 := by
        by_contra hc
        rw [if_neg hc] at h
        exact absurd h (by simp)
      have h1 := hq x (List.mem_cons_self _ _)
      have : x = 1 := by omega
      rw [List.length_cons, List.replicate_succ, this,
        ← ih (fun y hy => hq y (List.mem_cons_of_mem _ hy)) hrest]

theorem nextPartition_spec :
    ∀ (q q' : List Nat), q.Sorted (· ≥ ·) → (∀ x ∈ q, 1 ≤ x) → nextPartition q = some q' →
      q'.Sorted (· ≥ ·) ∧ (∀ x ∈ q', 1 ≤ x) ∧ q'.sum = q.sum ∧
      (∀ b, (∀ x ∈ q, x ≤ b) → ∀ x ∈ q', x ≤ b) ∧ List.Lex (· < ·) q' q := by
  intro q
  induction q with
  | nil => intro q' _ _ h; simp [nextPartition] at h
  | cons x rest ih =>
    intro q' hs hq h
    have hs' := List.sorted_cons.1 hs
    have hq' : ∀ y ∈ rest, 1 ≤ y := fun y hy => hq y (List.mem_cons_of_mem _ hy)
    simp only [nextPartition] at h
    cases hrest : nextPartition rest with
    | some r =>
      rw [hrest] at h
      simp only [Option.some.injEq] at h
      subst h
      obtain ⟨i1, i2, i3, i4, i5⟩ := ih r hs'.2 hq' hrest
      refine ⟨?_, ?_, ?_, ?_, List.Lex.cons i5⟩
      · rw [List.sorted_cons]
        exact ⟨fun y hy => i4 x (fun z hz => hs'.1 z hz) y hy, i1⟩
      · intro y hy
        rcases List.mem_cons.1 hy with rfl | hy
        · exact hq _ (List.mem_cons_self _ _)
        · exact i2 y hy
      · simp [i3]
      · intro b hb y hy
        rcases List.mem_cons.1 hy with rfl | hy
        · exact hb _ (List.mem_cons_self _ _)
        · exact i4 b (fun z hz => hb z (List.mem_cons_of_mem _ hz)) y hy
    | none =>
      rw [hrest] at h
      simp only at h
      by_cases hx : x ≤ 1
      · rw [if_pos hx] at h; simp at h
      · rw [if_neg hx] at h
        simp only [Option.some.injEq] at h
        subst h
        have hones := eq_ones_of_nextPartition_none rest hq' hrest
        have hsum : rest.sum = rest.length := by
          conv_lhs => rw [hones]
          simp
        refine ⟨fillParts_sorted _ _ (by omega), fillParts_pos _ _ (by omega), ?_, ?_, ?_⟩
        · rw [fillParts_sum _ _ (by omega), List.sum_cons, hsum]
        · intro b hb y hy
          have := fillParts_le (x - 1) (x + rest.length) (by omega) y hy
          have := hb x (List.mem_cons_self _ _)
          omega
        · rcases Nat.lt_or_ge (x - 1) (x + rest.length) with h1 | h1
          · rw [fillParts_large _ _ (by omega) h1]
            exact List.Lex.rel (by omega)
          · omega

theorem fillParts_greatest (y : Nat) (hy : 1 ≤ y) :
    ∀ (s : List Nat) (n : Nat), 1 ≤ n → s.Sorted (· ≥ ·) → (∀ x ∈ s, 1 ≤ x) →
      (∀ x ∈ s, x ≤ y) → s.sum = n →
      s = fillParts y n ∨ List.Lex (· < ·) s (fillParts y n) := by
  intro s
  induction s with
  | nil => intro n hn _ _ _ h; simp at h; omega
  | cons z t ih =>
    intro n hn hs hpos hle hsum
    have hz1 := hpos z (List.mem_cons_self _ _)
    have hzy := hle z (List.mem_cons_self _ _)
    have hs' := List.sorted_cons.1 hs
    have hpos' : ∀ x ∈ t, 1 ≤ x := fun x hx => hpos x (List.mem_cons_of_mem _ hx)
    rw [List.sum_cons] at hsum
    rcases Nat.lt_or_ge y n with h | h
    · rw [fillParts_large y n hy h]
      rcases Nat.lt_or_ge z y with h1 | h1
      · exact Or.inr (List.Lex.rel h1)
      · have hzy' : z = y := by omega
        subst hzy'
        rcases ih (n - z) (by omega) hs'.2 hpos'
          (fun x hx => hle x (List.mem_cons_of_mem _ hx)) (by omega) with h2 | h2
        · exact Or.inl (by rw [h2])
        · exact Or.inr (List.Lex.cons h2)
    · rw [fillParts_small y n hn h]
      rcases Nat.lt_or_ge z n with h1 | h1
      · exact Or.inr (List.Lex.rel h1)
      · have ht : t = [] := by
          cases t with
          | nil => rfl
          | cons w t' =>
            have := hpos' w (List.mem_cons_self _ _)
            simp only [List.sum_cons] at hsum
            omega
        subst ht
        simp only [List.sum_nil] at hsum
        exact Or.inl (by rw [show z = n by omega])

/-- The partition after `q` is the greatest partition below `q`. -/
theorem nextPartition_succ :
    ∀ (q s : List Nat), q.Sorted (· ≥ ·) → (∀ x ∈ q, 1 ≤ x) → s.Sorted (· ≥ ·) →
      (∀ x ∈ s, 1 ≤ x) → s.sum = q.sum → List.Lex (· < ·) s q →
      ∃ q', nextPartition q = some q' ∧ (s = q' ∨ List.Lex (· < ·) s q') := by
  intro q
  induction q with
  | nil => intro s _ _ _ _ _ h; exact absurd h (List.Lex.not_nil_right _ _)
  | cons x rest ih =>
    intro s hq hqpos hs hspos hsum hlex
    have hq' := List.sorted_cons.1 hq
    have hqpos' : ∀ y ∈ rest, 1 ≤ y := fun y hy => hqpos y (List.mem_cons_of_mem _ hy)
    have hx1 := hqpos x (List.mem_cons_self _ _)
    cases s with
    | nil => simp at hsum; omega
    | cons y t =>
      have hs' := List.sorted_cons.1 hs
      have hspos' : ∀ z ∈ t, 1 ≤ z := fun z hz => hspos z (List.mem_cons_of_mem _ hz)
      simp only [List.sum_cons] at hsum
      simp only [nextPartition]
      cases hlex with
      | cons h =>
        obtain ⟨r, hr, hr'⟩ := ih t hq'.2 hqpos' hs'.2 hspos' (by omega) h
        rw [hr]
        refine ⟨_, rfl, ?_⟩
        rcases hr' with rfl | hr'
        · exact Or.inl rfl
        · exact Or.inr (List.Lex.cons hr')
      | rel h =>
        have hyx : y < x := h
        have hy1 := hspos y (List.mem_cons_self _ _)
        cases hrest : nextPartition rest with
        | some r => exact ⟨_, rfl, Or.inr (List.Lex.rel h)⟩
        | none =>
          simp only
          rw [if_neg (by omega)]
          refine ⟨_, rfl, ?_⟩
          have hones := eq_ones_of_nextPartition_none rest hqpos' hrest
          have hrs : rest.sum = rest.length := by
            conv_lhs => rw [hones]
            simp
          apply fillParts_greatest (x - 1) (by omega) (y :: t) (x + rest.length) (by omega)
            hs hspos
          · intro z hz
            rcases List.mem_cons.1 hz with rfl | hz
            · omega
            · have := hs'.1 z hz
              omega
          · simp only [List.sum_cons]; rw [hsum, hrs]

/-! ### The chain of partitions emitted by the loop -/

theorem lex_trans {a b c : List Nat} (h1 : List.Lex (· < ·) a b) (h2 : List.Lex (· < ·) b c) :
    List.Lex (· < ·) a c :=
  IsTrans.trans a b c h1 h2

theorem lex_irrefl (a : List Nat) : ¬ List.Lex (· < ·) a a :=
  IsIrrefl.irrefl a

theorem IsPartitionOf.next {e : Nat} {q q' : List Nat} (h : IsPartitionOf e q)
    (hn : nextPartition q = some q') : IsPartitionOf e q' ∧ List.Lex (· < ·) q' q := by
  obtain ⟨h1, h2, h3, _, h5⟩ := nextPartition_spec q q' h.1 h.2.1 hn
  exact ⟨⟨h1, h2, h3.trans h.2.2⟩, h5⟩

theorem partitionChain_spec {e : Nat} :
    ∀ (n : Nat) (q : List Nat), IsPartitionOf e q →
      (∀ c ∈ partitionChain n q, IsPartitionOf e c ∧ (c = q ∨ List.Lex (· < ·) c q)) ∧
      (partitionChain n q).Pairwise (fun a b => List.Lex (· < ·) b a) := by
  intro n
  induction n with
  | zero => intro q _; simp [partitionChain]
  | succ n ih =>
    intro q hq
    cases hn : nextPartition q with
    | none =>
      simp only [partitionChain, hn, List.mem_singleton, List.pairwise_cons, List.not_mem_nil,
        false_implies, implies_true, List.Pairwise.nil, and_self, and_true]
      intro c hc
      subst hc
      exact ⟨hq, Or.inl rfl⟩
    | some q' =>
      obtain ⟨hq', hlt⟩ := hq.next hn
      obtain ⟨i1, i2⟩ := ih q' hq'
      have hbelow : ∀ c ∈ partitionChain n q', List.Lex (· < ·) c q := by
        intro c hc
        rcases (i1 c hc).2 with rfl | h
        · exact hlt
        · exact lex_trans h hlt
      simp only [partitionChain, hn, List.mem_cons, List.pairwise_cons]
      refine ⟨?_, hbelow, i2⟩
      intro c hc
      rcases hc with rfl | hc
      · exact ⟨hq, Or.inl rfl⟩
      · exact ⟨(i1 c hc).1, Or.inr (hbelow c hc)⟩

theorem partitionChain_nodup {e : Nat} (n : Nat) (q : List Nat) (hq : IsPartitionOf e q) :
    (partitionChain n q).Nodup := by
  apply List.Pairwise.imp _ (partitionChain_spec n q hq).2
  intro a b h hab
  subst hab
  exact lex_irrefl a h

theorem partitionChain_complete {e : Nat} :
    ∀ (n : Nat) (q : List Nat), IsPartitionOf e q → (partitionChain n q).length < n →
      ∀ s, IsPartitionOf e s → (s = q ∨ List.Lex (· < ·) s q) → s ∈ partitionChain n q := by
  intro n
  induction n with
  | zero => intro q _ h; omega
  | succ n ih =>
    intro q hq hlen s hs hsq
    rcases hsq with rfl | hlt
    · simp [partitionChain]
    · obtain ⟨q', hn, hq'⟩ :=
        nextPartition_succ q s hq.1 hq.2.1 hs.1 hs.2.1 (hs.2.2.trans hq.2.2.symm) hlt
      simp only [partitionChain, hn, List.length_cons] at hlen ⊢
      exact List.mem_cons_of_mem _ (ih q' (hq.next hn).1 (by omega) s hs hq')

theorem isPartitionOf_singleton (e : Nat) (he : 1 ≤ e) : IsPartitionOf e [e] := by
  refine ⟨List.sorted_singleton e, ?_, by simp⟩
  intro x hx
  rw [List.mem_singleton.1 hx]; exact he

theorem IsPartitionOf.le_singleton {e : Nat} {s : List Nat} (he : 1 ≤ e)
    (hs : IsPartitionOf e s) : s = [e] ∨ List.Lex (· < ·) s [e] := by
  have := fillParts_greatest e he s e he hs.1 hs.2.1
    (fun x hx => by
      have := List.single_le_sum (fun y _ => Nat.zero_le y) x hx
      rw [hs.2.2] at this
      exact this) hs.2.2
  rwa [fillParts_small e e he (le_refl e)] at this

theorem IsPartitionOf.ne_nil {e : Nat} {q : List Nat} (he : 1 ≤ e) (hq : IsPartitionOf e q) :
    q ≠ [] := by
  rintro rfl
  have := hq.2.2
  simp at this
  omega

theorem partitionLoop_chain (prime inner e : Nat) (he : 1 ≤ e) (hin : e + 1 ≤ inner) :
    ∀ (fuel : Nat) (q : List Nat) (parts : SMap PartitionNode), IsPartitionOf e q →
      (partitionChain fuel q).length < fuel →
      partitionLoop prime inner fuel q ((q.length - 1 : Nat) : Int) parts =
        .ok ((partitionChain fuel q).foldl (fun m c => pushPartition m prime c) parts) := by
  intro fuel
  induction fuel with
  | zero => intro q parts _ h; omega
  | succ fuel ih =>
    intro q parts hq hlen
    rw [partitionLoop_step prime inner fuel q parts hq.2.1 (hq.ne_nil he)
      (by rw [hq.2.2]; exact hin)]
    cases hn : nextPartition q with
    | none => simp [partitionChain, hn]
    | some q' =>
      simp only [partitionChain, hn, List.length_cons, List.foldl_cons] at hlen ⊢
      exact ih q' _ (hq.next hn).1 (by omega)

/-! ### Counting the partitions -/

theorem isPartitionOf_iff_sort (e : Nat) (q : List Nat) :
    IsPartitionOf e q ↔ ∃ π : Nat.Partition e, π.parts.sort (· ≥ ·) = q := by
  constructor
  · intro h
    refine ⟨⟨(q : Multiset Nat), fun {i} hi => h.2.1 i (by simpa using hi), by
      simpa using h.2.2⟩, ?_⟩
    simp only [Multiset.coe_sort]
    apply List.mergeSort_of_sorted
    apply List.Pairwise.imp _ h.1
    intro a b hab
    simpa using hab
  · rintro ⟨π, rfl⟩
    refine ⟨Multiset.sort_sorted _ _, ?_, ?_⟩
    · intro x hx
      exact π.parts_pos (by simpa using hx)
    · have : ((π.parts.sort (· ≥ ·) : List Nat) : Multiset Nat).sum = e := by
        rw [Multiset.sort_eq]; exact π.parts_sum
      rwa [Multiset.sum_coe] at this

theorem length_eq_card_partition {e : Nat} (ps : List (List Nat)) (hnd : ps.Nodup)
    (hmem : ∀ q, q ∈ ps ↔ IsPartitionOf e q) :
    ps.length = Fintype.card (Nat.Partition e) := by
  have hinj : Function.Injective (fun π : Nat.Partition e => π.parts.sort (· ≥ ·)) := by
    intro π₁ π₂ h
    apply Nat.Partition.ext
    have := congrArg (fun l : List Nat => (l : Multiset Nat)) h
    simpa [Multiset.sort_eq] using this
  have hset : ps.toFinset = Finset.univ.image (fun π : Nat.Partition e => π.parts.sort (· ≥ ·)) := by
    ext q
    rw [List.mem_toFinset, hmem, isPartitionOf_iff_sort]
    simp
  rw [← List.toFinset_card_of_nodup hnd, hset, Finset.card_image_of_injective _ hinj]
  rfl

theorem length_le_card_partition {e : Nat} (ps : List (List Nat)) (hnd : ps.Nodup)
    (hmem : ∀ q ∈ ps, IsPartitionOf e q) :
    ps.length ≤ Fintype.card (Nat.Partition e) := by
  have hinj : Function.Injective (fun π : Nat.Partition e => π.parts.sort (· ≥ ·)) := by
    intro π₁ π₂ h
    apply Nat.Partition.ext
    have := congrArg (fun l : List Nat => (l : Multiset Nat)) h
    simpa [Multiset.sort_eq] using this
  have hsub : ps.toFinset ⊆
      Finset.univ.image (fun π : Nat.Partition e => π.parts.sort (· ≥ ·)) := by
    intro q hq
    rw [List.mem_toFinset] at hq
    have := (isPartitionOf_iff_sort e q).1 (hmem q hq)
    simpa using this
  have := Finset.card_le_card hsub
  rw [List.toFinset_card_of_nodup hnd, Finset.card_image_of_injective _ hinj] at this
  exact this

/-! ### The map of partitions -/

theorem pushPartition_new (parts : SMap PartitionNode) (prime : Nat) (c : List Nat)
    (h : ∀ kv ∈ parts, kv.1 < prime) :
    pushPartition parts prime c = parts ++ [(prime, { partitions := [c], iterator := 0 })] := by
  unfold pushPartition
  induction parts with
  | nil => simp [SMap.update]
  | cons hd tl ih =>
    obtain ⟨k, v⟩ := hd
    have hk : k < prime := h (k, v) (List.mem_cons_self _ _)
    simp only [SMap.update]
    rw [if_neg (by omega), if_neg (by omega), ih (fun kv hkv => h kv (List.mem_cons_of_mem _ hkv))]
    rfl

theorem pushPartition_last (parts : SMap PartitionNode) (prime : Nat) (node : PartitionNode)
    (c : List Nat) (h : ∀ kv ∈ parts, kv.1 < prime) :
    pushPartition (parts ++ [(prime, node)]) prime c =
      parts ++ [(prime, { node with partitions := node.partitions ++ [c] })] := by
  unfold pushPartition
  induction parts with
  | nil => simp [SMap.update]
  | cons hd tl ih =>
    obtain ⟨k, v⟩ := hd
    have hk : k < prime := h (k, v) (List.mem_cons_self _ _)
    simp only [List.cons_append, SMap.update]
    rw [if_neg (by omega), if_neg (by omega)]
    congr 1
    exact ih (fun kv hkv => h kv (List.mem_cons_of_mem _ hkv))

theorem foldl_pushPartition (parts : SMap PartitionNode) (prime : Nat)
    (h : ∀ kv ∈ parts, kv.1 < prime) :
    ∀ (cs : List (List Nat)) (node : PartitionNode),
      cs.foldl (fun m c => pushPartition m prime c) (parts ++ [(prime, node)]) =
        parts ++ [(prime, { node with partitions := node.partitions ++ cs })] := by
  intro cs
  induction cs with
  | nil => intro node; simp
  | cons c cs ih =>
    intro node
    rw [List.foldl_cons, pushPartition_last parts prime node c h, ih]
    simp

/-- The partition loop for one prime, started from `[e]`: given enough fuel it adds to the
map a node with all partitions of `e`, each exactly once. -/
theorem partitionLoop_spec (prime e : Nat) (he : 1 ≤ e) (parts : SMap PartitionNode)
    (h : ∀ kv ∈ parts, kv.1 < prime) (inner fuel : Nat) (hin : e + 1 ≤ inner)
    (hf : Fintype.card (Nat.Partition e) < fuel) :
    ∃ ps, partitionLoop prime inner fuel [e] 0 parts =
        .ok (parts ++ [(prime, { partitions := ps, iterator := 0 })]) ∧
      ps.Nodup ∧ (∀ q, q ∈ ps ↔ IsPartitionOf e q) ∧ ps ≠ [] := by
  have h0 := isPartitionOf_singleton e he
  have hspec := partitionChain_spec fuel [e] h0
  have hnd := partitionChain_nodup fuel [e] h0
  have hlen : (partitionChain fuel [e]).length < fuel :=
    lt_of_le_of_lt (length_le_card_partition _ hnd (fun q hq => (hspec.1 q hq).1)) hf
  obtain ⟨n, rfl⟩ : ∃ n, fuel = n + 1 := ⟨fuel - 1, by omega⟩
  refine ⟨partitionChain (n + 1) [e], ?_, hnd, ?_, by simp [partitionChain]⟩
  · have := partitionLoop_chain prime inner e he hin (n + 1) [e] parts h0 hlen
    simp only [List.length_singleton, Nat.sub_self, Nat.cast_zero] at this
    rw [this]
    congr 1
    conv_lhs => rw [partitionChain]
    rw [List.foldl_cons, pushPartition_new parts prime [e] h, foldl_pushPartition parts prime h]
    simp [partitionChain]
  · intro q
    constructor
    · intro hq
      exact (hspec.1 q hq).1
    · intro hq
      exact partitionChain_complete (n + 1) [e] h0 hlen q hq (hq.le_singleton he)

/-- C9. For every exponent `e ≥ 1` the partition loop of `findPossibleIsoGroup` (run for
one prime with exponent `e`, with enough fuel) emits a list of partitions in which every
entry is a non-increasing sequence of positive integers with sum `e` and every such
sequence appears exactly once; their number is the partition number `p(e)`. -/
theorem partitionLoop_all_partitions (prime e : Nat) (he : 1 ≤ e) :
    ∃ N, ∀ fuel, N ≤ fuel →
      ∃ ps, partitionAll fuel [(prime, e)] [] =
          .ok [(prime, { partitions := ps, iterator := 0 })] ∧
        (∀ q, q ∈ ps ↔ IsPartitionOf e q) ∧ ps.Nodup ∧
        ps.length = Fintype.card (Nat.Partition e) := by
  refine ⟨max (e + 1) (Fintype.card (Nat.Partition e) + 1), ?_⟩
  intro fuel hf
  obtain ⟨ps, h1, h2, h3, _⟩ := partitionLoop_spec prime e he [] (by simp) fuel fuel
    (le_trans (le_max_left _ _) hf) (lt_of_lt_of_le (Nat.lt_succ_self _)
      (le_trans (le_max_right _ _) hf))
  refine ⟨ps, ?_, h3, h2, length_eq_card_partition ps h2 h3⟩
  simp only [partitionAll]
  rw [h1]
  rfl

theorem partitionLoop_all_partitions_witness :
    partitionAll 10 [(2, 3)] [] =
      .ok [(2, { partitions := [[3], [2, 1], [1, 1, 1]], iterator := 0 })] ∧
    (partitionAll 10 [(2, 4)] [] =
      .ok [(2, { partitions := [[4], [3, 1], [2, 2], [2, 1, 1], [1, 1, 1, 1]],
                 iterator := 0 })]) ∧
    ∃ N, ∀ fuel, N ≤ fuel →
      ∃ ps, partitionAll fuel [(2, 3)] [] =
          .ok [(2, { partitions := ps, iterator := 0 })] ∧
        (∀ q, q ∈ ps ↔ IsPartitionOf 3 q) ∧ ps.Nodup ∧
        ps.length = Fintype.card (Nat.Partition 3) :=
  ⟨by decide, by decide, partitionLoop_all_partitions 2 3 (by decide)⟩

/-! ### The prime factorisation, in full -/

theorem SMap.mem_iff_find {β : Type} (m : SMap β) (h : SMap.Sorted m) (kv : Nat × β) :
    kv ∈ m ↔ SMap.find m kv.1 = some kv.2 := by
  induction m with
  | nil => simp [SMap.find]
  | cons hd tl ih =>
    obtain ⟨k, v⟩ := hd
    rw [SMap.sorted_cons] at h
    simp only [List.mem_cons, SMap.find]
    by_cases hk : kv.1 = k
    · rw [if_pos hk]
      constructor
      · rintro (h1 | h1)
        · rw [h1]
        · have := h.1 kv h1; omega
      · intro h1
        left
        injection h1 with h1
        exact Prod.ext hk h1.symm
    · rw [if_neg hk, ← ih h.2]
      constructor
      · rintro (h1 | h1)
        · exact absurd (by rw [h1]) hk
        · exact h1
      · exact Or.inr

theorem SMap.mem_update_sorted {β : Type} (m : SMap β) (h : SMap.Sorted m) (k : Nat)
    (f : Option β → β) (kv : Nat × β) (hkv : kv ∈ SMap.update m k f) :
    kv = (k, f (SMap.find m k)) ∨ (kv ∈ m ∧ kv.1 ≠ k) := by
  rw [SMap.mem_iff_find _ (SMap.sorted_update m k f h), SMap.find_update m k f h] at hkv
  by_cases hk : kv.1 = k
  · rw [if_pos hk] at hkv
    injection hkv with hkv
    exact Or.inl (Prod.ext hk hkv.symm)
  · rw [if_neg hk] at hkv
    exact Or.inr ⟨(SMap.mem_iff_find m h kv).2 hkv, hk⟩

theorem divideOut_full (p : Nat) (hp : Nat.Prime p) :
    ∀ (fuel n : Nat) (primes : SMap Nat), 0 < n → n % p = 0 → n ≤ fuel →
      SMap.Sorted primes → (∀ kv ∈ primes, kv.1 ≠ p → Nat.Prime kv.1 ∧ 1 ≤ kv.2) →
      ∃ n' primes', divideOut fuel p n primes = .ok (n', primes') ∧
        n' * factorProduct primes' = n * factorProduct primes ∧ 0 < n' ∧ n' ∣ n ∧
        ¬ p ∣ n' ∧ SMap.Sorted primes' ∧ (∀ kv ∈ primes', Nat.Prime kv.1 ∧ 1 ≤ kv.2) ∧
        (∀ kv ∈ primes', kv.1 = p ∨ kv ∈ primes) := by
  intro fuel
  induction fuel with
  | zero => intro n primes hn _ hf; omega
  | succ fuel ih =>
    intro n primes hn hmod hf hs hgood
    have hp2 := hp.two_le
    have hdvd : p ∣ n := Nat.dvd_of_mod_eq_zero hmod
    have hdiv : n / p * p = n := Nat.div_mul_cancel hdvd
    have hpos : 0 < n / p := Nat.div_pos (Nat.le_of_dvd hn hdvd) (by omega)
    have hlt : n / p < n := Nat.div_lt_self hn (by omega)
    have hs' : SMap.Sorted (SMap.incr primes p) := SMap.sorted_update _ _ _ hs
    have hgood' : ∀ kv ∈ SMap.incr primes p, Nat.Prime kv.1 ∧ 1 ≤ kv.2 := by
      intro kv hkv
      rcases SMap.mem_update_sorted primes hs p _ kv hkv with h | h
      · rw [h]; exact ⟨hp, by simp⟩
      · exact hgood kv h.1 h.2
    simp only [divideOut]
    split_ifs with h
    · obtain ⟨n', primes', h1, h2, h3, h4, h5, h6, h7, h8⟩ :=
        ih (n / p) (SMap.incr primes p) hpos h (by omega) hs' (fun kv hkv _ => hgood' kv hkv)
      refine ⟨n', primes', h1, ?_, h3, h4.trans (Nat.div_dvd_of_dvd hdvd), h5, h6, h7, ?_⟩
      · rw [h2, factorProduct_incr, ← mul_assoc, hdiv]
      · intro kv hkv
        rcases h8 kv hkv with h | h
        · exact Or.inl h
        · exact SMap.mem_update _ _ _ _ h
    · refine ⟨n / p, SMap.incr primes p, rfl, ?_, hpos, Nat.div_dvd_of_dvd hdvd, ?_, hs',
        hgood', ?_⟩
      · rw [factorProduct_incr, ← mul_assoc, hdiv]
      · intro hd
        exact h (Nat.mod_eq_zero_of_dvd hd)
      · intro kv hkv
        exact SMap.mem_update _ _ _ _ hkv

theorem prime_of_no_small_divisor (p n : Nat) (hp : 2 ≤ p) (hdvd : p ∣ n)
    (hinv : ∀ d, 2 ≤ d → d < p → ¬ d ∣ n) : Nat.Prime p := by
  rw [Nat.prime_def_lt]
  refine ⟨hp, ?_⟩
  intro m hm hmp
  by_contra hne
  have hm0 : m ≠ 0 := by
    rintro rfl
    rw [Nat.zero_dvd] at hmp
    omega
  exact hinv m (by omega) hm (hmp.trans hdvd)

theorem oddLoop_full (inner : Nat) :
    ∀ (fuel p n : Nat) (primes : SMap Nat), 3 ≤ p → p % 2 = 1 → 0 < n → n + 1 ≤ fuel + p →
      1 ≤ fuel → n ≤ inner → (∀ d, 2 ≤ d → d < p → ¬ d ∣ n) →
      SMap.Sorted primes → (∀ kv ∈ primes, kv.1 < p ∧ Nat.Prime kv.1 ∧ 1 ≤ kv.2) →
      ∃ n' primes' p', oddLoop inner fuel p n primes = .ok (n', primes') ∧
        n' * factorProduct primes' = n * factorProduct primes ∧ 0 < n' ∧
        SMap.Sorted primes' ∧ (∀ kv ∈ primes', kv.1 < p' ∧ Nat.Prime kv.1 ∧ 1 ≤ kv.2) ∧
        n' < p' * p' ∧ (∀ d, 2 ≤ d → d < p' → ¬ d ∣ n') := by
  intro fuel
  induction fuel with
  | zero => intro p n primes _ _ _ _ h; omega
  | succ fuel ih =>
    intro p n primes hp hodd hn hf _ hin hinv hs hkeys
    have hnext : ∀ n₁, n₁ ∣ n → ¬ p ∣ n₁ → ∀ d, 2 ≤ d → d < p + 2 → ¬ d ∣ n₁ := by
      intro n₁ h1 h2 d hd hlt hdn
      rcases Nat.lt_or_ge d p with h | h
      · exact hinv d hd h (hdn.trans h1)
      · rcases Nat.eq_or_lt_of_le h with h | h
        · subst h; exact h2 hdn
        · have hd' : d = p + 1 := by omega
          have h2d : 2 ∣ d := by
            rw [hd']; exact Nat.dvd_of_mod_eq_zero (by omega)
          exact hinv 2 (le_refl 2) (by omega) ((h2d.trans hdn).trans h1)
    simp only [oddLoop]
    split_ifs with h1 h2
    · have hpn : 3 * p ≤ n := le_trans (Nat.mul_le_mul_right p hp) h1
      have hprime : Nat.Prime p :=
        prime_of_no_small_divisor p n (by omega) (Nat.dvd_of_mod_eq_zero h2) hinv
      have hne : ∀ kv ∈ primes, kv.1 ≠ p := fun kv hkv => Nat.ne_of_lt (hkeys kv hkv).1
      obtain ⟨n₁, primes₁, e1, e2, e3, e4, e5, e6, e7, e8⟩ :=
        divideOut_full p hprime inner n (SMap.assign primes p 0) hn h2 hin
          (SMap.sorted_update _ _ _ hs)
          (by
            intro kv hkv hk
            rcases SMap.mem_update _ _ _ _ hkv with h | h
            · exact absurd h hk
            · exact (hkeys kv h).2)
      rw [e1]
      simp only
      have hkeys₁ : ∀ kv ∈ primes₁, kv.1 < p + 2 ∧ Nat.Prime kv.1 ∧ 1 ≤ kv.2 := by
        intro kv hkv
        refine ⟨?_, e7 kv hkv⟩
        rcases e8 kv hkv with h | h
        · omega
        · rcases SMap.mem_update _ _ _ _ h with h | h
          · omega
          · have := (hkeys kv h).1; omega
      have hle : n₁ ≤ n := Nat.le_of_dvd hn e4
      obtain ⟨n', primes', p', f1, f2, f3, f4, f5, f6, f7⟩ :=
        ih (p + 2) n₁ primes₁ (by omega) (by omega) e3 (by omega) (by omega) (by omega)
          (hnext n₁ e4 e5) e6 hkeys₁
      refine ⟨n', primes', p', f1, ?_, f3, f4, f5, f6, f7⟩
      rw [f2, e2, factorProduct_assign _ _ _ hne, pow_zero, one_mul]
    · have hpn : 3 * p ≤ n := le_trans (Nat.mul_le_mul_right p hp) h1
      exact ih (p + 2) n primes (by omega) (by omega) hn (by omega) (by omega) hin
        (hnext n (dvd_refl n) (fun hd => h2 (Nat.mod_eq_zero_of_dvd hd))) hs
        (fun kv hkv => ⟨by have := (hkeys kv hkv).1; omega, (hkeys kv hkv).2⟩)
    · exact ⟨n, primes, p, rfl, rfl, hn, hs, hkeys, by omega, hinv⟩

theorem prime_of_small (n p : Nat) (hn : 2 ≤ n) (hlt : n < p * p)
    (hinv : ∀ d, 2 ≤ d → d < p → ¬ d ∣ n) : Nat.Prime n := by
  by_contra hnp
  have h1 : n.minFac ^ 2 ≤ n := Nat.minFac_sq_le_self (by omega) hnp
  have h2 : 2 ≤ n.minFac := (Nat.minFac_prime (by omega)).two_le
  have h3 : n.minFac < p := by
    by_contra hge
    have : p * p ≤ n.minFac ^ 2 := by
      rw [sq]; exact Nat.mul_le_mul (by omega) (by omega)
    omega
  exact hinv n.minFac h2 h3 (Nat.minFac_dvd n)

/-- The map of `primeFactorize`: its product is `n`, its keys are primes in increasing
order and its exponents are positive. -/
theorem primeFactorize_full (n fuel : Nat) (hn : 0 < n) (hf : n ≤ fuel) :
    ∃ primes, primeFactorize fuel n [] = .ok primes ∧ factorProduct primes = n ∧
      SMap.Sorted primes ∧ ∀ kv ∈ primes, Nat.Prime kv.1 ∧ 1 ≤ kv.2 := by
  have key : ∀ (m : Nat) (ps : SMap Nat), 0 < m → m ≤ fuel → ¬ 2 ∣ m → SMap.Sorted ps →
      (∀ kv ∈ ps, kv.1 < 3 ∧ Nat.Prime kv.1 ∧ 1 ≤ kv.2) → m * factorProduct ps = n →
      ∃ primes, (match oddLoop fuel fuel 3 m ps with
        | .error e => .error e
        | .ok (n, primes) =>
          if n ≠ 1 then
            match SMap.find primes n with
            | none => .ok (SMap.assign primes n 1)
            | some _ => .ok (SMap.incr primes n)
          else .ok primes) = Except.ok primes ∧ factorProduct primes = n ∧
        SMap.Sorted primes ∧ ∀ kv ∈ primes, Nat.Prime kv.1 ∧ 1 ≤ kv.2 := by
    intro m ps hm hmf h2m hs hkeys hprod
    obtain ⟨n', primes', p', f1, f2, f3, f4, f5, f6, f7⟩ :=
      oddLoop_full fuel fuel 3 m ps (le_refl 3) (by decide) hm (by omega) (by omega) hmf
        (by
          intro d hd hlt
          have : d = 2 := by omega
          rw [this]; exact h2m) hs hkeys
    rw [f1]
    simp only
    split_ifs with h1
    · have hprime : Nat.Prime n' := prime_of_small n' p' (by omega) f6 f7
      cases hfind : SMap.find primes' n' with
      | none =>
        refine ⟨_, rfl, ?_, SMap.sorted_update _ _ _ f4, ?_⟩
        · rw [factorProduct_assign _ _ _ ((SMap.find_eq_none _ _).1 hfind), pow_one, f2, hprod]
        · intro kv hkv
          rcases SMap.mem_update_sorted primes' f4 n' _ kv hkv with h | h
          · rw [h]; exact ⟨hprime, le_refl 1⟩
          · exact (f5 kv h.1).2
      | some v =>
        refine ⟨_, rfl, ?_, SMap.sorted_update _ _ _ f4, ?_⟩
        · rw [factorProduct_incr, f2, hprod]
        · intro kv hkv
          rcases SMap.mem_update_sorted primes' f4 n' _ kv hkv with h | h
          · rw [h]; exact ⟨hprime, by simp⟩
          · exact (f5 kv h.1).2
    · refine ⟨_, rfl, ?_, f4, fun kv hkv => (f5 kv hkv).2⟩
      have : n' = 1 := by simpa using h1
      rw [this, one_mul] at f2
      rw [f2, hprod]
  unfold primeFactorize
  split_ifs with h2
  · obtain ⟨n₁, primes₁, e1, e2, e3, e4, e5, e6, e7, e8⟩ :=
      divideOut_full 2 Nat.prime_two fuel n (SMap.assign [] 2 0) hn h2 hf
        (sorted_assign_empty 2 0) (by
          intro kv hkv hk
          simp [SMap.assign, SMap.update] at hkv
          rw [hkv] at hk
          exact absurd rfl hk)
    rw [e1]
    simp only
    apply key n₁ primes₁ e3 (le_trans (Nat.le_of_dvd hn e4) hf) e5 e6
    · intro kv hkv
      refine ⟨?_, e7 kv hkv⟩
      rcases e8 kv hkv with h | h
      · omega
      · simp [SMap.assign, SMap.update] at h
        rw [h]; decide
    · rw [e2]; simp [SMap.assign, SMap.update, factorProduct]
  · simp only
    exact key n [] hn hf (fun hd => h2 (Nat.mod_eq_zero_of_dvd hd))
      (by simp [SMap.Sorted]) (by simp) (by simp [factorProduct])

/-! ### The candidate loop -/

theorem flatMap_getElem?_block {α β : Type} (f : α → List β) (n : Nat)
    (hf : ∀ x, (f x).length = n) :
    ∀ (l : List α) (i j : Nat), i < n →
      (l.flatMap f)[i + n * j]? = (l[j]?).bind (fun x => (f x)[i]?) := by
  intro l
  induction l with
  | nil => intro i j _; simp
  | cons x l ih =>
    intro i j hi
    rw [List.flatMap_cons]
    cases j with
    | zero =>
      simp only [Nat.mul_zero, Nat.add_zero, List.getElem?_cons_zero, Option.some_bind]
      exact List.getElem?_append_left (by rw [hf]; exact hi)
    | succ j =>
      rw [List.getElem?_append_right (by rw [hf, Nat.mul_succ]; omega), hf,
        List.getElem?_cons_succ, ← ih i j hi]
      congr 1
      rw [Nat.mul_succ]; omega

theorem length_choices : ∀ (L : List (Nat × List (List Nat))),
    (choices L).length = (L.map (fun pl => pl.2.length)).prod := by
  intro L
  induction L with
  | nil => simp [choices]
  | cons hd tl ih =>
    obtain ⟨p, ps⟩ := hd
    have h : (List.length ∘ fun c => List.map (fun part => (p, part) :: c) ps) =
        fun _ => ps.length := by
      funext c; simp
    simp [choices, List.length_flatMap, h, ih, Nat.mul_comm]

theorem cursorIndex_lt (partitions : SMap PartitionNode)
    (h : ∀ kn ∈ partitions, kn.2.iterator < kn.2.partitions.length) :
    cursorIndex partitions < choiceCount partitions := by
  induction partitions with
  | nil => simp [cursorIndex, choiceCount]
  | cons hd tl ih =>
    obtain ⟨p, node⟩ := hd
    have h1 : node.iterator < node.partitions.length := h (p, node) (List.mem_cons_self _ _)
    have h2 := ih (fun kn hkn => h kn (List.mem_cons_of_mem _ hkn))
    simp only [cursorIndex, choiceCount, List.map_cons, List.prod_cons] at h2 ⊢
    calc node.iterator + node.partitions.length * cursorIndex tl
        < node.partitions.length + node.partitions.length * cursorIndex tl := by omega
      _ = node.partitions.length * (cursorIndex tl + 1) := by ring
      _ ≤ node.partitions.length * (List.map (fun kn => kn.2.partitions.length) tl).prod :=
          Nat.mul_le_mul_left _ h2

/-- The choice that the cursors point to. -/
theorem choices_getElem?_cursor (partitions : SMap PartitionNode)
    (h : ∀ kn ∈ partitions, kn.2.iterator < kn.2.partitions.length) :
    ∃ c, (choices (partitionLists partitions))[cursorIndex partitions]? = some c ∧
      List.Forall₂ (fun kn pp => pp.1 = kn.1 ∧ kn.2.partitions[kn.2.iterator]? = some pp.2)
        partitions c := by
  induction partitions with
  | nil => exact ⟨[], by simp [choices, partitionLists, cursorIndex], List.Forall₂.nil⟩
  | cons hd tl ih =>
    obtain ⟨p, node⟩ := hd
    have h1 : node.iterator < node.partitions.length := h (p, node) (List.mem_cons_self _ _)
    obtain ⟨c, hc1, hc2⟩ := ih (fun kn hkn => h kn (List.mem_cons_of_mem _ hkn))
    refine ⟨(p, node.partitions[node.iterator]) :: c, ?_, ?_⟩
    · simp only [partitionLists, List.map_cons, choices, cursorIndex]
      rw [flatMap_getElem?_block _ node.partitions.length (by simp) _ _ _ h1]
      simp only [partitionLists] at hc1
      rw [hc1]
      simp [h1]
    · exact List.Forall₂.cons ⟨rfl, by simp [h1]⟩ hc2

theorem buildCandidate_spec :
    ∀ (nodes : SMap PartitionNode) (c : List (Nat × List Nat)) (products : List Nat)
      (carry : Bool),
      (∀ kn ∈ nodes, kn.2.iterator < kn.2.partitions.length) →
      List.Forall₂ (fun kn pp => pp.1 = kn.1 ∧ kn.2.partitions[kn.2.iterator]? = some pp.2)
        nodes c →
      ∃ nodes' carryOut,
        buildCandidate nodes products carry =
          .ok (nodes', products ++ (candidateOf c).products, carryOut) ∧
        partitionLists nodes' = partitionLists nodes ∧
        (carry = false → nodes' = nodes ∧ carryOut = false) ∧
        (carry = true →
          (carryOut = true →
            cursorIndex nodes + 1 = choiceCount nodes ∧ nodes' = resetCursors nodes) ∧
          (carryOut = false →
            cursorIndex nodes' = cursorIndex nodes + 1 ∧
            ∀ kn ∈ nodes', kn.2.iterator < kn.2.partitions.length)) := by
  intro nodes
  induction nodes with
  | nil =>
    intro c products carry _ hc
    cases hc
    refine ⟨[], carry, by simp [buildCandidate, candidateOf], rfl, fun h => ⟨rfl, h⟩, ?_⟩
    intro _
    exact ⟨fun _ => by simp [cursorIndex, choiceCount, resetCursors], fun h => by simp_all⟩
  | cons hd tl ih =>
    intro c products carry hvalid hc
    obtain ⟨p, node⟩ := hd
    cases hc with
    | cons hhead htail =>
      rename_i pp c'
      obtain ⟨p', part⟩ := pp
      obtain ⟨hp, hpart⟩ := hhead
      simp only at hp hpart
      subst hp
      have hit : node.iterator < node.partitions.length := hvalid (p', node) (List.mem_cons_self _ _)
      have hvalid' : ∀ kn ∈ tl, kn.2.iterator < kn.2.partitions.length :=
        fun kn hkn => hvalid kn (List.mem_cons_of_mem _ hkn)
      have hprod : ∀ ps : List Nat, ps ++ (candidateOf ((p', part) :: c')).products =
          (ps ++ part.map (fun k => p' ^ k)) ++ (candidateOf c').products := by
        intro ps
        simp [candidateOf]
      unfold buildCandidate
      rw [hpart]
      simp only
      cases carry with
      | false =>
        simp only [Bool.false_eq_true, if_false]
        rw [if_neg (by omega)]
        obtain ⟨tl', co, h1, h2, h3, _⟩ :=
          ih c' (products ++ part.map (fun k => p' ^ k)) false hvalid' htail
        obtain ⟨h3a, h3b⟩ := h3 rfl
        subst h3a; subst h3b
        rw [h1]
        refine ⟨(p', node) :: tl', false, by rw [hprod], rfl, fun _ => ⟨rfl, rfl⟩, ?_⟩
        intro h; exact absurd h (by simp)
      | true =>
        simp only [if_true]
        by_cases hwrap : node.iterator + 1 = node.partitions.length
        · rw [if_pos hwrap]
          obtain ⟨tl', co, h1, h2, _, h4⟩ :=
            ih c' (products ++ part.map (fun k => p' ^ k)) true hvalid' htail
          obtain ⟨h4a, h4b⟩ := h4 rfl
          rw [h1]
          refine ⟨(p', { partitions := node.partitions, iterator := 0 }) :: tl', co,
            by rw [hprod], ?_, fun h => absurd h (by simp), fun _ => ⟨?_, ?_⟩⟩
          · simp only [partitionLists, List.map_cons] at h2 ⊢
            rw [h2]
          · intro hco
            obtain ⟨e1, e2⟩ := h4a hco
            refine ⟨?_, ?_⟩
            · simp only [cursorIndex, choiceCount, List.map_cons, List.prod_cons] at e1 ⊢
              rw [← e1, Nat.mul_add, Nat.mul_one]
              omega
            · rw [e2]; rfl
          · intro hco
            obtain ⟨e1, e2⟩ := h4b hco
            refine ⟨?_, ?_⟩
            · simp only [cursorIndex]
              rw [e1, Nat.mul_add, Nat.mul_one]
              omega
            · intro kn hkn
              rcases List.mem_cons.1 hkn with rfl | hkn
              · simp only; omega
              · exact e2 kn hkn
        · rw [if_neg hwrap]
          obtain ⟨tl', co, h1, h2, h3, _⟩ :=
            ih c' (products ++ part.map (fun k => p' ^ k)) false hvalid' htail
          obtain ⟨h3a, h3b⟩ := h3 rfl
          subst h3a; subst h3b
          rw [h1]
          refine ⟨(p', { partitions := node.partitions, iterator := node.iterator + 1 }) :: tl',
            false, by rw [hprod], rfl, fun h => absurd h (by simp), fun _ => ⟨?_, ?_⟩⟩
          · intro h; exact absurd h (by simp)
          · intro _
            refine ⟨?_, ?_⟩
            · simp only [cursorIndex]; omega
            · intro kn hkn
              rcases List.mem_cons.1 hkn with rfl | hkn
              · simp only; omega
              · exact hvalid' kn hkn

theorem resetCursors_eq (nodes : SMap PartitionNode) :
    resetCursors nodes =
      (partitionLists nodes).map (fun pl => (pl.1, { partitions := pl.2, iterator := 0 })) := by
  simp [resetCursors, partitionLists]

theorem choiceCount_eq (nodes : SMap PartitionNode) :
    choiceCount nodes = ((partitionLists nodes).map (fun pl => pl.2.length)).prod := by
  simp only [choiceCount, partitionLists, List.map_map]
  rfl

theorem drop_eq_cons_of_getElem? {α : Type} (l : List α) (i : Nat) (x : α)
    (h : l[i]? = some x) : l.drop i = x :: l.drop (i + 1) := by
  obtain ⟨hi, rfl⟩ := List.getElem?_eq_some_iff.1 h
  exact List.drop_eq_getElem_cons hi

/-- The candidate loop, from any position of the cursors: it builds the candidates of
the choices from that position on, keeps those whose largest element order does not
exceed that of `G`, and leaves all cursors at `0`. -/
theorem candidateLoop_spec (G : Group) :
    ∀ (fuel : Nat) (nodes : SMap PartitionNode) (groups built : List Group),
      (∀ kn ∈ nodes, kn.2.iterator < kn.2.partitions.length) →
      choiceCount nodes - cursorIndex nodes ≤ fuel →
      candidateLoop G fuel nodes groups built =
        .ok (resetCursors nodes,
          groups ++ ((((choices (partitionLists nodes)).drop (cursorIndex nodes)).map
            candidateOf).filter
              (fun c => decide (c.largestOrderElement ≤ G.largestOrderElement))),
          built ++ ((choices (partitionLists nodes)).drop (cursorIndex nodes)).map
            candidateOf) := by
  intro fuel
  induction fuel with
  | zero =>
    intro nodes groups built hvalid hf
    have := cursorIndex_lt nodes hvalid
    omega
  | succ fuel ih =>
    intro nodes groups built hvalid hf
    obtain ⟨c, hc1, hc2⟩ := choices_getElem?_cursor nodes hvalid
    obtain ⟨nodes', co, h1, h2, _, h4⟩ := buildCandidate_spec nodes c [] true hvalid hc2
    obtain ⟨h4a, h4b⟩ := h4 rfl
    have hlt := cursorIndex_lt nodes hvalid
    have hdrop := drop_eq_cons_of_getElem? _ _ _ hc1
    have hgroups : ∀ gs : List Group,
        (if G.largestOrderElement < (candidateOf c).largestOrderElement then
          (gs ++ [candidateOf c]).dropLast else gs ++ [candidateOf c]) =
        gs ++ [candidateOf c].filter
          (fun c => decide (c.largestOrderElement ≤ G.largestOrderElement)) := by
      intro gs
      by_cases hk : G.largestOrderElement < (candidateOf c).largestOrderElement
      · rw [if_pos hk, List.dropLast_concat]
        simp [List.filter, Nat.not_le.2 hk]
      · rw [if_neg hk]
        simp [List.filter, Nat.not_lt.1 hk]
    unfold candidateLoop
    rw [h1]
    simp only [List.nil_append]
    have hcand : ({ products := (candidateOf c).products } : Group) = candidateOf c := rfl
    rw [hcand, hgroups]
    cases co with
    | true =>
      obtain ⟨e1, e2⟩ := h4a rfl
      simp only [if_true]
      have hlen : (choices (partitionLists nodes)).length = cursorIndex nodes + 1 := by
        rw [length_choices, ← choiceCount_eq, e1]
      have hnil : (choices (partitionLists nodes)).drop (cursorIndex nodes + 1) = [] :=
        List.drop_eq_nil_of_le (by omega)
      rw [hdrop, hnil, e2]
      simp
    | false =>
      obtain ⟨e1, e2⟩ := h4b rfl
      simp only [Bool.false_eq_true, if_false]
      have hcount : choiceCount nodes' = choiceCount nodes := by
        rw [choiceCount_eq, choiceCount_eq, h2]
      rw [ih nodes' _ _ e2 (by rw [hcount, e1]; omega), resetCursors_eq, resetCursors_eq, h2, e1,
        hdrop]
      simp [List.filter_cons]
      split_ifs <;> simp

/-! ### Uniqueness of the factorisation -/

theorem factorProduct_pos (m : SMap Nat) (hp : ∀ kv ∈ m, Nat.Prime kv.1) :
    0 < factorProduct m := by
  induction m with
  | nil => simp [factorProduct]
  | cons hd tl ih =>
    simp only [factorProduct, List.map_cons, List.prod_cons]
    exact Nat.mul_pos (pow_pos (hp hd (List.mem_cons_self _ _)).pos _)
      (ih (fun kv hkv => hp kv (List.mem_cons_of_mem _ hkv)))

theorem factorization_factorProduct (m : SMap Nat) (hs : SMap.Sorted m)
    (hp : ∀ kv ∈ m, Nat.Prime kv.1) (p : Nat) :
    (factorProduct m).factorization p = (SMap.find m p).getD 0 := by
  induction m with
  | nil => simp [factorProduct, SMap.find]
  | cons hd tl ih =>
    obtain ⟨q, e⟩ := hd
    rw [SMap.sorted_cons] at hs
    have hq : Nat.Prime q := hp (q, e) (List.mem_cons_self _ _)
    have hp' : ∀ kv ∈ tl, Nat.Prime kv.1 := fun kv hkv => hp kv (List.mem_cons_of_mem _ hkv)
    have hpos := factorProduct_pos tl hp'
    have hmul : factorProduct ((q, e) :: tl) = q ^ e * factorProduct tl := by
      simp [factorProduct]
    rw [hmul, Nat.factorization_mul (pow_pos hq.pos e).ne' hpos.ne', Finsupp.add_apply,
      ih hs.2 hp', hq.factorization_pow]
    simp only [SMap.find]
    by_cases hpq : p = q
    · subst hpq
      have hnone : SMap.find tl p = none := by
        rw [SMap.find_eq_none]
        intro kv hkv
        have := hs.1 kv hkv
        omega
      simp [hnone]
    · rw [if_neg hpq]
      simp [Finsupp.single_apply, Ne.symm hpq]

theorem SMap.ext_of_find {β : Type} :
    ∀ (m₁ m₂ : SMap β), SMap.Sorted m₁ → SMap.Sorted m₂ →
      (∀ k, SMap.find m₁ k = SMap.find m₂ k) → m₁ = m₂ := by
  intro m₁ m₂ h₁ h₂ h
  have s₁ : List.Sorted (fun a b : Nat × β => a.1 < b.1) m₁ := List.pairwise_map.1 h₁
  have s₂ : List.Sorted (fun a b : Nat × β => a.1 < b.1) m₂ := List.pairwise_map.1 h₂
  haveI : IsAntisymm (Nat × β) (fun a b => a.1 < b.1) :=
    ⟨fun a b hab hba => absurd hab (Nat.lt_asymm hba)⟩
  have n₁ : m₁.Nodup := s₁.imp (fun {a b} hab heq => by rw [heq] at hab; exact Nat.lt_irrefl _ hab)
  have n₂ : m₂.Nodup := s₂.imp (fun {a b} hab heq => by rw [heq] at hab; exact Nat.lt_irrefl _ hab)
  refine List.eq_of_perm_of_sorted ((List.perm_ext_iff_of_nodup n₁ n₂).2 ?_) s₁ s₂
  intro kv
  rw [SMap.mem_iff_find m₁ h₁, SMap.mem_iff_find m₂ h₂, h]

/-- The prime factorisation does not depend on the fuel. -/
theorem factors_unique (m₁ m₂ : SMap Nat) (h₁ : SMap.Sorted m₁) (h₂ : SMap.Sorted m₂)
    (hp₁ : ∀ kv ∈ m₁, Nat.Prime kv.1 ∧ 1 ≤ kv.2) (hp₂ : ∀ kv ∈ m₂, Nat.Prime kv.1 ∧ 1 ≤ kv.2)
    (h : factorProduct m₁ = factorProduct m₂) : m₁ = m₂ := by
  have key : ∀ (m : SMap Nat), SMap.Sorted m → (∀ kv ∈ m, Nat.Prime kv.1 ∧ 1 ≤ kv.2) →
      ∀ k, SMap.find m k =
        if (factorProduct m).factorization k = 0 then none
        else some ((factorProduct m).factorization k) := by
    intro m hs hp k
    rw [factorization_factorProduct m hs (fun kv hkv => (hp kv hkv).1)]
    cases hf : SMap.find m k with
    | none => simp
    | some v =>
      have hmem : (k, v) ∈ m := (SMap.mem_iff_find m hs (k, v)).2 hf
      have := (hp (k, v) hmem).2
      simp only [Option.getD_some]
      rw [if_neg (by simp only at this; omega)]
  apply SMap.ext_of_find m₁ m₂ h₁ h₂
  intro k
  rw [key m₁ h₁ hp₁ k, key m₂ h₂ hp₂ k, h]

/-! ### The maps of partitions of a factorisation -/

theorem partitionAll_spec :
    ∀ (factors : SMap Nat), SMap.Sorted factors → (∀ kv ∈ factors, 1 ≤ kv.2) →
      ∃ N, ∀ (parts : SMap PartitionNode),
        (∀ kn ∈ parts, ∀ kv ∈ factors, kn.1 < kv.1) →
        ∀ fuel, N ≤ fuel →
          ∃ nodes, partitionAll fuel factors parts = .ok (parts ++ nodes) ∧
            List.Forall₂ IsPartitionNode factors nodes := by
  intro factors
  induction factors with
  | nil =>
    intro _ _
    exact ⟨0, fun parts _ fuel _ => ⟨[], by simp [partitionAll], List.Forall₂.nil⟩⟩
  | cons hd tl ih =>
    intro hs hexp
    obtain ⟨p, e⟩ := hd
    rw [SMap.sorted_cons] at hs
    have he : 1 ≤ e := hexp (p, e) (List.mem_cons_self _ _)
    obtain ⟨N, hN⟩ := ih hs.2 (fun kv hkv => hexp kv (List.mem_cons_of_mem _ hkv))
    refine ⟨max N (max (e + 1) (Fintype.card (Nat.Partition e) + 1)), ?_⟩
    intro parts hparts fuel hf
    have hf1 : N ≤ fuel := le_trans (le_max_left _ _) hf
    have hf2 : e + 1 ≤ fuel := le_trans (le_trans (le_max_left _ _) (le_max_right _ _)) hf
    have hf3 : Fintype.card (Nat.Partition e) < fuel :=
      lt_of_lt_of_le (Nat.lt_succ_self _)
        (le_trans (le_trans (le_max_right _ _) (le_max_right _ _)) hf)
    obtain ⟨ps, h1, h2, h3, _⟩ := partitionLoop_spec p e he parts
      (fun kn hkn => hparts kn hkn (p, e) (List.mem_cons_self _ _)) fuel fuel hf2 hf3
    obtain ⟨nodes, g1, g2⟩ := hN (parts ++ [(p, { partitions := ps, iterator := 0 })])
      (by
        intro kn hkn kv hkv
        rcases List.mem_append.1 hkn with h | h
        · exact hparts kn h kv (List.mem_cons_of_mem _ hkv)
        · rw [List.mem_singleton.1 h]
          exact hs.1 kv hkv) fuel hf1
    refine ⟨(p, { partitions := ps, iterator := 0 }) :: nodes, ?_, ?_⟩
    · simp only [partitionAll]
      rw [h1]
      simp only
      rw [g1]
      simp
    · exact List.Forall₂.cons ⟨rfl, rfl, h2, h3⟩ g2

theorem IsPartitionNode.partitions_length {pe : Nat × Nat} {kn : Nat × PartitionNode}
    (h : IsPartitionNode pe kn) :
    kn.2.partitions.length = Fintype.card (Nat.Partition pe.2) :=
  length_eq_card_partition _ h.2.2.1 h.2.2.2

theorem IsPartitionNode.length_pos {pe : Nat × Nat} {kn : Nat × PartitionNode}
    (h : IsPartitionNode pe kn) (he : 1 ≤ pe.2) : 0 < kn.2.partitions.length := by
  apply List.length_pos_of_mem
  exact (h.2.2.2 [pe.2]).2 (isPartitionOf_singleton pe.2 he)

theorem choiceCount_of_forall₂ {factors : SMap Nat} {nodes : SMap PartitionNode}
    (h : List.Forall₂ IsPartitionNode factors nodes) :
    choiceCount nodes = (factors.map (fun pe => Fintype.card (Nat.Partition pe.2))).prod := by
  induction h with
  | nil => simp [choiceCount]
  | cons h1 _ ih =>
    simp only [choiceCount, List.map_cons, List.prod_cons] at ih ⊢
    rw [ih, h1.partitions_length]

theorem cursorIndex_of_forall₂ {factors : SMap Nat} {nodes : SMap PartitionNode}
    (h : List.Forall₂ IsPartitionNode factors nodes) :
    cursorIndex nodes = 0 ∧ resetCursors nodes = nodes := by
  induction h with
  | nil => simp [cursorIndex, resetCursors]
  | @cons pe kn _ _ h1 _ ih =>
    obtain ⟨k, node⟩ := kn
    have h0 : node.iterator = 0 := h1.2.1
    simp only [cursorIndex, resetCursors, List.map_cons] at ih ⊢
    rw [ih.1, ih.2, h0]
    simp only [Nat.mul_zero, Nat.add_zero, true_and]
    congr 2
    cases node
    simp only at h0
    subst h0
    rfl

/-! ### `findPossibleIsoGroup` -/

/-- When the order of `G` is below `2 ^ 32`, `orderOfGenerator` returns the order of the
generator, a divisor of the order of `G`. -/
theorem orderOfGenerator_dvd_order (G : Group) (generator : Tuple) (hG : G.Valid)
    (hlen : generator.length = G.products.length) (hsmall : G.order < 2 ^ 32) :
    ∃ n, orderOfGenerator G generator = .ok n ∧ 0 < n ∧ n ∣ G.order := by
  obtain ⟨k, h2, h3, h1⟩ := orderOfGenerator_spec G generator hG hlen
  have hdvd : k ∣ G.order := (h3 G.order).1 (annihilates_order G generator)
  exact ⟨k, h1 (lt_of_le_of_lt (Nat.le_of_dvd (G.order_pos hG) hdvd) hsmall), h2, hdvd⟩

/-- The loop `do { primes[2]++; n /= 2; } while (n % 2 == 0);` does not end for `n = 0`. -/
theorem divideOut_zero (p : Nat) : ∀ (fuel : Nat) (primes : SMap Nat),
    divideOut fuel p 0 primes = .error .outOfFuel := by
  intro fuel
  induction fuel with
  | zero => intro primes; rfl
  | succ fuel ih =>
    intro primes
    simp only [divideOut, Nat.zero_div, Nat.zero_mod, if_true]
    exact ih _

/-- The function `primeFactorize` does not return for `n = 0`. -/
theorem primeFactorize_zero (fuel : Nat) (primes : SMap Nat) :
    primeFactorize fuel 0 primes = .error .outOfFuel := by
  simp only [primeFactorize, Nat.zero_mod, if_true, divideOut_zero]

/-- When the value of `orderOfQgroup` is `0`, `findPossibleIsoGroup` does not return: the
division is by zero when `orderOfGenerator` returns `0`, and `primeFactorize(0)` does not
end otherwise. -/
theorem findPossibleIsoGroupState_zero (G : Group) (generator : Tuple) (n : Nat)
    (hn : orderOfGenerator G generator = .ok n) (hq : G.order / n % 2 ^ 32 = 0)
    (fuel : Nat) (groups : List Group) :
    quotientPartitions fuel G generator =
      .error (if n = 0 then .undefined else .outOfFuel) ∧
    findPossibleIsoGroupState fuel groups G generator =
      .error (if n = 0 then .undefined else .outOfFuel) ∧
    findPossibleIsoGroup fuel groups G generator =
      .error (if n = 0 then .undefined else .outOfFuel) := by
  have h1 : quotientPartitions fuel G generator =
      .error (if n = 0 then .undefined else .outOfFuel) := by
    simp only [quotientPartitions, hn]
    split_ifs with h0
    · rfl
    · simp only [hq, primeFactorize_zero]
  have h2 : findPossibleIsoGroupState fuel groups G generator =
      .error (if n = 0 then .undefined else .outOfFuel) := by
    simp only [findPossibleIsoGroupState, h1]
  exact ⟨h1, h2, by simp only [findPossibleIsoGroup, h2]⟩

theorem forall₂_exists_left {α β : Type} {R : α → β → Prop} {l₁ : List α} {l₂ : List β}
    (h : List.Forall₂ R l₁ l₂) : ∀ b ∈ l₂, ∃ a ∈ l₁, R a b := by
  induction h with
  | nil => intro b hb; simp at hb
  | cons h1 _ ih =>
    intro b hb
    rcases List.mem_cons.1 hb with rfl | hb
    · exact ⟨_, List.mem_cons_self _ _, h1⟩
    · obtain ⟨a, ha, hab⟩ := ih b hb
      exact ⟨a, List.mem_cons_of_mem _ ha, hab⟩

/-- What `findPossibleIsoGroup` computes, step by step, when `orderOfGenerator` returns `n`
and the value `G.order / n % 2 ^ 32` of `orderOfQgroup` is not `0`: the prime factorisation
`factors` of that value, the map of all partitions of the exponents, and the candidates of
all choices of one partition per prime, of which those with a small enough largest element
order are appended to `groups`. -/
theorem findPossibleIsoGroupState_core (G : Group) (generator : Tuple) (n : Nat)
    (hn : orderOfGenerator G generator = .ok n) (hq : 0 < G.order / n % 2 ^ 32) :
    ∃ factors N, factorProduct factors = G.order / n % 2 ^ 32 ∧ SMap.Sorted factors ∧
      (∀ kv ∈ factors, Nat.Prime kv.1 ∧ 1 ≤ kv.2) ∧
      ∀ fuel, N ≤ fuel →
        primeFactorize fuel (G.order / n % 2 ^ 32) [] = .ok factors ∧
        ∃ nodes, quotientPartitions fuel G generator = .ok nodes ∧
          List.Forall₂ IsPartitionNode factors nodes ∧
          ∀ groups, findPossibleIsoGroupState fuel groups G generator =
            .ok (nodes,
              groups ++ (((choices (partitionLists nodes)).map candidateOf).filter
                (fun c => decide (c.largestOrderElement ≤ G.largestOrderElement))),
              (choices (partitionLists nodes)).map candidateOf) := by
  have hn0 : n ≠ 0 := by
    rintro rfl
    simp at hq
  obtain ⟨factors, f1, f2, f3, f4⟩ :=
    primeFactorize_full (G.order / n % 2 ^ 32) (G.order / n % 2 ^ 32) hq (le_refl _)
  obtain ⟨N, hN⟩ := partitionAll_spec factors f3 (fun kv hkv => (f4 kv hkv).2)
  refine ⟨factors,
    max (G.order / n % 2 ^ 32)
      (max N (factors.map (fun pe => Fintype.card (Nat.Partition pe.2))).prod),
    f2, f3, f4, ?_⟩
  intro fuel hf
  have hf1 : G.order / n % 2 ^ 32 ≤ fuel := le_trans (le_max_left _ _) hf
  have hf2 : N ≤ fuel := le_trans (le_trans (le_max_left _ _) (le_max_right _ _)) hf
  have hf3 : (factors.map (fun pe => Fintype.card (Nat.Partition pe.2))).prod ≤ fuel :=
    le_trans (le_trans (le_max_right _ _) (le_max_right _ _)) hf
  obtain ⟨factors', g1, g2, g3, g4⟩ := primeFactorize_full (G.order / n % 2 ^ 32) fuel hq hf1
  have hsame : factors' = factors := factors_unique _ _ g3 f3 g4 f4 (g2.trans f2.symm)
  subst hsame
  obtain ⟨nodes, p1, p2⟩ := hN [] (by simp) fuel hf2
  simp only [List.nil_append] at p1
  have hq' : quotientPartitions fuel G generator = .ok nodes := by
    simp only [quotientPartitions, hn, if_neg hn0, g1, p1]
  refine ⟨g1, nodes, hq', p2, ?_⟩
  intro groups
  have hvalid : ∀ kn ∈ nodes, kn.2.iterator < kn.2.partitions.length := by
    intro kn hkn
    obtain ⟨pe, hpe, hnode⟩ := forall₂_exists_left p2 kn hkn
    rw [hnode.2.1]
    exact hnode.length_pos (g4 pe hpe).2
  have hidx := cursorIndex_of_forall₂ p2
  have hloop := candidateLoop_spec G fuel nodes groups [] hvalid
    (by rw [choiceCount_of_forall₂ p2]; omega)
  rw [hidx.1, hidx.2] at hloop
  simp only [List.drop_zero, List.nil_append] at hloop
  simp only [findPossibleIsoGroupState, hq', hloop]

/-- When the order of `G` is below `2 ^ 32` nothing wraps: `orderOfGenerator` returns the
order `n` of the generator, and the value of `orderOfQgroup` is the order `G.order / n` of
the quotient, which is not `0`. -/
theorem quotient_order_fits (G : Group) (generator : Tuple) (hG : G.Valid)
    (hlen : generator.length = G.products.length) (hsmall : G.order < 2 ^ 32) :
    ∃ n, orderOfGenerator G generator = .ok n ∧ 0 < n ∧ n ∣ G.order ∧
      G.order / n % 2 ^ 32 = G.order / n ∧ 0 < G.order / n := by
  obtain ⟨n, h1, h2, h3⟩ := orderOfGenerator_dvd_order G generator hG hlen hsmall
  refine ⟨n, h1, h2, h3, ?_, Nat.div_pos (Nat.le_of_dvd (G.order_pos hG) h3) h2⟩
  exact Nat.mod_eq_of_lt (lt_of_le_of_lt (Nat.div_le_self _ _) hsmall)

/-- What `findPossibleIsoGroup` computes when the order of `G` is below `2 ^ 32`: the order
`n` of the generator, the prime factorisation `factors` of the order of the quotient, the
map of all partitions of the exponents, and the candidates of all choices of one partition
per prime, of which those with a small enough largest element order are appended to
`groups`. -/
theorem findPossibleIsoGroupState_spec (G : Group) (generator : Tuple) (hG : G.Valid)
    (hlen : generator.length = G.products.length) (hsmall : G.order < 2 ^ 32) :
    ∃ n factors N, orderOfGenerator G generator = .ok n ∧ 0 < n ∧ n ∣ G.order ∧
      factorProduct factors = G.order / n ∧ SMap.Sorted factors ∧
      (∀ kv ∈ factors, Nat.Prime kv.1 ∧ 1 ≤ kv.2) ∧
      ∀ fuel, N ≤ fuel →
        primeFactorize fuel (G.order / n) [] = .ok factors ∧
        ∃ nodes, quotientPartitions fuel G generator = .ok nodes ∧
          List.Forall₂ IsPartitionNode factors nodes ∧
          ∀ groups, findPossibleIsoGroupState fuel groups G generator =
            .ok (nodes,
              groups ++ (((choices (partitionLists nodes)).map candidateOf).filter
                (fun c => decide (c.largestOrderElement ≤ G.largestOrderElement))),
              (choices (partitionLists nodes)).map candidateOf) := by
  obtain ⟨n, h1, h2, h3, h4, h5⟩ := quotient_order_fits G generator hG hlen hsmall
  obtain ⟨factors, N, f1, f2, f3, f4⟩ :=
    findPossibleIsoGroupState_core G generator n h1 (by rw [h4]; exact h5)
  rw [h4] at f1 f4
  exact ⟨n, factors, N, h1, h2, h3, f1, f2, f3, f4⟩

theorem mem_choices_iff : ∀ (L : List (Nat × List (List Nat))) (c : List (Nat × List Nat)),
    c ∈ choices L ↔ List.Forall₂ (fun pl pp => pp.1 = pl.1 ∧ pp.2 ∈ pl.2) L c := by
  intro L
  induction L with
  | nil =>
    intro c
    simp only [choices, List.mem_singleton]
    constructor
    · rintro rfl; exact List.Forall₂.nil
    · intro h; cases h; rfl
  | cons hd tl ih =>
    intro c
    obtain ⟨p, ps⟩ := hd
    simp only [choices, List.mem_flatMap, List.mem_map]
    constructor
    · rintro ⟨c', hc', part, hpart, rfl⟩
      exact List.Forall₂.cons ⟨rfl, hpart⟩ ((ih c').1 hc')
    · intro h
      cases h with
      | cons h1 h2 =>
        rename_i pp c'
        obtain ⟨q, part⟩ := pp
        simp only at h1
        obtain ⟨rfl, hpart⟩ := h1
        exact ⟨c', (ih c').2 h2, part, hpart, rfl⟩

theorem nodup_choices : ∀ (L : List (Nat × List (List Nat))),
    (∀ pl ∈ L, pl.2.Nodup) → (choices L).Nodup := by
  intro L
  induction L with
  | nil => intro _; simp [choices]
  | cons hd tl ih =>
    intro h
    obtain ⟨p, ps⟩ := hd
    have hps : ps.Nodup := h (p, ps) (List.mem_cons_self _ _)
    have htl := ih (fun pl hpl => h pl (List.mem_cons_of_mem _ hpl))
    simp only [choices]
    rw [List.nodup_flatMap]
    constructor
    · intro c _
      exact hps.map (fun a b hab => by injection hab with h1 h2; injection h1)
    · apply List.Pairwise.imp _ htl
      intro c c' hne
      simp only [Function.onFun, List.Disjoint, List.mem_map]
      rintro x ⟨part, _, rfl⟩ ⟨part', _, h'⟩
      injection h' with _ h2
      exact hne h2.symm

theorem prod_map_pow (p : Nat) (part : List Nat) :
    (part.map (fun k => p ^ k)).prod = p ^ part.sum := by
  induction part with
  | nil => simp
  | cons k tl ih => simp [ih, pow_add]

theorem order_candidateOf {factors : SMap Nat} {c : List (Nat × List Nat)}
    (h : List.Forall₂ (fun pe pp => pp.1 = pe.1 ∧ pp.2.sum = pe.2) factors c) :
    (candidateOf c).order = factorProduct factors := by
  rw [Group.order_eq_prod]
  induction h with
  | nil => simp [candidateOf, factorProduct]
  | @cons pe pp _ _ h1 _ ih =>
    simp only [candidateOf, List.flatMap_cons, List.prod_append, factorProduct, List.map_cons,
      List.prod_cons] at ih ⊢
    rw [ih, prod_map_pow, h1.1, h1.2]

theorem forall₂_choice_of_node {factors : SMap Nat} {nodes : SMap PartitionNode}
    (h : List.Forall₂ IsPartitionNode factors nodes) :
    ∀ {c : List (Nat × List Nat)},
      List.Forall₂ (fun pl pp => pp.1 = pl.1 ∧ pp.2 ∈ pl.2) (partitionLists nodes) c →
      List.Forall₂ (fun pe pp => pp.1 = pe.1 ∧ IsPartitionOf pe.2 pp.2) factors c := by
  induction h with
  | nil =>
    intro c hc
    simp only [partitionLists, List.map_nil] at hc
    cases hc
    exact List.Forall₂.nil
  | @cons pe kn _ _ h1 _ ih =>
    intro c hc
    simp only [partitionLists, List.map_cons] at hc
    cases hc with
    | cons g1 g2 =>
      exact List.Forall₂.cons ⟨g1.1.trans h1.1, (h1.2.2.2 _).1 g1.2⟩ (ih g2)

theorem findPossibleIsoGroup_of_state {fuel : Nat} {gs : List Group} {G : Group}
    {generator : Tuple} {partitions : SMap PartitionNode} {groups built : List Group}
    (h : findPossibleIsoGroupState fuel gs G generator = .ok (partitions, groups, built)) :
    findPossibleIsoGroup fuel gs G generator = .ok groups := by
  simp only [findPossibleIsoGroup, h]

theorem primeFactorize_one (fuel : Nat) (hf : 1 ≤ fuel) : primeFactorize fuel 1 [] = .ok [] := by
  obtain ⟨k, rfl⟩ : ∃ k, fuel = k + 1 := ⟨fuel - 1, by omega⟩
  simp [primeFactorize, oddLoop]

/-- The run of `findPossibleIsoGroup` when the value of `orderOfQgroup` is `1`: the
factorisation is the empty map, no partition is made, and the candidate loop runs once and
keeps the group with no cyclic factors. -/
theorem findPossibleIsoGroupState_one (G : Group) (generator : Tuple) (n : Nat)
    (hn : orderOfGenerator G generator = .ok n) (hn0 : n ≠ 0)
    (hq : G.order / n % 2 ^ 32 = 1) (hloe : 0 < G.largestOrderElement) (fuel : Nat)
    (hf : 1 ≤ fuel) :
    quotientPartitions fuel G generator = .ok [] ∧
    (∀ groups, findPossibleIsoGroupState fuel groups G generator =
      .ok ([], groups ++ [⟨[]⟩], [⟨[]⟩])) ∧
    findPossibleIsoGroup fuel [] G generator = .ok [⟨[]⟩] := by
  have h2 : quotientPartitions fuel G generator = .ok [] := by
    simp only [quotientPartitions, hn, if_neg hn0, hq, primeFactorize_one fuel hf, partitionAll]
  have h3 : ∀ groups, findPossibleIsoGroupState fuel groups G generator =
      .ok ([], groups ++ [⟨[]⟩], [⟨[]⟩]) := by
    intro groups
    obtain ⟨k, rfl⟩ : ∃ k, fuel = k + 1 := ⟨fuel - 1, by omega⟩
    have hnot : ¬ (G.largestOrderElement < Group.largestOrderElement ⟨[]⟩) := by
      have : Group.largestOrderElement ⟨[]⟩ = 1 := rfl
      omega
    simp only [findPossibleIsoGroupState, h2, candidateLoop, buildCandidate, if_neg hnot,
      if_true, List.nil_append]
  refine ⟨h2, h3, ?_⟩
  simp only [findPossibleIsoGroup, h3, List.nil_append]

/-- C6, as amended. For every `G` with positive factor orders whose order is below
`2 ^ 32` and every generator of its arity, every candidate that `findPossibleIsoGroup`
produces (given enough fuel) has as order, the product of its cyclic factor orders, exactly
the order of the quotient, `G.order / orderOfGenerator(G, generator)`. -/
theorem candidates_have_quotient_order (G : Group) (generator : Tuple) (hG : G.Valid)
    (hlen : generator.length = G.products.length) (hsmall : G.order < 2 ^ 32) :
    ∃ n N, orderOfGenerator G generator = .ok n ∧
      ∀ fuel, N ≤ fuel →
        ∃ groups, findPossibleIsoGroup fuel [] G generator = .ok groups ∧
          ∀ c ∈ groups, c.order = G.order / n := by
  obtain ⟨n, factors, N, h1, _, _, h4, _, _, h7⟩ :=
    findPossibleIsoGroupState_spec G generator hG hlen hsmall
  refine ⟨n, N, h1, ?_⟩
  intro fuel hf
  obtain ⟨_, nodes, _, p2, p3⟩ := h7 fuel hf
  refine ⟨_, findPossibleIsoGroup_of_state (p3 []), ?_⟩
  intro c hc
  simp only [List.nil_append, List.mem_filter, List.mem_map] at hc
  obtain ⟨⟨ch, hch, rfl⟩, _⟩ := hc
  rw [← h4]
  apply order_candidateOf
  exact (forall₂_choice_of_node p2 ((mem_choices_iff _ _).1 hch)).imp
    (fun {pe pp} h => ⟨h.1, h.2.2.2⟩)

theorem candidates_have_quotient_order_witness :
    Group.Valid ⟨[4, 2]⟩ ∧ [1, 0].length = (Group.products ⟨[4, 2]⟩).length ∧
    Group.order ⟨[4, 2]⟩ < 2 ^ 32 ∧
    findPossibleIsoGroup 10 [] ⟨[4, 2]⟩ [1, 0] = .ok [⟨[2]⟩] ∧
    findPossibleIsoGroup 10 [] ⟨[2, 2]⟩ [0, 0] = .ok [⟨[2, 2]⟩] ∧
    ∃ n N, orderOfGenerator ⟨[4, 2]⟩ [1, 0] = .ok n ∧
      ∀ fuel, N ≤ fuel →
        ∃ groups, findPossibleIsoGroup fuel [] ⟨[4, 2]⟩ [1, 0] = .ok groups ∧
          ∀ c ∈ groups, c.order = Group.order ⟨[4, 2]⟩ / n :=
  ⟨by decide, by decide, by decide, by decide, by decide,
    candidates_have_quotient_order ⟨[4, 2]⟩ [1, 0] (by decide) (by decide) (by decide)⟩

/-- C6 as stated fails when the order of the quotient does not fit an `unsigned`: for
`G = Z_2147483647 x Z_2147483647` and the identity as generator the order of the quotient
is `2147483647 * 2147483647 = 2 ^ 62 - 2 ^ 32 + 1`, the value kept in `orderOfQgroup` is
`1`, and (for every fuel `≥ 1`) the one candidate returned is the group with no factors,
of order `1`. -/
theorem candidate_order_of_wrapped_quotient :
    Group.Valid ⟨[2147483647, 2147483647]⟩ ∧
    Group.Mem ⟨[2147483647, 2147483647]⟩ [0, 0] ∧
    orderOfGenerator ⟨[2147483647, 2147483647]⟩ [0, 0] = .ok 1 ∧
    Group.order ⟨[2147483647, 2147483647]⟩ / 1 = 2 ^ 62 - 2 ^ 32 + 1 ∧
    Group.order ⟨[2147483647, 2147483647]⟩ / 1 % 2 ^ 32 = 1 ∧
    (∀ fuel, 1 ≤ fuel →
      findPossibleIsoGroup fuel [] ⟨[2147483647, 2147483647]⟩ [0, 0] = .ok [⟨[]⟩]) ∧
    Group.order ⟨[]⟩ = 1 :=
  ⟨by decide, by decide, by decide, by decide, by decide,
    fun fuel hf => (findPossibleIsoGroupState_one ⟨[2147483647, 2147483647]⟩ [0, 0] 1
      (by decide) (by decide) (by decide) (by decide) fuel hf).2.2,
    by decide⟩

/-- C7. For every `G` with positive factor orders and every generator of its arity,
`orderOfGenerator` returns a value `n`.  When the value `G.order / n % 2 ^ 32` of
`orderOfQgroup` is `0`, `findPossibleIsoGroup` does not return.  Otherwise, and so whenever
the order of `G` is below `2 ^ 32`, it returns (given enough fuel), and the candidates that
it returns are the candidates built whose `largestOrderElement` is at most that of `G`, in
the order in which they were built: a built candidate is kept if and only if it satisfies
the bound. -/
theorem candidates_kept_iff_bound (G : Group) (generator : Tuple) (hG : G.Valid)
    (hlen : generator.length = G.products.length) :
    ∃ n, orderOfGenerator G generator = .ok n ∧
      (G.order / n % 2 ^ 32 = 0 →
        ∀ fuel groups, ∃ e, findPossibleIsoGroupState fuel groups G generator = .error e) ∧
      (G.order < 2 ^ 32 → 0 < G.order / n % 2 ^ 32) ∧
      (0 < G.order / n % 2 ^ 32 →
        ∃ N, ∀ fuel, N ≤ fuel →
          ∃ partitions groups built,
            findPossibleIsoGroupState fuel [] G generator = .ok (partitions, groups, built) ∧
            findPossibleIsoGroup fuel [] G generator = .ok groups ∧
            groups = built.filter
              (fun c => decide (c.largestOrderElement ≤ G.largestOrderElement)) ∧
            (∀ c ∈ groups, c.largestOrderElement ≤ G.largestOrderElement) ∧
            (∀ c ∈ built, c.largestOrderElement ≤ G.largestOrderElement → c ∈ groups)) := by
  obtain ⟨n, hn⟩ := orderOfGenerator_total G generator hG hlen
  refine ⟨n, hn, ?_, ?_, ?_⟩
  · intro hq fuel groups
    exact ⟨_, (findPossibleIsoGroupState_zero G generator n hn hq fuel groups).2.1⟩
  · intro hsmall
    obtain ⟨n', h1, _, _, h4, h5⟩ := quotient_order_fits G generator hG hlen hsmall
    rw [hn] at h1
    injection h1 with h1
    subst h1
    rw [h4]
    exact h5
  · intro hq
    obtain ⟨factors, N, _, _, _, h7⟩ := findPossibleIsoGroupState_core G generator n hn hq
    refine ⟨N, ?_⟩
    intro fuel hf
    obtain ⟨_, nodes, _, _, p3⟩ := h7 fuel hf
    refine ⟨_, _, _, p3 [], findPossibleIsoGroup_of_state (p3 []), by simp, ?_, ?_⟩
    · intro c hc
      simp only [List.nil_append, List.mem_filter, decide_eq_true_eq] at hc
      exact hc.2
    · intro c hc hle
      simp only [List.nil_append, List.mem_filter, decide_eq_true_eq]
      exact ⟨hc, hle⟩

theorem candidates_kept_iff_bound_witness :
    Group.Valid ⟨[2, 2]⟩ ∧ [0, 0].length = (Group.products ⟨[2, 2]⟩).length ∧
    findPossibleIsoGroupState 10 [] ⟨[2, 2]⟩ [0, 0] =
      .ok ([(2, { partitions := [[2], [1, 1]], iterator := 0 })], [⟨[2, 2]⟩],
        [⟨[4]⟩, ⟨[2, 2]⟩]) ∧
    ∃ n, orderOfGenerator ⟨[2, 2]⟩ [0, 0] = .ok n ∧
      (Group.order ⟨[2, 2]⟩ / n % 2 ^ 32 = 0 →
        ∀ fuel groups, ∃ e,
          findPossibleIsoGroupState fuel groups ⟨[2, 2]⟩ [0, 0] = .error e) ∧
      (Group.order ⟨[2, 2]⟩ < 2 ^ 32 → 0 < Group.order ⟨[2, 2]⟩ / n % 2 ^ 32) ∧
      (0 < Group.order ⟨[2, 2]⟩ / n % 2 ^ 32 →
        ∃ N, ∀ fuel, N ≤ fuel →
          ∃ partitions groups built,
            findPossibleIsoGroupState fuel [] ⟨[2, 2]⟩ [0, 0] =
              .ok (partitions, groups, built) ∧
            findPossibleIsoGroup fuel [] ⟨[2, 2]⟩ [0, 0] = .ok groups ∧
            groups = built.filter
              (fun c => decide (c.largestOrderElement ≤ Group.largestOrderElement ⟨[2, 2]⟩)) ∧
            (∀ c ∈ groups, c.largestOrderElement ≤ Group.largestOrderElement ⟨[2, 2]⟩) ∧
            (∀ c ∈ built, c.largestOrderElement ≤ Group.largestOrderElement ⟨[2, 2]⟩ →
              c ∈ groups)) :=
  ⟨by decide, by decide, by decide,
    candidates_kept_iff_bound ⟨[2, 2]⟩ [0, 0] (by decide) (by decide)⟩

/-- C8, as amended. For every `G` with positive factor orders whose order is below
`2 ^ 32` and every generator of its arity: before pruning, the candidate loop of
`findPossibleIsoGroup` (given enough fuel) builds one candidate for every choice of one
partition per prime of the order of the quotient, in the order of `choices`: the per-prime
lists hold every partition of the exponent once, a list `c` is among the choices exactly
when it picks one partition of every list, the choices are pairwise different, the
candidate of a choice has the factors `prime ^ part`, their number is the product of the
lengths of the lists, and at the end all cursors are `0` again. -/
theorem candidateLoop_builds_all_choices (G : Group) (generator : Tuple) (hG : G.Valid)
    (hlen : generator.length = G.products.length) (hsmall : G.order < 2 ^ 32) :
    ∃ n factors N, orderOfGenerator G generator = .ok n ∧
      ∀ fuel, N ≤ fuel →
        primeFactorize fuel (G.order / n) [] = .ok factors ∧
        ∃ partitions groups built,
          quotientPartitions fuel G generator = .ok partitions ∧
          List.Forall₂ IsPartitionNode factors partitions ∧
          findPossibleIsoGroupState fuel [] G generator = .ok (partitions, groups, built) ∧
          built = (choices (partitionLists partitions)).map candidateOf ∧
          (∀ c, c ∈ choices (partitionLists partitions) ↔
            List.Forall₂ (fun pl pp => pp.1 = pl.1 ∧ pp.2 ∈ pl.2)
              (partitionLists partitions) c) ∧
          (choices (partitionLists partitions)).Nodup ∧
          built.length = (partitions.map (fun kn => kn.2.partitions.length)).prod ∧
          ∀ kn ∈ partitions, kn.2.iterator = 0 := by
  obtain ⟨n, factors, N, h1, _, _, _, _, _, h7⟩ :=
    findPossibleIsoGroupState_spec G generator hG hlen hsmall
  refine ⟨n, factors, N, h1, ?_⟩
  intro fuel hf
  obtain ⟨p1, nodes, p2, p3, p4⟩ := h7 fuel hf
  refine ⟨p1, nodes, _, _, p2, p3, p4 [], rfl, mem_choices_iff _, ?_, ?_, ?_⟩
  · apply nodup_choices
    intro pl hpl
    simp only [partitionLists, List.mem_map] at hpl
    obtain ⟨kn, hkn, rfl⟩ := hpl
    obtain ⟨pe, _, hnode⟩ := forall₂_exists_left p3 kn hkn
    exact hnode.2.2.1
  · rw [List.length_map, length_choices, ← choiceCount_eq]
    rfl
  · intro kn hkn
    obtain ⟨pe, _, hnode⟩ := forall₂_exists_left p3 kn hkn
    exact hnode.2.1

theorem candidateLoop_builds_all_choices_witness :
    Group.Valid ⟨[8, 9, 4]⟩ ∧ [0, 0, 0].length = (Group.products ⟨[8, 9, 4]⟩).length ∧
    Group.order ⟨[8, 9, 4]⟩ < 2 ^ 32 ∧
    ∃ n factors N, orderOfGenerator ⟨[8, 9, 4]⟩ [0, 0, 0] = .ok n ∧
      ∀ fuel, N ≤ fuel →
        primeFactorize fuel (Group.order ⟨[8, 9, 4]⟩ / n) [] = .ok factors ∧
        ∃ partitions groups built,
          quotientPartitions fuel ⟨[8, 9, 4]⟩ [0, 0, 0] = .ok partitions ∧
          List.Forall₂ IsPartitionNode factors partitions ∧
          findPossibleIsoGroupState fuel [] ⟨[8, 9, 4]⟩ [0, 0, 0] =
            .ok (partitions, groups, built) ∧
          built = (choices (partitionLists partitions)).map candidateOf ∧
          (∀ c, c ∈ choices (partitionLists partitions) ↔
            List.Forall₂ (fun pl pp => pp.1 = pl.1 ∧ pp.2 ∈ pl.2)
              (partitionLists partitions) c) ∧
          (choices (partitionLists partitions)).Nodup ∧
          built.length = (partitions.map (fun kn => kn.2.partitions.length)).prod ∧
          ∀ kn ∈ partitions, kn.2.iterator = 0 :=
  ⟨by decide, by decide, by decide,
    candidateLoop_builds_all_choices ⟨[8, 9, 4]⟩ [0, 0, 0] (by decide) (by decide)
      (by decide)⟩

/-! ### The quotient group -/


theorem isQuotientOrder_iff_addOrderOf {G : Group} [Fact G.Valid] (g x : Elem G) (k : Nat) :
    IsQuotientOrder g x k ↔
      addOrderOf (QuotientAddGroup.mk x : Elem G ⧸ AddSubgroup.zmultiples g) = k := by
  have key : ∀ m : Nat, m • (QuotientAddGroup.mk x : Elem G ⧸ AddSubgroup.zmultiples g) = 0 ↔
      m • x ∈ AddSubgroup.zmultiples g := by
    intro m
    rw [← QuotientAddGroup.mk_nsmul, QuotientAddGroup.eq_zero_iff]
  constructor
  · rintro ⟨h1, h2, h3⟩
    rw [addOrderOf_eq_iff (by omega)]
    refine ⟨(key k).2 h2, ?_⟩
    intro m hm hm0 hz
    exact h3 m hm0 hm ((key m).1 hz)
  · intro h
    have hpos : 0 < k := by
      rw [← h]
      apply addOrderOf_pos_iff.2
      rw [isOfFinAddOrder_iff_nsmul_eq_zero]
      refine ⟨addOrderOf x, Elem.addOrderOf_pos x, ?_⟩
      rw [key, addOrderOf_nsmul_eq_zero]
      exact AddSubgroup.zero_mem _
    rw [addOrderOf_eq_iff hpos] at h
    refine ⟨hpos, (key k).1 h.1, ?_⟩
    intro m hm0 hm hmem
    exact h.2 m hm hm0 ((key m).2 hmem)

theorem coset_eq_of_sub_mem {G : Group} [Fact G.Valid] (g x y : Elem G)
    (h : x - y ∈ AddSubgroup.zmultiples g) : G.coset g.1 x.1 = G.coset g.1 y.1 := by
  rw [coset_eq_toFinset g x y h,
    coset_eq_toFinset g y y (by rw [sub_self]; exact AddSubgroup.zero_mem _)]

theorem sub_mem_of_coset_eq {G : Group} [Fact G.Valid] (g x y : Elem G)
    (h : G.coset g.1 x.1 = G.coset g.1 y.1) : x - y ∈ AddSubgroup.zmultiples g := by
  have hx : x.1 ∈ G.coset g.1 x.1 :=
    (mem_coset_iff g x x.1).2 ⟨x, rfl, by rw [sub_self]; exact AddSubgroup.zero_mem _⟩
  rw [h, mem_coset_iff] at hx
  obtain ⟨y', hy', hmem⟩ := hx
  have : y' = x := Subtype.ext hy'
  rwa [this] at hmem

/-- The number of cosets of order `k`, as counted on tuples, is the number of elements of
order `k` of the quotient group. -/
theorem cosetCount_eq_card {G : Group} [Fact G.Valid] (g : Elem G) (k : Nat) :
    G.cosetCount g.1 k =
      Nat.card { a : Elem G ⧸ AddSubgroup.zmultiples g // addOrderOf a = k } := by
  classical
  -- the coset of an element of the quotient, as a set of tuples
  let Ψ : Elem G ⧸ AddSubgroup.zmultiples g → Finset Tuple :=
    Quotient.lift (fun x : Elem G => G.coset g.1 x.1) (by
      intro x y hxy
      have hxy' : -x + y ∈ AddSubgroup.zmultiples g := QuotientAddGroup.leftRel_apply.1 hxy
      apply coset_eq_of_sub_mem
      have : x - y = -(-x + y) := by abel
      rw [this]
      exact AddSubgroup.neg_mem _ hxy')
  have hΨ : ∀ x : Elem G, Ψ (QuotientAddGroup.mk x) = G.coset g.1 x.1 := fun x => rfl
  have hinj : Function.Injective Ψ := by
    intro a b hab
    induction a using QuotientAddGroup.induction_on with
    | H x =>
      induction b using QuotientAddGroup.induction_on with
      | H y =>
        rw [hΨ, hΨ] at hab
        have := sub_mem_of_coset_eq g x y hab
        rw [QuotientAddGroup.eq]
        have h2 : -x + y = -(x - y) := by abel
        rw [h2]
        exact AddSubgroup.neg_mem _ this
  have himg : G.cosetsOfOrder g.1 k =
      (Finset.univ.filter (fun a : Elem G ⧸ AddSubgroup.zmultiples g =>
        addOrderOf a = k)).image Ψ := by
    ext S
    simp only [Group.cosetsOfOrder, Finset.mem_image, Finset.mem_filter, List.mem_toFinset,
      Finset.mem_univ, true_and]
    constructor
    · rintro ⟨t, ⟨ht, hord⟩, rfl⟩
      let x : Elem G := ⟨t, (G.mem_generateElements t).1 ht⟩
      exact ⟨QuotientAddGroup.mk x,
        (isQuotientOrder_iff_addOrderOf g x k).1 ((cosetOrderIs_iff g x k).1 hord), hΨ x⟩
    · rintro ⟨a, ha, rfl⟩
      induction a using QuotientAddGroup.induction_on with
      | H x =>
        exact ⟨x.1, ⟨(G.mem_generateElements _).2 x.2,
          (cosetOrderIs_iff g x k).2 ((isQuotientOrder_iff_addOrderOf g x k).2 ha)⟩, (hΨ x).symm⟩
  unfold Group.cosetCount
  rw [himg, Finset.card_image_of_injective _ hinj, Nat.card_eq_fintype_card,
    Fintype.card_subtype]

/-! ### Products of cyclic groups -/

theorem cyclicProduct_perm {L L' : List Nat} (h : L.Perm L') :
    Nonempty (CyclicProduct L ≃+ CyclicProduct L') := by
  induction h with
  | nil => exact ⟨AddEquiv.refl _⟩
  | cons a _ ih =>
    obtain ⟨e⟩ := ih
    exact ⟨AddEquiv.prodCongr (AddEquiv.refl (ZMod a)) e⟩
  | swap a b l =>
    exact ⟨(AddEquiv.prodAssoc.symm.trans
      (AddEquiv.prodCongr AddEquiv.prodComm (AddEquiv.refl (CyclicProduct l)))).trans
      AddEquiv.prodAssoc⟩
  | trans _ _ ih₁ ih₂ =>
    obtain ⟨e₁⟩ := ih₁
    obtain ⟨e₂⟩ := ih₂
    exact ⟨e₁.trans e₂⟩

theorem cyclicProduct_filter (L : List Nat) :
    Nonempty (CyclicProduct L ≃+ CyclicProduct (L.filter (fun n => decide (n ≠ 1)))) := by
  induction L with
  | nil => exact ⟨AddEquiv.refl _⟩
  | cons n L ih =>
    obtain ⟨e⟩ := ih
    by_cases hn : n = 1
    · subst hn
      rw [List.filter_cons_of_neg (by simp)]
      haveI : Unique (ZMod 1) := inferInstanceAs (Unique (Fin 1))
      exact ⟨(AddEquiv.uniqueProd : ZMod 1 × CyclicProduct L ≃+ CyclicProduct L).trans e⟩
    · rw [List.filter_cons_of_pos (by simpa using hn)]
      exact ⟨AddEquiv.prodCongr (AddEquiv.refl (ZMod n)) e⟩

/-- A finite product of cyclic groups over any index type is a product over a list. -/
theorem pi_zmod_equiv_cyclicProduct (ι : Type) [Fintype ι] :
    ∀ q : ι → Nat, ∃ L : List Nat, (∀ n ∈ L, ∃ i, n = q i) ∧
      Nonempty ((∀ i, ZMod (q i)) ≃+ CyclicProduct L) := by
  refine Fintype.induction_empty_option
    (P := fun ι _ => ∀ q : ι → Nat, ∃ L : List Nat, (∀ n ∈ L, ∃ i, n = q i) ∧
      Nonempty ((∀ i, ZMod (q i)) ≃+ CyclicProduct L)) ?_ ?_ ?_ ι
  · intro α β _ e ih q
    obtain ⟨L, hL, ⟨φ⟩⟩ := ih (fun a => q (e a))
    refine ⟨L, ?_, ⟨?_⟩⟩
    · intro n hn
      obtain ⟨a, ha⟩ := hL n hn
      exact ⟨e a, ha⟩
    · exact ((LinearEquiv.piCongrLeft ℤ (fun b => ZMod (q b)) e).symm.toAddEquiv).trans φ
  · intro q
    haveI : Unique (CyclicProduct []) := inferInstanceAs (Unique PUnit)
    exact ⟨[], by simp, ⟨AddEquiv.addEquivOfUnique⟩⟩
  · intro α _ ih q
    obtain ⟨L, hL, ⟨φ⟩⟩ := ih (fun a => q (some a))
    refine ⟨q none :: L, ?_, ⟨?_⟩⟩
    · intro n hn
      rcases List.mem_cons.1 hn with rfl | hn
      · exact ⟨none, rfl⟩
      · obtain ⟨a, ha⟩ := hL n hn
        exact ⟨some a, ha⟩
    · exact ((LinearEquiv.piOptionEquivProd ℤ (M := fun o => ZMod (q o))).toAddEquiv).trans
        (AddEquiv.prodCongr (AddEquiv.refl _) φ)

/-- The structure theorem, in the form used here: a finite abelian group is a product of
cyclic groups of prime power order over a list. -/
theorem exists_cyclicProduct_equiv (A : Type) [AddCommGroup A] [Finite A] :
    ∃ L : List Nat, (∀ n ∈ L, ∃ p k, Nat.Prime p ∧ 1 ≤ k ∧ n = p ^ k) ∧
      Nonempty (A ≃+ CyclicProduct L) := by
  obtain ⟨ι, _, p, hp, e, ⟨φ⟩⟩ := AddCommGroup.equiv_directSum_zmod_of_finite A
  obtain ⟨L, hL, ⟨ψ⟩⟩ := pi_zmod_equiv_cyclicProduct ι (fun i => p i ^ e i)
  obtain ⟨χ⟩ := cyclicProduct_filter L
  refine ⟨L.filter (fun n => decide (n ≠ 1)), ?_, ⟨?_⟩⟩
  · intro n hn
    rw [List.mem_filter] at hn
    obtain ⟨i, hi⟩ := hL n hn.1
    refine ⟨p i, e i, hp i, ?_, hi⟩
    rcases Nat.eq_zero_or_pos (e i) with h0 | h0
    · rw [h0, pow_zero] at hi
      simp [hi] at hn
    · exact h0
  · exact ((φ.trans
      (DirectSum.linearEquivFunOnFintype ℤ ι (fun i => ZMod (p i ^ e i))).toAddEquiv).trans
        ψ).trans χ

theorem Elem.exists_cons {n : Nat} {L : List Nat} (x : Tuple)
    (hx : Group.Mem ⟨n :: L⟩ x) : ∃ a t, x = a :: t ∧ a < n ∧ Group.Mem ⟨L⟩ t := by
  cases hx with
  | cons h1 h2 => exact ⟨_, _, rfl, h1, h2⟩

theorem elem_cons_equiv (n : Nat) (L : List Nat) (h : Group.Valid ⟨n :: L⟩)
    (h' : Group.Valid ⟨L⟩) :
    haveI := Fact.mk h
    haveI := Fact.mk h'
    Nonempty (Elem ⟨n :: L⟩ ≃+ ZMod n × Elem ⟨L⟩) := by
  haveI := Fact.mk h
  haveI := Fact.mk h'
  have hn : 0 < n := h n (List.mem_cons_self _ _)
  haveI : NeZero n := ⟨by omega⟩
  refine ⟨{
    toFun := fun x => ((x.1.headD 0 : ZMod n), ⟨x.1.tail, by
      obtain ⟨a, t, hx, _, ht⟩ := Elem.exists_cons x.1 x.2
      rw [hx]; exact ht⟩)
    invFun := fun zy => ⟨zy.1.val :: zy.2.1, List.Forall₂.cons (ZMod.val_lt zy.1) zy.2.2⟩
    left_inv := ?_
    right_inv := ?_
    map_add' := ?_ }⟩
  · intro x
    obtain ⟨a, t, hx, ha, ht⟩ := Elem.exists_cons x.1 x.2
    apply Subtype.ext
    simp only [hx, List.headD_cons, List.tail_cons]
    rw [ZMod.val_natCast, Nat.mod_eq_of_lt ha]
  · intro zy
    obtain ⟨z, y⟩ := zy
    simp
  · intro x y
    obtain ⟨a, t, hx, ha, ht⟩ := Elem.exists_cons x.1 x.2
    obtain ⟨b, s, hy, hb, hs⟩ := Elem.exists_cons y.1 y.2
    have hxy : (x + y).1 = ((a + b) % n) :: Group.add ⟨L⟩ t s := by
      rw [Elem.val_add, hx, hy]
      simp [Group.add]
    apply Prod.ext
    · simp only [hxy, hx, hy, List.headD_cons, Prod.fst_add]
      rw [ZMod.natCast_mod, Nat.cast_add]
    · apply Subtype.ext
      simp only [hxy, List.tail_cons, Prod.snd_add]
      rw [Elem.val_add]
      simp [hx, hy]

theorem valid_tail {n : Nat} {L : List Nat} (h : Group.Valid ⟨n :: L⟩) : Group.Valid ⟨L⟩ :=
  fun p hp => h p (List.mem_cons_of_mem _ hp)

/-- The elements of a group are the product of the cyclic groups of its factors. -/
theorem elem_equiv_cyclicProduct : ∀ (L : List Nat) (h : Group.Valid ⟨L⟩),
    haveI := Fact.mk h
    Nonempty (Elem ⟨L⟩ ≃+ CyclicProduct L) := by
  intro L
  induction L with
  | nil =>
    intro h
    haveI := Fact.mk h
    haveI : Unique (CyclicProduct []) := inferInstanceAs (Unique PUnit)
    haveI : Unique (Elem ⟨[]⟩) :=
      ⟨⟨0⟩, fun x => Subtype.ext (by
        have hx : x.1 = [] := List.forall₂_nil_right_iff.1 x.2
        rw [hx]
        rfl)⟩
    exact ⟨AddEquiv.addEquivOfUnique⟩
  | cons n L ih =>
    intro h
    haveI := Fact.mk h
    haveI := Fact.mk (valid_tail h)
    obtain ⟨e⟩ := ih (valid_tail h)
    obtain ⟨f⟩ := elem_cons_equiv n L h (valid_tail h)
    have g : ZMod n × Elem ⟨L⟩ ≃+ ZMod n × CyclicProduct L :=
      AddEquiv.prodCongr (AddEquiv.refl (ZMod n)) e
    exact ⟨f.trans g⟩

theorem card_cyclicProduct : ∀ L : List Nat, Nat.card (CyclicProduct L) = L.prod := by
  intro L
  induction L with
  | nil =>
    show Nat.card PUnit = 1
    simp
  | cons n L ih =>
    show Nat.card (ZMod n × CyclicProduct L) = (n :: L).prod
    rw [Nat.card_prod, ih, Nat.card_zmod, List.prod_cons]

theorem card_elem (G : Group) : Nat.card (Elem G) = G.order := by
  rw [Nat.card_eq_fintype_card, ← G.length_generateElements,
    ← List.toFinset_card_of_nodup G.nodup_generateElements]
  exact @Fintype.card_of_subtype Tuple (fun t => G.Mem t) G.generateElements.toFinset
    (fun t => by rw [List.mem_toFinset]; exact G.mem_generateElements t)
    (Elem.instFintype G)

theorem card_quotient {G : Group} [hG : Fact G.Valid] (g : Elem G) :
    Nat.card (Elem G ⧸ AddSubgroup.zmultiples g) = G.order / addOrderOf g := by
  have h := AddSubgroup.card_eq_card_quotient_mul_card_addSubgroup (AddSubgroup.zmultiples g)
  rw [card_elem, Nat.card_zmultiples] at h
  rw [h, Nat.mul_div_cancel _ (Elem.addOrderOf_pos g)]

/-- The histogram of `calcElementOrders` from an empty tracker, by the number of cosets
of each order. -/
theorem calcElementOrders_hist {G : Group} [hG : Fact G.Valid] (g : Elem G) (fuel : Nat)
    (hf : G.order ≤ fuel) :
    ∃ hist, calcElementOrders fuel G g.1 [] = .ok hist ∧ SMap.Sorted hist ∧
      ∀ k, SMap.find hist k =
        if G.cosetCount g.1 k = 0 then none else some (G.cosetCount g.1 k) := by
  obtain ⟨orders, h1, h2, _, _⟩ := calcElementOrders_spec g fuel hf []
  obtain ⟨s1, s2⟩ := foldl_tally_spec orders (SMap.assign [] 1 1) (sorted_assign_empty 1 1)
  refine ⟨_, h1, s1, ?_⟩
  intro k
  rw [s2 k, h2 k]
  by_cases hk : k = 1
  · subst hk
    simp [SMap.assign, SMap.update, SMap.find]
    split_ifs with h
    · rw [h]
    · rw [Nat.add_comm]
  · have hk' : ¬ (1 = k) := fun h => hk h.symm
    simp [SMap.assign, SMap.update, SMap.find, hk, hk', List.count_cons]

/-- Quotients that are isomorphic as groups have the same histogram. -/
theorem calcElementOrders_eq_of_equiv {G C : Group} [Fact G.Valid] [Fact C.Valid]
    (g : Elem G) (c : Elem C)
    (φ : (Elem G ⧸ AddSubgroup.zmultiples g) ≃+ (Elem C ⧸ AddSubgroup.zmultiples c))
    (fuel fuel' : Nat) (hf : G.order ≤ fuel) (hf' : C.order ≤ fuel') :
    calcElementOrders fuel G g.1 [] = calcElementOrders fuel' C c.1 [] := by
  obtain ⟨h₁, e₁, s₁, f₁⟩ := calcElementOrders_hist g fuel hf
  obtain ⟨h₂, e₂, s₂, f₂⟩ := calcElementOrders_hist c fuel' hf'
  rw [e₁, e₂]
  congr 1
  apply SMap.ext_of_find _ _ s₁ s₂
  intro k
  rw [f₁ k, f₂ k, cosetCount_eq_card g k, cosetCount_eq_card c k]
  have : Nat.card { a : Elem G ⧸ AddSubgroup.zmultiples g // addOrderOf a = k } =
      Nat.card { a : Elem C ⧸ AddSubgroup.zmultiples c // addOrderOf a = k } :=
    Nat.card_congr (φ.toEquiv.subtypeEquiv (fun a => by
      show addOrderOf a = k ↔ addOrderOf (φ a) = k
      rw [φ.addOrderOf_eq]))
  rw [this]

/-- The quotient by the subgroup of the identity is the group itself. -/
theorem quotient_identity_equiv (C : Group) [Fact C.Valid] :
    Nonempty ((Elem C ⧸ AddSubgroup.zmultiples (0 : Elem C)) ≃+ Elem C) := by
  have h : AddSubgroup.zmultiples (0 : Elem C) = ⊥ := AddSubgroup.zmultiples_zero_eq_bot
  exact ⟨(QuotientAddGroup.quotientAddEquivOfEq h).trans QuotientAddGroup.quotientBot⟩

/-! ### The candidate of a product of cyclic groups -/

theorem exists_prime_exponents (L : List Nat)
    (hL : ∀ n ∈ L, ∃ p k, Nat.Prime p ∧ 1 ≤ k ∧ n = p ^ k) :
    ∃ Lpk : List (Nat × Nat), L = Lpk.map (fun pk : Nat × Nat => pk.1 ^ pk.2) ∧
      ∀ pk ∈ Lpk, Nat.Prime pk.1 ∧ 1 ≤ pk.2 := by
  induction L with
  | nil => exact ⟨[], rfl, by simp⟩
  | cons n L ih =>
    obtain ⟨p, k, hp, hk, rfl⟩ := hL n (List.mem_cons_self _ _)
    obtain ⟨Lpk, h1, h2⟩ := ih (fun m hm => hL m (List.mem_cons_of_mem _ hm))
    refine ⟨(p, k) :: Lpk, by rw [h1]; rfl, ?_⟩
    intro pk hpk
    rcases List.mem_cons.1 hpk with rfl | hpk
    · exact ⟨hp, hk⟩
    · exact h2 pk hpk

theorem factorization_prod_pow (Lpk : List (Nat × Nat)) (hL : ∀ pk ∈ Lpk, Nat.Prime pk.1)
    (p : Nat) :
    ((Lpk.map (fun pk : Nat × Nat => pk.1 ^ pk.2)).prod).factorization p =
      ((Lpk.filter (fun pk : Nat × Nat => decide (pk.1 = p))).map
        (fun pk : Nat × Nat => pk.2)).sum := by
  induction Lpk with
  | nil => simp
  | cons x xs ih =>
    have hx : Nat.Prime x.1 := hL x (List.mem_cons_self _ _)
    have hxs : ∀ pk ∈ xs, Nat.Prime pk.1 := fun pk hpk => hL pk (List.mem_cons_of_mem _ hpk)
    have hpos : 0 < (xs.map (fun pk : Nat × Nat => pk.1 ^ pk.2)).prod := by
      apply List.prod_pos
      intro n hn
      obtain ⟨pk, hpk, rfl⟩ := List.mem_map.1 hn
      exact pow_pos (hxs pk hpk).pos _
    rw [List.map_cons, List.prod_cons,
      Nat.factorization_mul (pow_pos hx.pos _).ne' hpos.ne', Finsupp.add_apply, ih hxs,
      hx.factorization_pow]
    by_cases h : x.1 = p
    · rw [List.filter_cons_of_pos (by simpa using h)]
      simp [h]
    · rw [List.filter_cons_of_neg (by simpa using h)]
      simp [Finsupp.single_apply, h]

theorem flatMap_filter_cons_of_not_mem (K : List Nat) (x : Nat × Nat) (xs : List (Nat × Nat))
    (hx : x.1 ∉ K) :
    K.flatMap (fun p => (x :: xs).filter (fun pk : Nat × Nat => decide (pk.1 = p))) =
      K.flatMap (fun p => xs.filter (fun pk : Nat × Nat => decide (pk.1 = p))) := by
  induction K with
  | nil => rfl
  | cons p K ih =>
    have hp : x.1 ≠ p := fun h => hx (by rw [h]; exact List.mem_cons_self _ _)
    rw [List.flatMap_cons, List.flatMap_cons, ih (fun h => hx (List.mem_cons_of_mem _ h)),
      List.filter_cons_of_neg (by simpa using hp)]

theorem flatMap_filter_cons_perm (K : List Nat) (hK : K.Nodup) (x : Nat × Nat)
    (xs : List (Nat × Nat)) (hx : x.1 ∈ K) :
    (K.flatMap (fun p => (x :: xs).filter (fun pk : Nat × Nat => decide (pk.1 = p)))).Perm
      (x :: K.flatMap (fun p => xs.filter (fun pk : Nat × Nat => decide (pk.1 = p)))) := by
  induction K with
  | nil => simp at hx
  | cons p K ih =>
    rw [List.nodup_cons] at hK
    rw [List.flatMap_cons, List.flatMap_cons]
    by_cases h : x.1 = p
    · rw [flatMap_filter_cons_of_not_mem K x xs (by rw [h]; exact hK.1),
        List.filter_cons_of_pos (by simpa using h)]
      exact List.Perm.refl _
    · have hxK : x.1 ∈ K := by
        rcases List.mem_cons.1 hx with h' | h'
        · exact absurd h' h
        · exact h'
      rw [List.filter_cons_of_neg (by simpa using h)]
      exact (List.Perm.append_left _ (ih hK.2 hxK)).trans List.perm_middle

/-- Grouping a list by a duplicate-free list of keys that covers it permutes the list. -/
theorem flatMap_filter_perm (K : List Nat) (hK : K.Nodup) (Lpk : List (Nat × Nat))
    (hcover : ∀ pk ∈ Lpk, pk.1 ∈ K) :
    (K.flatMap (fun p => Lpk.filter (fun pk : Nat × Nat => decide (pk.1 = p)))).Perm Lpk := by
  induction Lpk with
  | nil =>
    have : K.flatMap (fun p => ([] : List (Nat × Nat)).filter
        (fun pk : Nat × Nat => decide (pk.1 = p))) = [] := by
      induction K with
      | nil => rfl
      | cons p K ih => rw [List.flatMap_cons, ih (List.nodup_cons.1 hK).2 (by simp)]; rfl
    rw [this]
  | cons x xs ih =>
    exact (flatMap_filter_cons_perm K hK x xs (hcover x (List.mem_cons_self _ _))).trans
      (List.Perm.cons x (ih (fun pk hpk => hcover pk (List.mem_cons_of_mem _ hpk))))

/-- A list of prime powers with the product of a factorisation is, up to order, the list
of factors of the candidate of one choice of partitions. -/
theorem exists_choice_of_primePowers (factors : SMap Nat) (hs : SMap.Sorted factors)
    (hp : ∀ kv ∈ factors, Nat.Prime kv.1 ∧ 1 ≤ kv.2) (L : List Nat)
    (hL : ∀ n ∈ L, ∃ p k, Nat.Prime p ∧ 1 ≤ k ∧ n = p ^ k)
    (hprod : L.prod = factorProduct factors) :
    ∃ ch : List (Nat × List Nat),
      List.Forall₂ (fun pe pp => pp.1 = pe.1 ∧ IsPartitionOf pe.2 pp.2) factors ch ∧
      (candidateOf ch).products.Perm L := by
  obtain ⟨Lpk, rfl, hLpk⟩ := exists_prime_exponents L hL
  have hprime : ∀ pk ∈ Lpk, Nat.Prime pk.1 := fun pk hpk => (hLpk pk hpk).1
  have hfp : ∀ kv ∈ factors, Nat.Prime kv.1 := fun kv hkv => (hp kv hkv).1
  -- the exponents of one prime, in non-increasing order
  let exps : Nat → List Nat := fun p =>
    List.insertionSort (· ≥ ·)
      ((Lpk.filter (fun pk : Nat × Nat => decide (pk.1 = p))).map (fun pk : Nat × Nat => pk.2))
  have hexps : ∀ p, (exps p).Perm
      ((Lpk.filter (fun pk : Nat × Nat => decide (pk.1 = p))).map
        (fun pk : Nat × Nat => pk.2)) :=
    fun p => List.perm_insertionSort _ _
  refine ⟨factors.map (fun pe => (pe.1, exps pe.1)), ?_, ?_⟩
  · rw [List.forall₂_map_right_iff, List.forall₂_same]
    intro pe hpe
    refine ⟨rfl, List.sorted_insertionSort _ _, ?_, ?_⟩
    · intro x hx
      have hx' := (hexps pe.1).mem_iff.1 hx
      obtain ⟨pk, hpk, rfl⟩ := List.mem_map.1 hx'
      exact (hLpk pk (List.mem_filter.1 hpk).1).2
    · rw [(hexps pe.1).sum_eq, ← factorization_prod_pow Lpk hprime, hprod,
        factorization_factorProduct factors hs hfp, (SMap.mem_iff_find factors hs pe).1 hpe]
      rfl
  · have hkeys : (factors.map (fun pe => pe.1)).Nodup := by
      have : (factors.map Prod.fst).Pairwise (· < ·) := hs
      exact this.imp (fun {a b} hab => Nat.ne_of_lt hab)
    have hcover : ∀ pk ∈ Lpk, pk.1 ∈ factors.map (fun pe => pe.1) := by
      intro pk hpk
      have h1 : pk.1 ^ pk.2 ∣ factorProduct factors := by
        rw [← hprod]
        exact List.dvd_prod (List.mem_map.2 ⟨pk, hpk, rfl⟩)
      have h2 : pk.1 ∣ factorProduct factors :=
        (dvd_pow_self pk.1 (by have := (hLpk pk hpk).2; omega)).trans h1
      have h3 : (factorProduct factors).factorization pk.1 ≠ 0 := by
        have := (hprime pk hpk).factorization_pos_of_dvd (factorProduct_pos factors hfp).ne' h2
        omega
      rw [factorization_factorProduct factors hs hfp] at h3
      cases hfind : SMap.find factors pk.1 with
      | none => rw [hfind] at h3; exact absurd rfl h3
      | some v =>
        exact List.mem_map.2 ⟨(pk.1, v), (SMap.mem_iff_find factors hs (pk.1, v)).2 hfind, rfl⟩
    have hgroup := flatMap_filter_perm _ hkeys Lpk hcover
    have step1 : (candidateOf (factors.map (fun pe => (pe.1, exps pe.1)))).products =
        factors.flatMap (fun pe => (exps pe.1).map (fun k => pe.1 ^ k)) := by
      simp [candidateOf, List.flatMap_map]
    have step2 : (factors.flatMap (fun pe => (exps pe.1).map (fun k => pe.1 ^ k))).Perm
        (factors.flatMap (fun pe =>
          (Lpk.filter (fun pk : Nat × Nat => decide (pk.1 = pe.1))).map
            (fun pk : Nat × Nat => pk.1 ^ pk.2))) := by
      apply List.Perm.flatMap_left
      intro pe _
      refine ((hexps pe.1).map _).trans ?_
      rw [List.map_map]
      apply List.Perm.of_eq
      apply List.map_congr_left
      intro pk hpk
      have : pk.1 = pe.1 := by simpa using (List.mem_filter.1 hpk).2
      simp [this]
    have step3 : factors.flatMap (fun pe =>
          (Lpk.filter (fun pk : Nat × Nat => decide (pk.1 = pe.1))).map
            (fun pk : Nat × Nat => pk.1 ^ pk.2)) =
        ((factors.map (fun pe => pe.1)).flatMap
          (fun p => Lpk.filter (fun pk : Nat × Nat => decide (pk.1 = p)))).map
            (fun pk : Nat × Nat => pk.1 ^ pk.2) := by
      rw [List.map_flatMap, List.flatMap_map]
    rw [step1]
    exact step2.trans (by rw [step3]; exact hgroup.map _)

/-! ### The largest element order -/

theorem foldl_lcm_dvd_iff (ps : List Nat) : ∀ (acc m : Nat),
    ps.foldl Nat.lcm acc ∣ m ↔ acc ∣ m ∧ ∀ p ∈ ps, p ∣ m := by
  induction ps with
  | nil => intro acc m; simp
  | cons p ps ih =>
    intro acc m
    rw [List.foldl_cons, ih, Nat.lcm_dvd_iff]
    simp only [List.mem_cons, forall_eq_or_imp]
    tauto

theorem Group.largestOrderElement_dvd_iff (G : Group) (m : Nat) :
    G.largestOrderElement ∣ m ↔ ∀ p ∈ G.products, p ∣ m := by
  unfold Group.largestOrderElement
  rw [foldl_lcm_dvd_iff]
  simp

theorem Group.largestOrderElement_pos (G : Group) (hG : G.Valid) :
    0 < G.largestOrderElement := by
  apply Nat.pos_of_ne_zero
  intro h
  have h1 : G.largestOrderElement ∣ G.order := by
    rw [Group.largestOrderElement_dvd_iff, Group.order_eq_prod]
    exact fun p hp => List.dvd_prod hp
  rw [h] at h1
  have := G.order_pos hG
  have := Nat.eq_zero_of_zero_dvd h1
  omega

theorem Elem.largestOrderElement_nsmul {G : Group} [hG : Fact G.Valid] (x : Elem G) :
    G.largestOrderElement • x = 0 := by
  rw [Elem.nsmul_eq_zero_iff]
  intro pg hpg
  have : pg.1 ∈ G.products := (List.of_mem_zip hpg).1
  exact Dvd.dvd.mul_right ((G.largestOrderElement_dvd_iff _).1 dvd_rfl _ this) _

theorem mem_zip_map (f : Nat → Nat) (ps : List Nat) (p : Nat) (hp : p ∈ ps) :
    (p, f p) ∈ List.zip ps (ps.map f) := by
  induction ps with
  | nil => cases hp
  | cons q qs ih =>
    rw [List.map_cons, List.zip_cons_cons]
    rcases List.mem_cons.1 hp with rfl | h
    · exact List.mem_cons_self _ _
    · exact List.mem_cons_of_mem _ (ih h)

/-- A multiple that annihilates every element of a group is a multiple of the least
common multiple of the factor orders. -/
theorem largestOrderElement_dvd_of_nsmul {C : Group} [hC : Fact C.Valid] (m : Nat)
    (h : ∀ x : Elem C, m • x = 0) : C.largestOrderElement ∣ m := by
  have hmem : C.Mem (C.products.map (fun p => 1 % p)) := by
    unfold Group.Mem
    rw [List.forall₂_map_left_iff, List.forall₂_same]
    intro p hp
    exact Nat.mod_lt _ (hC.out p hp)
  have h1 := (Elem.nsmul_eq_zero_iff (⟨_, hmem⟩ : Elem C) m).1 (h _)
  rw [Group.largestOrderElement_dvd_iff]
  intro p hp
  have h2 := h1 (p, 1 % p) (mem_zip_map _ _ p hp)
  simp only at h2
  by_cases hp1 : p = 1
  · rw [hp1]; exact one_dvd _
  · have hp0 := hC.out p hp
    rw [Nat.mod_eq_of_lt (by omega), Nat.mul_one] at h2
    exact h2

theorem largestOrderElement_dvd_of_equiv {G C : Group} [Fact G.Valid] [Fact C.Valid]
    (g : Elem G) (φ : (Elem G ⧸ AddSubgroup.zmultiples g) ≃+ Elem C) :
    C.largestOrderElement ∣ G.largestOrderElement := by
  apply largestOrderElement_dvd_of_nsmul
  intro x
  obtain ⟨a, rfl⟩ := φ.surjective x
  obtain ⟨y, rfl⟩ := QuotientAddGroup.mk_surjective a
  rw [← map_nsmul, ← QuotientAddGroup.mk_nsmul, Elem.largestOrderElement_nsmul]
  simp

/-! ### The candidate that is the quotient -/

theorem forall₂_node_of_choice {factors : SMap Nat} {nodes : SMap PartitionNode}
    (h : List.Forall₂ IsPartitionNode factors nodes) :
    ∀ {c : List (Nat × List Nat)},
      List.Forall₂ (fun pe pp => pp.1 = pe.1 ∧ IsPartitionOf pe.2 pp.2) factors c →
      List.Forall₂ (fun pl pp => pp.1 = pl.1 ∧ pp.2 ∈ pl.2) (partitionLists nodes) c := by
  induction h with
  | nil =>
    intro c hc
    cases hc
    exact List.Forall₂.nil
  | @cons pe kn _ _ h1 _ ih =>
    intro c hc
    simp only [partitionLists, List.map_cons]
    cases hc with
    | cons g1 g2 =>
      exact List.Forall₂.cons ⟨g1.1.trans h1.1.symm, (h1.2.2.2 _).2 g1.2⟩ (ih g2)

/-- The quotient of `G` by the subgroup of `g` is, as a group, the candidate of one choice
of partitions of the exponents of the quotient order. -/
theorem exists_choice_equiv {G : Group} [hG : Fact G.Valid] (g : Elem G)
    (factors : SMap Nat) (hs : SMap.Sorted factors)
    (hp : ∀ kv ∈ factors, Nat.Prime kv.1 ∧ 1 ≤ kv.2)
    (hprod : factorProduct factors = G.order / addOrderOf g) :
    ∃ ch : List (Nat × List Nat),
      List.Forall₂ (fun pe pp => pp.1 = pe.1 ∧ IsPartitionOf pe.2 pp.2) factors ch ∧
      ∃ hc : (candidateOf ch).Valid,
        haveI := Fact.mk hc
        Nonempty ((Elem G ⧸ AddSubgroup.zmultiples g) ≃+ Elem (candidateOf ch)) := by
  haveI : Finite (Elem G) := Finite.of_fintype _
  obtain ⟨L, hL, ⟨φ⟩⟩ := exists_cyclicProduct_equiv (Elem G ⧸ AddSubgroup.zmultiples g)
  have hcard : L.prod = factorProduct factors := by
    rw [hprod, ← card_quotient g, ← card_cyclicProduct L]
    exact (Nat.card_congr φ.toEquiv).symm
  obtain ⟨ch, h1, h2⟩ := exists_choice_of_primePowers factors hs hp L hL hcard
  have hc : (candidateOf ch).Valid := by
    intro p hpm
    obtain ⟨q, k, hq, _, rfl⟩ := hL p (h2.mem_iff.1 hpm)
    exact pow_pos hq.pos k
  refine ⟨ch, h1, hc, ?_⟩
  haveI := Fact.mk hc
  obtain ⟨ψ⟩ := cyclicProduct_perm h2.symm
  obtain ⟨χ⟩ := elem_equiv_cyclicProduct (candidateOf ch).products hc
  exact ⟨(φ.trans ψ).trans χ.symm⟩

/-- The list of `findPossibleIsoGroup` when `orderOfGenerator` returns `n` and the value
`G.order / n % 2 ^ 32` of `orderOfQgroup` is not `0`; when that value is the order of the
quotient, the candidate that is the quotient is in the list. -/
theorem quotient_candidate_core (G : Group) (generator : Tuple) (hG : G.Valid)
    (hmem : G.Mem generator) (n : Nat) (hn : orderOfGenerator G generator = .ok n)
    (hq : 0 < G.order / n % 2 ^ 32) :
    haveI := Fact.mk hG
    ∃ (factors : SMap Nat) (N : Nat), G.order ≤ N ∧ factorProduct factors ≤ N ∧
      factorProduct factors = G.order / n % 2 ^ 32 ∧
      SMap.Sorted factors ∧ (∀ kv ∈ factors, Nat.Prime kv.1 ∧ 1 ≤ kv.2) ∧
      ∀ fuel, N ≤ fuel → ∃ (nodes : SMap PartitionNode),
        List.Forall₂ IsPartitionNode factors nodes ∧
        findPossibleIsoGroup fuel [] G generator =
          .ok (((choices (partitionLists nodes)).map candidateOf).filter
            (fun c => decide (c.largestOrderElement ≤ G.largestOrderElement))) ∧
        (factorProduct factors = G.order / addOrderOf (Elem.ofMem generator hmem) →
          ∃ ch : List (Nat × List Nat), ch ∈ choices (partitionLists nodes) ∧
            (candidateOf ch).largestOrderElement ≤ G.largestOrderElement ∧
            ∃ hc : (candidateOf ch).Valid,
              haveI := Fact.mk hc
              Nonempty ((Elem G ⧸ AddSubgroup.zmultiples (Elem.ofMem generator hmem)) ≃+
                Elem (candidateOf ch))) := by
  haveI := Fact.mk hG
  obtain ⟨factors, N, h4, h5, h6, h7⟩ := findPossibleIsoGroupState_core G generator n hn hq
  refine ⟨factors, max N (max G.order (factorProduct factors)),
    le_trans (le_max_left _ _) (le_max_right _ _),
    le_trans (le_max_right _ _) (le_max_right _ _), h4, h5, h6, ?_⟩
  intro fuel hfuel
  obtain ⟨_, nodes, _, hnodes, hstate⟩ := h7 fuel (le_trans (le_max_left _ _) hfuel)
  refine ⟨nodes, hnodes, ?_, ?_⟩
  · have := findPossibleIsoGroup_of_state (hstate [])
    simpa using this
  · intro hprod
    obtain ⟨ch, hch, hc, ⟨φ⟩⟩ :=
      exists_choice_equiv (Elem.ofMem generator hmem) factors h5 h6 hprod
    refine ⟨ch, ?_, ?_, hc, ⟨φ⟩⟩
    · exact (mem_choices_iff _ _).2 (forall₂_node_of_choice hnodes hch)
    · haveI := Fact.mk hc
      exact Nat.le_of_dvd (G.largestOrderElement_pos hG) (largestOrderElement_dvd_of_equiv _ φ)

/-- When the order of `G` is below `2 ^ 32`, `orderOfGenerator` returns the order of the
generator and the value of `orderOfQgroup` is the order of the quotient. -/
theorem quotient_order_eq (G : Group) (generator : Tuple) (hG : G.Valid)
    (hmem : G.Mem generator) (hsmall : G.order < 2 ^ 32) :
    haveI := Fact.mk hG
    orderOfGenerator G generator = .ok (addOrderOf (Elem.ofMem generator hmem)) ∧
    G.order / addOrderOf (Elem.ofMem generator hmem) % 2 ^ 32 =
      G.order / addOrderOf (Elem.ofMem generator hmem) ∧
    0 < G.order / addOrderOf (Elem.ofMem generator hmem) := by
  haveI := Fact.mk hG
  have hfit : addOrderOf (Elem.ofMem generator hmem) < 2 ^ 32 :=
    lt_of_le_of_lt (Elem.addOrderOf_le _) hsmall
  refine ⟨orderOfGenerator_eq_addOrderOf (Elem.ofMem generator hmem) hfit, ?_, ?_⟩
  · exact Nat.mod_eq_of_lt (lt_of_le_of_lt (Nat.div_le_self _ _) hsmall)
  · exact Nat.div_pos (Elem.addOrderOf_le _) (Elem.addOrderOf_pos _)

/-- The list of `findPossibleIsoGroup` when the order of `G` is below `2 ^ 32`, with the
candidate in it that is the quotient. -/
theorem quotient_candidate_spec (G : Group) (generator : Tuple) (hG : G.Valid)
    (hmem : G.Mem generator) (hsmall : G.order < 2 ^ 32) :
    haveI := Fact.mk hG
    ∃ (factors : SMap Nat) (N : Nat), G.order ≤ N ∧ factorProduct factors ≤ G.order ∧
      SMap.Sorted factors ∧ (∀ kv ∈ factors, Nat.Prime kv.1 ∧ 1 ≤ kv.2) ∧
      ∀ fuel, N ≤ fuel → ∃ (nodes : SMap PartitionNode) (ch : List (Nat × List Nat)),
        List.Forall₂ IsPartitionNode factors nodes ∧
        findPossibleIsoGroup fuel [] G generator =
          .ok (((choices (partitionLists nodes)).map candidateOf).filter
            (fun c => decide (c.largestOrderElement ≤ G.largestOrderElement))) ∧
        ch ∈ choices (partitionLists nodes) ∧
        (candidateOf ch).largestOrderElement ≤ G.largestOrderElement ∧
        ∃ hc : (candidateOf ch).Valid,
          haveI := Fact.mk hc
          Nonempty ((Elem G ⧸ AddSubgroup.zmultiples (Elem.ofMem generator hmem)) ≃+
            Elem (candidateOf ch)) := by
  haveI := Fact.mk hG
  obtain ⟨e1, e2, e3⟩ := quotient_order_eq G generator hG hmem hsmall
  obtain ⟨factors, N, hN, _, hprod, hs, hp, h⟩ :=
    quotient_candidate_core G generator hG hmem _ e1 (by rw [e2]; exact e3)
  rw [e2] at hprod
  refine ⟨factors, N, hN, ?_, hs, hp, ?_⟩
  · rw [hprod]; exact Nat.div_le_self _ _
  intro fuel hfuel
  obtain ⟨nodes, hnodes, hfind, hex⟩ := h fuel hfuel
  obtain ⟨ch, hch, hloe, hc, hφ⟩ := hex hprod
  exact ⟨nodes, ch, hnodes, hfind, hch, hloe, hc, hφ⟩

/-- The histogram of a group that is the quotient is the histogram of the quotient. -/
theorem calcElementOrders_of_equiv {G C : Group} [Fact G.Valid] [Fact C.Valid]
    (g : Elem G) (φ : (Elem G ⧸ AddSubgroup.zmultiples g) ≃+ Elem C)
    (fuel fuel' : Nat) (hf : G.order ≤ fuel) (hf' : C.order ≤ fuel') :
    calcElementOrders fuel G g.1 [] = calcElementOrders fuel' C C.identity [] := by
  obtain ⟨ψ⟩ := quotient_identity_equiv C
  exact calcElementOrders_eq_of_equiv g (0 : Elem C) (φ.trans ψ.symm) fuel fuel' hf hf'

theorem order_candidateOf_of_partition {factors : SMap Nat} {c : List (Nat × List Nat)}
    (h : List.Forall₂ (fun pe pp => pp.1 = pe.1 ∧ IsPartitionOf pe.2 pp.2) factors c) :
    (candidateOf c).order = factorProduct factors :=
  order_candidateOf (h.imp (fun {_ _} h => ⟨h.1, h.2.2.2⟩))

/-- C2, as amended. For every `G` with positive factor orders whose order is below
`2 ^ 32` and every generator of its arity with all components in range, the list that
`findPossibleIsoGroup` produces (given enough fuel) holds a candidate whose histogram,
`calcElementOrders(candidate, candidate.identity)`, is the histogram
`calcElementOrders(G, generator)` of the quotient; so the list is not empty. -/
theorem some_candidate_matches (G : Group) (generator : Tuple) (hG : G.Valid)
    (hmem : G.Mem generator) (hsmall : G.order < 2 ^ 32) :
    ∃ N, ∀ fuel, N ≤ fuel →
      ∃ groups hist, findPossibleIsoGroup fuel [] G generator = .ok groups ∧
        calcElementOrders fuel G generator [] = .ok hist ∧
        groups ≠ [] ∧
        ∃ c ∈ groups, calcElementOrders fuel c c.identity [] = .ok hist := by
  haveI := Fact.mk hG
  obtain ⟨factors, N, hN, hle, hs, hp, h⟩ :=
    quotient_candidate_spec G generator hG hmem hsmall
  refine ⟨N, ?_⟩
  intro fuel hfuel
  obtain ⟨nodes, ch, hnodes, hfind, hch, hloe, hc, ⟨φ⟩⟩ := h fuel hfuel
  haveI := Fact.mk hc
  obtain ⟨hist, hhist, _⟩ :=
    calcElementOrders_hist (Elem.ofMem generator hmem) fuel (le_trans hN hfuel)
  have hin : candidateOf ch ∈ ((choices (partitionLists nodes)).map candidateOf).filter
      (fun c => decide (c.largestOrderElement ≤ G.largestOrderElement)) := by
    rw [List.mem_filter]
    exact ⟨List.mem_map.2 ⟨ch, hch, rfl⟩, by simpa using hloe⟩
  have hord : (candidateOf ch).order ≤ fuel := by
    rw [order_candidateOf_of_partition
      (forall₂_choice_of_node hnodes ((mem_choices_iff _ _).1 hch))]
    exact le_trans hle (le_trans hN hfuel)
  refine ⟨_, hist, hfind, hhist, List.ne_nil_of_mem hin, candidateOf ch, hin, ?_⟩
  rw [← calcElementOrders_of_equiv (Elem.ofMem generator hmem) φ fuel fuel
    (le_trans hN hfuel) hord]
  exact hhist

theorem some_candidate_matches_witness :
    Group.Valid ⟨[4, 2]⟩ ∧ Group.Mem ⟨[4, 2]⟩ [1, 0] ∧ Group.order ⟨[4, 2]⟩ < 2 ^ 32 ∧
    findPossibleIsoGroup 10 [] ⟨[4, 2]⟩ [1, 0] = .ok [⟨[2]⟩] ∧
    calcElementOrders 10 ⟨[4, 2]⟩ [1, 0] [] = .ok [(1, 1), (2, 1)] ∧
    calcElementOrders 10 ⟨[2]⟩ (Group.identity ⟨[2]⟩) [] = .ok [(1, 1), (2, 1)] ∧
    ∃ N, ∀ fuel, N ≤ fuel →
      ∃ groups hist, findPossibleIsoGroup fuel [] ⟨[4, 2]⟩ [1, 0] = .ok groups ∧
        calcElementOrders fuel ⟨[4, 2]⟩ [1, 0] [] = .ok hist ∧
        groups ≠ [] ∧
        ∃ c ∈ groups, calcElementOrders fuel c c.identity [] = .ok hist :=
  ⟨by decide, by decide, by decide, by decide, by decide, by decide,
    some_candidate_matches ⟨[4, 2]⟩ [1, 0] (by decide) (by decide) (by decide)⟩

/-! ### Counting the elements that a multiple annihilates -/

theorem card_range_filter_dvd (d n : Nat) (hn : 0 < n) :
    ((Finset.range n).filter (fun a => n ∣ d * a)).card = Nat.gcd d n := by
  have hg : 0 < Nat.gcd d n := Nat.gcd_pos_of_pos_right d hn
  obtain ⟨m, hm⟩ := Nat.gcd_dvd_right d n
  obtain ⟨d', hd'⟩ := Nat.gcd_dvd_left d n
  have hm0 : 0 < m := by
    rcases Nat.eq_zero_or_pos m with h | h
    · rw [h, Nat.mul_zero] at hm; omega
    · exact h
  have hcop : Nat.Coprime d' m := by
    have := Nat.coprime_div_gcd_div_gcd hg
    rwa [show d / Nat.gcd d n = d' from Nat.div_eq_of_eq_mul_right hg hd',
      show n / Nat.gcd d n = m from Nat.div_eq_of_eq_mul_right hg hm] at this
  have hiff : ∀ a, n ∣ d * a ↔ m ∣ a := by
    intro a
    constructor
    · intro h
      have h1 : Nat.gcd d n * m ∣ Nat.gcd d n * (d' * a) := by
        rw [← hm, ← Nat.mul_assoc, ← hd']; exact h
      have h2 : m ∣ d' * a := Nat.dvd_of_mul_dvd_mul_left hg h1
      exact hcop.symm.dvd_of_dvd_mul_left h2
    · rintro ⟨y, rfl⟩
      refine ⟨d' * y, ?_⟩
      calc d * (m * y) = (Nat.gcd d n * d') * (m * y) := by rw [← hd']
        _ = (Nat.gcd d n * m) * (d' * y) := by ring
        _ = n * (d' * y) := by rw [← hm]
  have hset : (Finset.range n).filter (fun a => n ∣ d * a) =
      (Finset.range (Nat.gcd d n)).image (fun y => m * y) := by
    ext a
    simp only [Finset.mem_filter, Finset.mem_range, Finset.mem_image, hiff]
    constructor
    · rintro ⟨ha, y, rfl⟩
      refine ⟨y, ?_, rfl⟩
      have : m * y < m * Nat.gcd d n := by rw [Nat.mul_comm m (Nat.gcd d n), ← hm]; exact ha
      exact Nat.lt_of_mul_lt_mul_left this
    · rintro ⟨y, hy, rfl⟩
      refine ⟨?_, y, rfl⟩
      calc m * y < m * Nat.gcd d n := Nat.mul_lt_mul_of_pos_left hy hm0
        _ = n := by rw [Nat.mul_comm, ← hm]
  rw [hset, Finset.card_image_of_injective _ (fun a b h => Nat.eq_of_mul_eq_mul_left hm0 h),
    Finset.card_range]

theorem card_zmod_torsion (d n : Nat) (hn : 0 < n) :
    Nat.card { a : ZMod n // d • a = 0 } = Nat.gcd d n := by
  haveI : NeZero n := ⟨hn.ne'⟩
  classical
  rw [Nat.card_eq_fintype_card, Fintype.card_subtype, ← card_range_filter_dvd d n hn]
  apply Finset.card_bij (fun a _ => a.val)
  · intro a ha
    rw [Finset.mem_filter] at ha ⊢
    refine ⟨Finset.mem_range.2 (ZMod.val_lt a), ?_⟩
    have h := ha.2
    rw [nsmul_eq_mul, ← ZMod.natCast_zmod_val a, ← Nat.cast_mul,
      ZMod.natCast_zmod_eq_zero_iff_dvd] at h
    simpa using h
  · intro a _ b _ h
    exact ZMod.val_injective n h
  · intro b hb
    rw [Finset.mem_filter, Finset.mem_range] at hb
    refine ⟨(b : ZMod n), ?_, ZMod.val_natCast_of_lt hb.1⟩
    rw [Finset.mem_filter]
    refine ⟨Finset.mem_univ _, ?_⟩
    rw [nsmul_eq_mul, ← Nat.cast_mul, ZMod.natCast_zmod_eq_zero_iff_dvd]
    exact hb.2

theorem card_cyclicProduct_torsion (d : Nat) : ∀ L : List Nat, (∀ n ∈ L, 0 < n) →
    Nat.card { x : CyclicProduct L // d • x = 0 } = (L.map (Nat.gcd d)).prod := by
  intro L
  induction L with
  | nil =>
    intro _
    show Nat.card { x : PUnit // d • x = 0 } = 1
    haveI : Unique { x : PUnit // d • x = 0 } :=
      ⟨⟨⟨PUnit.unit, rfl⟩⟩, fun x => Subtype.ext rfl⟩
    exact Nat.card_unique
  | cons n L ih =>
    intro h
    have e : { x : ZMod n × CyclicProduct L // d • x = 0 } ≃
        { a : ZMod n // d • a = 0 } × { b : CyclicProduct L // d • b = 0 } :=
      (Equiv.subtypeEquivRight (fun x => by
        rw [Prod.ext_iff]; rfl)).trans Equiv.subtypeProdEquivProd
    show Nat.card { x : ZMod n × CyclicProduct L // d • x = 0 } = _
    rw [Nat.card_congr e, Nat.card_prod, card_zmod_torsion d n (h n (List.mem_cons_self _ _)),
      ih (fun m hm => h m (List.mem_cons_of_mem _ hm)), List.map_cons, List.prod_cons]

theorem card_elem_torsion {C : Group} [hC : Fact C.Valid] (d : Nat) :
    Nat.card { x : Elem C // d • x = 0 } = (C.products.map (Nat.gcd d)).prod := by
  obtain ⟨φ⟩ := elem_equiv_cyclicProduct C.products hC.out
  rw [← card_cyclicProduct_torsion d C.products hC.out]
  exact Nat.card_congr (φ.toEquiv.subtypeEquiv (fun a => by
    show d • a = 0 ↔ d • φ a = 0
    rw [← map_nsmul, AddEquiv.map_eq_zero_iff]))

theorem card_torsion_eq_sum {A : Type} [AddCommGroup A] [Fintype A] (d : Nat) (hd : d ≠ 0) :
    Nat.card { x : A // d • x = 0 } =
      ∑ k ∈ (Finset.range d.succ).filter (· ∣ d), Nat.card { x : A // addOrderOf x = k } := by
  classical
  have h := sum_card_addOrderOf_eq_card_nsmul_eq_zero (G := A) hd
  rw [Nat.card_eq_fintype_card, Fintype.card_subtype]
  refine Eq.trans ?_ (Eq.trans h.symm ?_)
  · congr
  · apply Finset.sum_congr rfl
    intro k _
    rw [Nat.card_eq_fintype_card, Fintype.card_subtype]

/-! ### A partition is determined by its sums of minima -/

theorem sum_min_succ (q : List Nat) (i : Nat) :
    (q.map (min (i + 1))).sum = (q.map (min i)).sum + q.countP (fun x => decide (i < x)) := by
  induction q with
  | nil => simp
  | cons a t ih =>
    rw [List.map_cons, List.sum_cons, ih, List.map_cons, List.sum_cons, List.countP_cons]
    by_cases h : i < a
    · simp only [h, decide_True, if_true]
      rw [Nat.min_eq_left (by omega : i + 1 ≤ a), Nat.min_eq_left (by omega : i ≤ a)]
      omega
    · simp only [h, decide_False]
      rw [Nat.min_eq_right (by omega : a ≤ i + 1), Nat.min_eq_right (by omega : a ≤ i)]
      simp only [Bool.false_eq_true, if_false]
      omega

theorem countP_pred_lt (q : List Nat) (v : Nat) (hv : 1 ≤ v) :
    q.countP (fun x => decide (v - 1 < x)) =
      q.count v + q.countP (fun x => decide (v < x)) := by
  induction q with
  | nil => simp
  | cons a t ih =>
    rw [List.countP_cons, List.countP_cons, List.count_cons, ih]
    by_cases h1 : v < a
    · have h2 : v - 1 < a := by omega
      have h3 : ¬ (a = v) := by omega
      have e1 : (a == v) = false := by simpa using h3
      simp only [h1, h2, e1, decide_True, if_true, Bool.false_eq_true, if_false]
      omega
    · by_cases h3 : a = v
      · have h2 : v - 1 < a := by omega
        have e1 : (a == v) = true := by simpa using h3
        simp only [h1, h2, e1, decide_True, decide_False, if_true, Bool.false_eq_true, if_false]
        omega
      · have h2 : ¬ (v - 1 < a) := by omega
        have e1 : (a == v) = false := by simpa using h3
        simp only [h1, h2, e1, decide_False, Bool.false_eq_true, if_false]
        omega

/-- Two partitions with the same sums of minima with every bound are equal. -/
theorem partition_eq_of_sum_min {e₁ e₂ : Nat} {q₁ q₂ : List Nat}
    (h₁ : IsPartitionOf e₁ q₁) (h₂ : IsPartitionOf e₂ q₂)
    (h : ∀ i, (q₁.map (min i)).sum = (q₂.map (min i)).sum) : q₁ = q₂ := by
  have hc : ∀ i, q₁.countP (fun x => decide (i < x)) = q₂.countP (fun x => decide (i < x)) := by
    intro i
    have := h (i + 1)
    rw [sum_min_succ, sum_min_succ, h i] at this
    omega
  have hperm : q₁.Perm q₂ := by
    rw [List.perm_iff_count]
    intro v
    rcases Nat.eq_zero_or_pos v with rfl | hv
    · rw [List.count_eq_zero_of_not_mem (fun hm => by have := h₁.2.1 0 hm; omega),
        List.count_eq_zero_of_not_mem (fun hm => by have := h₂.2.1 0 hm; omega)]
    · have a1 := countP_pred_lt q₁ v hv
      have a2 := countP_pred_lt q₂ v hv
      rw [hc (v - 1), hc v] at a1
      omega
  exact List.eq_of_perm_of_sorted hperm h₁.1 h₂.1

/-! ### A choice is determined by the numbers of annihilated elements -/

theorem prod_gcd_pow_pow (p : Nat) (i : Nat) (q : List Nat) :
    ((q.map (fun k => p ^ k)).map (Nat.gcd (p ^ i))).prod = p ^ (q.map (min i)).sum := by
  induction q with
  | nil => simp
  | cons a t ih =>
    rw [List.map_cons, List.map_cons, List.prod_cons, ih, List.map_cons, List.sum_cons, pow_add]
    congr 1
    rcases Nat.le_total i a with h | h
    · rw [Nat.min_eq_left h]
      exact Nat.gcd_eq_left (pow_dvd_pow p h)
    · rw [Nat.min_eq_right h]
      exact Nat.gcd_eq_right (pow_dvd_pow p h)

theorem prod_gcd_pos (d : Nat) (L : List Nat) (hL : ∀ n ∈ L, 0 < n) :
    0 < (L.map (Nat.gcd d)).prod := by
  apply List.prod_pos
  intro x hx
  obtain ⟨n, hn, rfl⟩ := List.mem_map.1 hx
  exact Nat.gcd_pos_of_pos_right d (hL n hn)

theorem prod_gcd_candidateOf_coprime (p i : Nat) (hp : Nat.Prime p) :
    ∀ (c : List (Nat × List Nat)), (∀ pp ∈ c, Nat.Prime pp.1 ∧ pp.1 ≠ p) →
      (((candidateOf c).products).map (Nat.gcd (p ^ i))).prod = 1 := by
  intro c hc
  apply List.prod_eq_one
  intro x hx
  obtain ⟨n, hn, rfl⟩ := List.mem_map.1 hx
  simp only [candidateOf, List.mem_flatMap, List.mem_map] at hn
  obtain ⟨pp, hpp, k, _, rfl⟩ := hn
  have h := hc pp hpp
  exact Nat.Coprime.pow i k ((Nat.coprime_primes hp h.1).2 (fun e => h.2 e.symm))

theorem products_candidateOf_cons (pp : Nat × List Nat) (c : List (Nat × List Nat)) :
    (candidateOf (pp :: c)).products =
      pp.2.map (fun k => pp.1 ^ k) ++ (candidateOf c).products := by
  simp [candidateOf]

theorem valid_candidateOf {factors : SMap Nat} (hp : ∀ kv ∈ factors, Nat.Prime kv.1)
    {c : List (Nat × List Nat)}
    (h : List.Forall₂ (fun pe pp => pp.1 = pe.1 ∧ IsPartitionOf pe.2 pp.2) factors c) :
    (candidateOf c).Valid := by
  induction h with
  | nil => intro p hpm; simp [candidateOf] at hpm
  | @cons pe pp _ _ h1 _ ih =>
    intro n hn
    rw [products_candidateOf_cons, List.mem_append] at hn
    rcases hn with hn | hn
    · obtain ⟨k, _, rfl⟩ := List.mem_map.1 hn
      rw [h1.1]
      exact pow_pos (hp pe (List.mem_cons_self _ _)).pos k
    · exact ih (fun kv hkv => hp kv (List.mem_cons_of_mem _ hkv)) n hn

/-- Two choices of partitions for the same factorisation whose candidates have, for every
positive multiple, the same product of greatest common divisors are the same choice. -/
theorem choice_eq_of_prod_gcd {factors : SMap Nat} (hs : SMap.Sorted factors)
    (hp : ∀ kv ∈ factors, Nat.Prime kv.1) {c₁ c₂ : List (Nat × List Nat)}
    (h₁ : List.Forall₂ (fun pe pp => pp.1 = pe.1 ∧ IsPartitionOf pe.2 pp.2) factors c₁)
    (h₂ : List.Forall₂ (fun pe pp => pp.1 = pe.1 ∧ IsPartitionOf pe.2 pp.2) factors c₂)
    (h : ∀ d, 0 < d → (((candidateOf c₁).products).map (Nat.gcd d)).prod =
      (((candidateOf c₂).products).map (Nat.gcd d)).prod) : c₁ = c₂ := by
  induction h₁ generalizing c₂ with
  | nil => cases h₂; rfl
  | @cons pe pp₁ fs r₁ a₁ b₁ ih =>
    cases h₂ with
    | @cons _ pp₂ _ r₂ a₂ b₂ =>
      obtain ⟨p₁, e⟩ := pe
      obtain ⟨p₃, q₁⟩ := pp₁
      obtain ⟨p₂, q₂⟩ := pp₂
      have e1 : p₁ = p₃ := a₁.1.symm
      have e2 : p₁ = p₂ := a₂.1.symm
      have hq₁ : IsPartitionOf e q₁ := a₁.2
      have hq₂ : IsPartitionOf e q₂ := a₂.2
      subst e1
      subst e2
      rw [SMap.sorted_cons] at hs
      have hprime : Nat.Prime p₁ := hp _ (List.mem_cons_self _ _)
      have hp' : ∀ kv ∈ fs, Nat.Prime kv.1 := fun kv hkv => hp kv (List.mem_cons_of_mem _ hkv)
      have hkeys : ∀ {r : List (Nat × List Nat)},
          List.Forall₂ (fun pe pp => pp.1 = pe.1 ∧ IsPartitionOf pe.2 pp.2) fs r →
          ∀ pp ∈ r, Nat.Prime pp.1 ∧ pp.1 ≠ p₁ := by
        intro r hr pp hpp
        obtain ⟨pe, hpe, hpp'⟩ := forall₂_exists_left hr pp hpp
        rw [hpp'.1]
        exact ⟨hp' pe hpe, by have := hs.1 pe hpe; simp only at this; omega⟩
      have hq : q₁ = q₂ := by
        apply partition_eq_of_sum_min hq₁ hq₂
        intro i
        have := h (p₁ ^ i) (pow_pos hprime.pos i)
        rw [products_candidateOf_cons, products_candidateOf_cons, List.map_append,
          List.map_append, List.prod_append, List.prod_append,
          prod_gcd_candidateOf_coprime p₁ i hprime r₁ (hkeys b₁),
          prod_gcd_candidateOf_coprime p₁ i hprime r₂ (hkeys b₂)] at this
        simp only [Nat.mul_one] at this
        rw [prod_gcd_pow_pow, prod_gcd_pow_pow] at this
        exact Nat.pow_right_injective hprime.two_le this
      subst hq
      have hr : r₁ = r₂ := by
        apply ih hs.2 hp' b₂
        intro d hd
        have := h d hd
        rw [products_candidateOf_cons, products_candidateOf_cons, List.map_append,
          List.map_append, List.prod_append, List.prod_append] at this
        exact Nat.eq_of_mul_eq_mul_left (prod_gcd_pos d _ (by
          intro n hn
          obtain ⟨k, _, rfl⟩ := List.mem_map.1 hn
          exact pow_pos hprime.pos k)) this
      rw [hr]

/-! ### The histogram of a group determines the group among the candidates -/

/-- The histogram of a group with the identity as generator, by the number of elements of
each order. -/
theorem calcElementOrders_identity_hist (C : Group) [hC : Fact C.Valid] (fuel : Nat)
    (hf : C.order ≤ fuel) :
    ∃ hist, calcElementOrders fuel C C.identity [] = .ok hist ∧
      ∀ k, SMap.find hist k =
        if Nat.card { x : Elem C // addOrderOf x = k } = 0 then none
        else some (Nat.card { x : Elem C // addOrderOf x = k }) := by
  obtain ⟨hist, h1, _, h3⟩ := calcElementOrders_hist (0 : Elem C) fuel hf
  refine ⟨hist, h1, ?_⟩
  intro k
  obtain ⟨ψ⟩ := quotient_identity_equiv C
  have : Nat.card { a : Elem C ⧸ AddSubgroup.zmultiples (0 : Elem C) // addOrderOf a = k } =
      Nat.card { x : Elem C // addOrderOf x = k } :=
    Nat.card_congr (ψ.toEquiv.subtypeEquiv (fun a => by
      show addOrderOf a = k ↔ addOrderOf (ψ a) = k
      rw [ψ.addOrderOf_eq]))
  rw [h3 k, cosetCount_eq_card (0 : Elem C) k, this]

theorem prod_gcd_eq_of_hist {C₁ C₂ : Group} [Fact C₁.Valid] [Fact C₂.Valid]
    (fuel₁ fuel₂ : Nat) (hf₁ : C₁.order ≤ fuel₁) (hf₂ : C₂.order ≤ fuel₂)
    (h : calcElementOrders fuel₁ C₁ C₁.identity [] =
      calcElementOrders fuel₂ C₂ C₂.identity []) :
    ∀ d, 0 < d → (C₁.products.map (Nat.gcd d)).prod = (C₂.products.map (Nat.gcd d)).prod := by
  obtain ⟨hist₁, e₁, f₁⟩ := calcElementOrders_identity_hist C₁ fuel₁ hf₁
  obtain ⟨hist₂, e₂, f₂⟩ := calcElementOrders_identity_hist C₂ fuel₂ hf₂
  rw [e₁, e₂] at h
  injection h with h
  subst h
  have hk : ∀ k, Nat.card { x : Elem C₁ // addOrderOf x = k } =
      Nat.card { x : Elem C₂ // addOrderOf x = k } := by
    intro k
    have := (f₁ k).symm.trans (f₂ k)
    split_ifs at this with a b b
    · rw [a, b]
    · injection this
  intro d hd
  rw [← card_elem_torsion, ← card_elem_torsion, card_torsion_eq_sum d hd.ne',
    card_torsion_eq_sum d hd.ne']
  exact Finset.sum_congr rfl (fun k _ => hk k)

/-- The match loop returns the first candidate whose histogram is the given one. -/
theorem matchLoop_spec (fuel : Nat) (GStats : SMap Nat) : ∀ (groups : List Group),
    (∀ c ∈ groups, ∃ h, calcElementOrders fuel c c.identity [] = .ok h) →
    (∃ c ∈ groups, calcElementOrders fuel c c.identity [] = .ok GStats) →
    ∃ pre c post, groups = pre ++ c :: post ∧ matchLoop fuel GStats groups = .ok (some c) ∧
      calcElementOrders fuel c c.identity [] = .ok GStats ∧
      ∀ c' ∈ pre, calcElementOrders fuel c' c'.identity [] ≠ .ok GStats := by
  intro groups
  induction groups with
  | nil => rintro _ ⟨c, hc, _⟩; cases hc
  | cons g rest ih =>
    intro hall hex
    obtain ⟨h, hh⟩ := hall g (List.mem_cons_self _ _)
    by_cases hm : h = GStats
    · subst hm
      refine ⟨[], g, rest, rfl, ?_, hh, by simp⟩
      simp only [matchLoop, hh, if_true]
    · have hex' : ∃ c ∈ rest, calcElementOrders fuel c c.identity [] = .ok GStats := by
        obtain ⟨c, hc, hcm⟩ := hex
        rcases List.mem_cons.1 hc with rfl | hc
        · rw [hh] at hcm
          injection hcm with hcm
          exact absurd hcm hm
        · exact ⟨c, hc, hcm⟩
      obtain ⟨pre, c, post, e1, e2, e3, e4⟩ :=
        ih (fun c hc => hall c (List.mem_cons_of_mem _ hc)) hex'
      refine ⟨g :: pre, c, post, by rw [e1]; rfl, ?_, e3, ?_⟩
      · simp only [matchLoop, hh, if_neg hm, e2]
      · intro c' hc'
        rcases List.mem_cons.1 hc' with rfl | hc'
        · rw [hh]
          intro hcontra
          injection hcontra with hcontra
          exact hm hcontra
        · exact e4 c' hc'

theorem nodup_partitionLists {factors : SMap Nat} {nodes : SMap PartitionNode}
    (h : List.Forall₂ IsPartitionNode factors nodes) :
    ∀ pl ∈ partitionLists nodes, pl.2.Nodup := by
  intro pl hpl
  obtain ⟨kn, hkn, rfl⟩ := List.mem_map.1 hpl
  obtain ⟨pe, _, hnode⟩ := forall₂_exists_left h kn hkn
  exact hnode.2.2.1

/-- Candidates of two choices of partitions for the same factorisation that have the same
histogram are candidates of the same choice. -/
theorem choice_eq_of_hist {factors : SMap Nat} (hs : SMap.Sorted factors)
    (hp : ∀ kv ∈ factors, Nat.Prime kv.1) {c₁ c₂ : List (Nat × List Nat)}
    (h₁ : List.Forall₂ (fun pe pp => pp.1 = pe.1 ∧ IsPartitionOf pe.2 pp.2) factors c₁)
    (h₂ : List.Forall₂ (fun pe pp => pp.1 = pe.1 ∧ IsPartitionOf pe.2 pp.2) factors c₂)
    (fuel : Nat) (hf : factorProduct factors ≤ fuel)
    (h : calcElementOrders fuel (candidateOf c₁) (candidateOf c₁).identity [] =
      calcElementOrders fuel (candidateOf c₂) (candidateOf c₂).identity []) : c₁ = c₂ := by
  haveI := Fact.mk (valid_candidateOf hp h₁)
  haveI := Fact.mk (valid_candidateOf hp h₂)
  apply choice_eq_of_prod_gcd hs hp h₁ h₂
  apply prod_gcd_eq_of_hist fuel fuel _ _ h
  · rw [order_candidateOf_of_partition h₁]; exact hf
  · rw [order_candidateOf_of_partition h₂]; exact hf

/-- C3. For every `G` with positive factor orders and every generator in range,
`orderOfGenerator` returns a value `n`.  When the value `G.order / n % 2 ^ 32` of
`orderOfQgroup` is `0`, `findPossibleIsoGroup` does not return and there is no list.
Otherwise, and so whenever the order of `G` is below `2 ^ 32`, it returns a list (given
enough fuel): every candidate of the list whose histogram
`calcElementOrders(candidate, identity)` equals `calcElementOrders(G, generator)` is
isomorphic as a group to the quotient of `G` by the subgroup of the generator and is the
result of the match loop of `main` on the list, and no two candidates in the list have
equal histograms.  When the order of `G` is below `2 ^ 32` the list has a first candidate
with the histogram of the quotient. -/
theorem first_match_is_quotient (G : Group) (generator : Tuple) (hG : G.Valid)
    (hmem : G.Mem generator) :
    ∃ n, orderOfGenerator G generator = .ok n ∧
      (G.order / n % 2 ^ 32 = 0 →
        ∀ fuel groups, ∃ e, findPossibleIsoGroup fuel groups G generator = .error e) ∧
      (G.order < 2 ^ 32 → 0 < G.order / n % 2 ^ 32) ∧
      (0 < G.order / n % 2 ^ 32 →
        ∃ N, ∀ fuel, N ≤ fuel →
          ∃ groups hist, findPossibleIsoGroup fuel [] G generator = .ok groups ∧
            calcElementOrders fuel G generator [] = .ok hist ∧
            (∀ c ∈ groups, calcElementOrders fuel c c.identity [] = .ok hist →
              IsQuotient G generator c ∧ matchLoop fuel hist groups = .ok (some c)) ∧
            groups.Pairwise (fun c c' =>
              calcElementOrders fuel c c.identity [] ≠
                calcElementOrders fuel c' c'.identity []) ∧
            (G.order < 2 ^ 32 →
              ∃ pre c post, groups = pre ++ c :: post ∧
                (∀ c' ∈ pre, calcElementOrders fuel c' c'.identity [] ≠ .ok hist) ∧
                calcElementOrders fuel c c.identity [] = .ok hist ∧
                matchLoop fuel hist groups = .ok (some c) ∧ IsQuotient G generator c)) := by
  haveI := Fact.mk hG
  obtain ⟨n, hn⟩ := orderOfGenerator_total G generator hG hmem.length_eq
  have hfits : G.order < 2 ^ 32 → n = addOrderOf (Elem.ofMem generator hmem) ∧
      G.order / n % 2 ^ 32 = G.order / n ∧ 0 < G.order / n := by
    intro hsmall
    obtain ⟨e1, e2, e3⟩ := quotient_order_eq G generator hG hmem hsmall
    rw [hn] at e1
    injection e1 with e1
    rw [← e1] at e2 e3
    exact ⟨e1, e2, e3⟩
  refine ⟨n, hn, ?_, ?_, ?_⟩
  · intro hq fuel groups
    exact ⟨_, (findPossibleIsoGroupState_zero G generator n hn hq fuel groups).2.2⟩
  · intro hsmall
    obtain ⟨_, e2, e3⟩ := hfits hsmall
    rw [e2]
    exact e3
  intro hq
  obtain ⟨factors, N, hN, hle, hprod, hs, hp, h⟩ :=
    quotient_candidate_core G generator hG hmem n hn hq
  have hp' : ∀ kv ∈ factors, Nat.Prime kv.1 := fun kv hkv => (hp kv hkv).1
  refine ⟨N, ?_⟩
  intro fuel hfuel
  obtain ⟨nodes, hnodes, hfind, hex⟩ := h fuel hfuel
  have hGf : G.order ≤ fuel := le_trans hN hfuel
  have hFf : factorProduct factors ≤ fuel := le_trans hle hfuel
  obtain ⟨hist, hhist, _, hsum⟩ :=
    calcElementOrders_countSum (Elem.ofMem generator hmem) fuel hGf
  have hpart : ∀ c ∈ choices (partitionLists nodes),
      List.Forall₂ (fun pe pp => pp.1 = pe.1 ∧ IsPartitionOf pe.2 pp.2) factors c :=
    fun c hcm => forall₂_choice_of_node hnodes ((mem_choices_iff _ _).1 hcm)
  have hok : ∀ c ∈ ((choices (partitionLists nodes)).map candidateOf).filter
      (fun c => decide (c.largestOrderElement ≤ G.largestOrderElement)),
      ∃ h, calcElementOrders fuel c c.identity [] = .ok h := by
    intro c hcm
    obtain ⟨c', hc', rfl⟩ := List.mem_map.1 (List.mem_filter.1 hcm).1
    haveI := Fact.mk (valid_candidateOf hp' (hpart c' hc'))
    obtain ⟨h, e, _⟩ := calcElementOrders_identity_hist (candidateOf c') fuel
      (by rw [order_candidateOf_of_partition (hpart c' hc')]; exact hFf)
    exact ⟨h, e⟩
  -- a candidate with the histogram of the quotient has the order of the quotient
  have hmatch : ∀ c' ∈ choices (partitionLists nodes),
      calcElementOrders fuel (candidateOf c') (candidateOf c').identity [] = .ok hist →
      factorProduct factors = G.order / addOrderOf (Elem.ofMem generator hmem) := by
    intro c' hc' hcal
    haveI := Fact.mk (valid_candidateOf hp' (hpart c' hc'))
    have hord := order_candidateOf_of_partition (hpart c' hc')
    obtain ⟨hist', e1, _, e3⟩ :=
      calcElementOrders_countSum (0 : Elem (candidateOf c')) fuel (by rw [hord]; exact hFf)
    have e1' : calcElementOrders fuel (candidateOf c') (candidateOf c').identity [] =
        .ok hist' := e1
    rw [hcal] at e1'
    injection e1' with e1'
    subst e1'
    rw [← hsum, e3, addOrderOf_zero, Nat.div_one, hord]
  -- the candidate of the quotient, when some candidate has its order
  have hstar : factorProduct factors = G.order / addOrderOf (Elem.ofMem generator hmem) →
      ∃ ch ∈ choices (partitionLists nodes),
        candidateOf ch ∈ ((choices (partitionLists nodes)).map candidateOf).filter
          (fun c => decide (c.largestOrderElement ≤ G.largestOrderElement)) ∧
        calcElementOrders fuel (candidateOf ch) (candidateOf ch).identity [] = .ok hist ∧
        IsQuotient G generator (candidateOf ch) := by
    intro hfp
    obtain ⟨ch, hch, hloe, hc, ⟨φ⟩⟩ := hex hfp
    haveI := Fact.mk hc
    refine ⟨ch, hch, ?_, ?_, ⟨hG, hmem, hc, ⟨φ⟩⟩⟩
    · rw [List.mem_filter]
      exact ⟨List.mem_map.2 ⟨ch, hch, rfl⟩, by simpa using hloe⟩
    · rw [← calcElementOrders_of_equiv (Elem.ofMem generator hmem) φ fuel fuel hGf
        (by rw [order_candidateOf_of_partition (hpart ch hch)]; exact hFf)]
      exact hhist
  have hall : ∀ c ∈ ((choices (partitionLists nodes)).map candidateOf).filter
      (fun c => decide (c.largestOrderElement ≤ G.largestOrderElement)),
      calcElementOrders fuel c c.identity [] = .ok hist →
      IsQuotient G generator c ∧
        matchLoop fuel hist (((choices (partitionLists nodes)).map candidateOf).filter
          (fun c => decide (c.largestOrderElement ≤ G.largestOrderElement))) =
          .ok (some c) := by
    intro c hcm hcal
    obtain ⟨c', hc', rfl⟩ := List.mem_map.1 (List.mem_filter.1 hcm).1
    obtain ⟨ch, hch, _, hcs, hquot⟩ := hstar (hmatch c' hc' hcal)
    have e : c' = ch :=
      choice_eq_of_hist hs hp' (hpart c' hc') (hpart ch hch) fuel hFf (hcal.trans hcs.symm)
    subst e
    refine ⟨hquot, ?_⟩
    obtain ⟨pre, c0, post, e1, e2, e3, _⟩ := matchLoop_spec fuel hist _ hok ⟨_, hcm, hcal⟩
    have hc0 : c0 ∈ ((choices (partitionLists nodes)).map candidateOf).filter
        (fun c => decide (c.largestOrderElement ≤ G.largestOrderElement)) := by
      rw [e1]
      exact List.mem_append_right _ (List.mem_cons_self _ _)
    obtain ⟨c0', hc0', rfl⟩ := List.mem_map.1 (List.mem_filter.1 hc0).1
    have e0 : c0' = c' :=
      choice_eq_of_hist hs hp' (hpart c0' hc0') (hpart c' hc') fuel hFf (e3.trans hcal.symm)
    rw [e2, e0]
  refine ⟨_, hist, hfind, hhist, hall, ?_, ?_⟩
  · apply List.Pairwise.filter
    rw [List.pairwise_map]
    have hnd : (choices (partitionLists nodes)).Pairwise (· ≠ ·) :=
      nodup_choices _ (nodup_partitionLists hnodes)
    apply hnd.imp_of_mem
    intro a b ha hb hab hcal
    exact hab (choice_eq_of_hist hs hp' (hpart a ha) (hpart b hb) fuel hFf hcal)
  · intro hsmall
    obtain ⟨e1, e2, _⟩ := hfits hsmall
    obtain ⟨ch, _, hin, hcs, _⟩ := hstar (by rw [hprod, e2, e1])
    obtain ⟨pre, c, post, f1, f2, f3, f4⟩ := matchLoop_spec fuel hist _ hok ⟨_, hin, hcs⟩
    refine ⟨pre, c, post, f1, f4, f3, f2, ?_⟩
    refine (hall c ?_ f3).1
    rw [f1]
    exact List.mem_append_right _ (List.mem_cons_self _ _)

theorem first_match_is_quotient_witness :
    Group.Valid ⟨[4, 2]⟩ ∧ Group.Mem ⟨[4, 2]⟩ [2, 0] ∧
    orderOfGenerator ⟨[4, 2]⟩ [2, 0] = .ok 2 ∧ Group.order ⟨[4, 2]⟩ / 2 % 2 ^ 32 = 4 ∧
    findPossibleIsoGroup 10 [] ⟨[4, 2]⟩ [2, 0] = .ok [⟨[4]⟩, ⟨[2, 2]⟩] ∧
    calcElementOrders 10 ⟨[4, 2]⟩ [2, 0] [] = .ok [(1, 1), (2, 3)] ∧
    calcElementOrders 10 ⟨[4]⟩ (Group.identity ⟨[4]⟩) [] = .ok [(1, 1), (2, 1), (4, 2)] ∧
    calcElementOrders 10 ⟨[2, 2]⟩ (Group.identity ⟨[2, 2]⟩) [] = .ok [(1, 1), (2, 3)] ∧
    matchLoop 10 [(1, 1), (2, 3)] [⟨[4]⟩, ⟨[2, 2]⟩] = .ok (some ⟨[2, 2]⟩) ∧
    ∃ n, orderOfGenerator ⟨[4, 2]⟩ [2, 0] = .ok n ∧
      (Group.order ⟨[4, 2]⟩ / n % 2 ^ 32 = 0 →
        ∀ fuel groups, ∃ e, findPossibleIsoGroup fuel groups ⟨[4, 2]⟩ [2, 0] = .error e) ∧
      (Group.order ⟨[4, 2]⟩ < 2 ^ 32 → 0 < Group.order ⟨[4, 2]⟩ / n % 2 ^ 32) ∧
      (0 < Group.order ⟨[4, 2]⟩ / n % 2 ^ 32 →
        ∃ N, ∀ fuel, N ≤ fuel →
          ∃ groups hist, findPossibleIsoGroup fuel [] ⟨[4, 2]⟩ [2, 0] = .ok groups ∧
            calcElementOrders fuel ⟨[4, 2]⟩ [2, 0] [] = .ok hist ∧
            (∀ c ∈ groups, calcElementOrders fuel c c.identity [] = .ok hist →
              IsQuotient ⟨[4, 2]⟩ [2, 0] c ∧ matchLoop fuel hist groups = .ok (some c)) ∧
            groups.Pairwise (fun c c' =>
              calcElementOrders fuel c c.identity [] ≠
                calcElementOrders fuel c' c'.identity []) ∧
            (Group.order ⟨[4, 2]⟩ < 2 ^ 32 →
              ∃ pre c post, groups = pre ++ c :: post ∧
                (∀ c' ∈ pre, calcElementOrders fuel c' c'.identity [] ≠ .ok hist) ∧
                calcElementOrders fuel c c.identity [] = .ok hist ∧
                matchLoop fuel hist groups = .ok (some c) ∧
                IsQuotient ⟨[4, 2]⟩ [2, 0] c)) :=
  ⟨by decide, by decide, by decide, by decide, by decide, by decide, by decide, by decide,
    by decide, first_match_is_quotient ⟨[4, 2]⟩ [2, 0] (by decide) (by decide)⟩

/-- C11. `orderOfGenerator(G, generator)` fails with the arity-mismatch error exactly when
the generator has another number of components than `G` has factors.  (For a `G` with
positive factor orders it has no other way to fail; its one other failure is the division
by zero at a factor order `0` whose generator entry is `0`.)  On a mismatch
`findPossibleIsoGroup(groups, G, generator)` fails with the same error for every list
`groups` and every fuel, also fuel `0`: the failure arises in the part of the function
before the candidate loop, ahead of the factorisation and of every loop; the candidate
loop, the only part that writes to `groups`, is not entered, and the caller has `groups` as
it passed it. -/
theorem orderOfGenerator_arity_mismatch (G : Group) (generator : Tuple) :
    (orderOfGenerator G generator = .error .sizeMismatch ↔
      generator.length ≠ G.products.length) ∧
    (generator.length = G.products.length → G.Valid →
      ∃ n, orderOfGenerator G generator = .ok n) ∧
    (∀ e, orderOfGenerator G generator = .error e → e ≠ .sizeMismatch →
      e = .undefined ∧ (0, 0) ∈ List.zip G.products generator) ∧
    (generator.length ≠ G.products.length → ∀ fuel groups,
      quotientPartitions fuel G generator = .error .sizeMismatch ∧
      findPossibleIsoGroupState fuel groups G generator = .error .sizeMismatch ∧
      findPossibleIsoGroup fuel groups G generator = .error .sizeMismatch ∧
      findPossibleIsoGroupInOut fuel groups G generator = some groups) := by
  refine ⟨?_, ?_, ?_, ?_⟩
  · unfold orderOfGenerator
    constructor
    · intro h hlen
      rw [if_neg (by simpa using hlen.symm)] at h
      have := (orderOfGeneratorLoop_error _ _ _ _ h).1
      cases this
    · intro h
      rw [if_pos (fun e => h e.symm)]
  · intro hlen hG
    exact orderOfGenerator_total G generator hG hlen
  · intro e h hne
    unfold orderOfGenerator at h
    split_ifs at h
    · injection h with h
      exact absurd h.symm hne
    · exact orderOfGeneratorLoop_error _ _ _ _ h
  · intro h fuel groups
    have h1 : orderOfGenerator G generator = .error .sizeMismatch := by
      unfold orderOfGenerator
      rw [if_pos (fun e => h e.symm)]
    have h2 : quotientPartitions fuel G generator = .error .sizeMismatch := by
      simp only [quotientPartitions, h1]
    have h3 : findPossibleIsoGroupState fuel groups G generator = .error .sizeMismatch := by
      simp only [findPossibleIsoGroupState, h2]
    exact ⟨h2, h3, by simp only [findPossibleIsoGroup, h3],
      by simp only [findPossibleIsoGroupInOut, h2]⟩

theorem orderOfGenerator_arity_mismatch_witness :
    orderOfGenerator ⟨[4, 2]⟩ [1] = .error .sizeMismatch ∧
    orderOfGenerator ⟨[4, 2]⟩ [1, 0, 0] = .error .sizeMismatch ∧
    orderOfGenerator ⟨[4, 2]⟩ [1, 0] = .ok 4 ∧
    orderOfGenerator ⟨[0]⟩ [0] = .error .undefined ∧
    findPossibleIsoGroup 0 [⟨[3]⟩] ⟨[4, 2]⟩ [1] = .error .sizeMismatch ∧
    findPossibleIsoGroup 10 [⟨[3]⟩] ⟨[4, 2]⟩ [1] = .error .sizeMismatch ∧
    findPossibleIsoGroupInOut 10 [⟨[3]⟩] ⟨[4, 2]⟩ [1] = some [⟨[3]⟩] ∧
    findPossibleIsoGroupInOut 10 [⟨[3]⟩] ⟨[4, 2]⟩ [1, 0] = some [⟨[3]⟩, ⟨[2]⟩] ∧
    [1].length ≠ (Group.products ⟨[4, 2]⟩).length ∧
    (∀ fuel groups,
      quotientPartitions fuel ⟨[4, 2]⟩ [1] = .error .sizeMismatch ∧
      findPossibleIsoGroupState fuel groups ⟨[4, 2]⟩ [1] = .error .sizeMismatch ∧
      findPossibleIsoGroup fuel groups ⟨[4, 2]⟩ [1] = .error .sizeMismatch ∧
      findPossibleIsoGroupInOut fuel groups ⟨[4, 2]⟩ [1] = some groups) :=
  ⟨by decide, by decide, by decide, by decide, by decide, by decide, by decide, by decide,
    by decide, (orderOfGenerator_arity_mismatch ⟨[4, 2]⟩ [1]).2.2.2 (by decide)⟩

theorem valid_of_order_ne_zero (G : Group) (h : G.order ≠ 0) : G.Valid := by
  intro p hp
  rw [Group.order_eq_prod] at h
  apply Nat.pos_of_ne_zero
  rintro rfl
  exact h (List.prod_eq_zero hp)

/-- C17. When the quotient is trivial (`G.order / orderOfGenerator(G, generator) = 1`) the
factorisation of the quotient order is the empty map, no partition is made, and the
candidate loop runs once: `findPossibleIsoGroup` adds to `groups` exactly one candidate,
the group with no cyclic factors, whose order is `1`. -/
theorem trivial_quotient_one_candidate (G : Group) (generator : Tuple) (n : Nat)
    (hn : orderOfGenerator G generator = .ok n) (hq : G.order / n = 1) (fuel : Nat)
    (hf : 1 ≤ fuel) :
    primeFactorize fuel (G.order / n) [] = .ok [] ∧
    quotientPartitions fuel G generator = .ok [] ∧
    (∀ groups, findPossibleIsoGroupState fuel groups G generator =
      .ok ([], groups ++ [⟨[]⟩], [⟨[]⟩])) ∧
    findPossibleIsoGroup fuel [] G generator = .ok [⟨[]⟩] ∧
    Group.order ⟨[]⟩ = 1 := by
  have hG : G.Valid := valid_of_order_ne_zero G (by
    intro h0
    rw [h0, Nat.zero_div] at hq
    omega)
  have hloe := G.largestOrderElement_pos hG
  have h1 : primeFactorize fuel (G.order / n) [] = .ok [] := by
    rw [hq]; exact primeFactorize_one fuel hf
  have hn0 : n ≠ 0 := by
    rintro rfl
    simp at hq
  obtain ⟨h2, h3, h4⟩ := findPossibleIsoGroupState_one G generator n hn hn0
    (by rw [hq]; rfl) hloe fuel hf
  exact ⟨h1, h2, h3, h4, rfl⟩

theorem trivial_quotient_one_candidate_witness :
    orderOfGenerator ⟨[4]⟩ [1] = .ok 4 ∧ Group.order ⟨[4]⟩ / 4 = 1 ∧ 1 ≤ 1 ∧
    findPossibleIsoGroup 5 [] ⟨[2, 3]⟩ [1, 1] = .ok [⟨[]⟩] ∧
    calcElementOrders 5 ⟨[]⟩ (Group.identity ⟨[]⟩) [] = .ok [(1, 1)] ∧
    primeFactorize 1 (Group.order ⟨[4]⟩ / 4) [] = .ok [] ∧
    quotientPartitions 1 ⟨[4]⟩ [1] = .ok [] ∧
    (∀ groups, findPossibleIsoGroupState 1 groups ⟨[4]⟩ [1] =
      .ok ([], groups ++ [⟨[]⟩], [⟨[]⟩])) ∧
    findPossibleIsoGroup 1 [] ⟨[4]⟩ [1] = .ok [⟨[]⟩] ∧
    Group.order ⟨[]⟩ = 1 :=
  ⟨by decide, by decide, by decide, by decide, by decide,
    trivial_quotient_one_candidate ⟨[4]⟩ [1] 4 (by decide) (by decide) 1 (by decide)⟩

/-! ### The first partition and the first candidate -/

/-- The partition loop for one prime, started from `[e]`: the list of partitions it adds
is the chain of `nextPartition` from `[e]`. -/
theorem partitionLoop_spec_chain (prime e : Nat) (he : 1 ≤ e) (parts : SMap PartitionNode)
    (h : ∀ kv ∈ parts, kv.1 < prime) (inner fuel : Nat) (hin : e + 1 ≤ inner)
    (hf : Fintype.card (Nat.Partition e) < fuel) :
    partitionLoop prime inner fuel [e] 0 parts =
        .ok (parts ++ [(prime, { partitions := partitionChain fuel [e], iterator := 0 })]) ∧
      (partitionChain fuel [e]).Nodup ∧
      (∀ q, q ∈ partitionChain fuel [e] ↔ IsPartitionOf e q) := by
  have h0 := isPartitionOf_singleton e he
  have hspec := partitionChain_spec fuel [e] h0
  have hnd := partitionChain_nodup fuel [e] h0
  have hlen : (partitionChain fuel [e]).length < fuel :=
    lt_of_le_of_lt (length_le_card_partition _ hnd (fun q hq => (hspec.1 q hq).1)) hf
  obtain ⟨n, rfl⟩ : ∃ n, fuel = n + 1 := ⟨fuel - 1, by omega⟩
  refine ⟨?_, hnd, ?_⟩
  · have := partitionLoop_chain prime inner e he hin (n + 1) [e] parts h0 hlen
    simp only [List.length_singleton, Nat.sub_self, Nat.cast_zero] at this
    rw [this]
    congr 1
    conv_lhs => rw [partitionChain]
    rw [List.foldl_cons, pushPartition_new parts prime [e] h, foldl_pushPartition parts prime h]
    simp [partitionChain]
  · intro q
    constructor
    · intro hq
      exact (hspec.1 q hq).1
    · intro hq
      exact partitionChain_complete (n + 1) [e] h0 hlen q hq (hq.le_singleton he)

/-- The maps of partitions of a factorisation: the node of a prime with exponent `e` lists
the chain of partitions from `[e]`, which holds every partition of `e` once. -/
theorem partitionAll_chain :
    ∀ (factors : SMap Nat), SMap.Sorted factors → (∀ kv ∈ factors, 1 ≤ kv.2) →
      ∃ N, ∀ (parts : SMap PartitionNode),
        (∀ kn ∈ parts, ∀ kv ∈ factors, kn.1 < kv.1) →
        ∀ fuel, N ≤ fuel →
          partitionAll fuel factors parts = .ok (parts ++ chainNodes fuel factors) ∧
          List.Forall₂ IsPartitionNode factors (chainNodes fuel factors) := by
  intro factors
  induction factors with
  | nil =>
    intro _ _
    exact ⟨0, fun parts _ fuel _ => ⟨by simp [partitionAll, chainNodes], List.Forall₂.nil⟩⟩
  | cons hd tl ih =>
    intro hs hexp
    obtain ⟨p, e⟩ := hd
    rw [SMap.sorted_cons] at hs
    have he : 1 ≤ e := hexp (p, e) (List.mem_cons_self _ _)
    obtain ⟨N, hN⟩ := ih hs.2 (fun kv hkv => hexp kv (List.mem_cons_of_mem _ hkv))
    refine ⟨max N (max (e + 1) (Fintype.card (Nat.Partition e) + 1)), ?_⟩
    intro parts hparts fuel hf
    have hf1 : N ≤ fuel := le_trans (le_max_left _ _) hf
    have hf2 : e + 1 ≤ fuel := le_trans (le_trans (le_max_left _ _) (le_max_right _ _)) hf
    have hf3 : Fintype.card (Nat.Partition e) < fuel :=
      lt_of_lt_of_le (Nat.lt_succ_self _)
        (le_trans (le_trans (le_max_right _ _) (le_max_right _ _)) hf)
    obtain ⟨h1, h2, h3⟩ := partitionLoop_spec_chain p e he parts
      (fun kn hkn => hparts kn hkn (p, e) (List.mem_cons_self _ _)) fuel fuel hf2 hf3
    obtain ⟨g1, g2⟩ := hN (parts ++ [(p, { partitions := partitionChain fuel [e], iterator := 0 })])
      (by
        intro kn hkn kv hkv
        rcases List.mem_append.1 hkn with h | h
        · exact hparts kn h kv (List.mem_cons_of_mem _ hkv)
        · rw [List.mem_singleton.1 h]
          exact hs.1 kv hkv) fuel hf1
    refine ⟨?_, ?_⟩
    · simp only [partitionAll]
      rw [h1]
      simp only
      rw [g1]
      simp [chainNodes]
    · unfold chainNodes
      rw [List.map_cons]
      exact List.Forall₂.cons ⟨rfl, rfl, h2, h3⟩ g2

/-- The first choice of partitions takes the first partition of every prime. -/
theorem choices_head (f : Nat × List (List Nat) → List Nat) :
    ∀ (L : List (Nat × List (List Nat))), (∀ pl ∈ L, pl.2.head? = some (f pl)) →
      (choices L).head? = some (L.map (fun pl => (pl.1, f pl))) := by
  intro L
  induction L with
  | nil => intro _; rfl
  | cons hd tl ih =>
    intro h
    obtain ⟨p, ps⟩ := hd
    have h1 := h (p, ps) (List.mem_cons_self _ _)
    have h2 := ih (fun pl hpl => h pl (List.mem_cons_of_mem _ hpl))
    simp only at h1
    obtain ⟨c, cs, hc⟩ : ∃ c cs, choices tl = c :: cs := by
      cases hch : choices tl with
      | nil => rw [hch] at h2; simp at h2
      | cons c cs => exact ⟨c, cs, rfl⟩
    obtain ⟨q, qs, hq⟩ : ∃ q qs, ps = q :: qs := by
      cases ps with
      | nil => simp at h1
      | cons q qs => exact ⟨q, qs, rfl⟩
    rw [hc] at h2
    rw [hq] at h1
    simp only [List.head?_cons, Option.some.injEq] at h1 h2
    simp only [choices]
    rw [hc, List.flatMap_cons, List.map_cons]
    subst hq
    rw [List.map_cons, List.cons_append, List.head?_cons, ← h1, ← h2]

/-- The candidates that the candidate loop leaves in `groups` all satisfy the bound on
the largest element order, whatever the fuel. -/
theorem candidateLoop_bound (G : Group) :
    ∀ (fuel : Nat) (partitions : SMap PartitionNode) (groups built : List Group)
      (r : SMap PartitionNode × List Group × List Group),
      (∀ c ∈ groups, c.largestOrderElement ≤ G.largestOrderElement) →
      candidateLoop G fuel partitions groups built = .ok r →
      ∀ c ∈ r.2.1, c.largestOrderElement ≤ G.largestOrderElement := by
  intro fuel
  induction fuel with
  | zero => intro _ _ _ _ _ h; simp [candidateLoop] at h
  | succ fuel ih =>
    intro partitions groups built r hg h
    unfold candidateLoop at h
    cases hb : buildCandidate partitions [] true with
    | error e => rw [hb] at h; simp at h
    | ok v =>
      obtain ⟨partitions', products, allDone⟩ := v
      rw [hb] at h
      simp only at h
      have key : ∀ gs' : List Group,
          (∀ c ∈ gs', c.largestOrderElement ≤ G.largestOrderElement) →
          (if allDone = true then
              Except.ok (partitions', gs', built ++ [(⟨products⟩ : Group)])
            else candidateLoop G fuel partitions' gs' (built ++ [(⟨products⟩ : Group)])) =
            .ok r →
          ∀ c ∈ r.2.1, c.largestOrderElement ≤ G.largestOrderElement := by
        intro gs' hgs' hr
        split_ifs at hr with hdone
        · injection hr with hr
          rw [← hr]
          exact hgs'
        · exact ih _ _ _ r hgs' hr
      refine key _ ?_ h
      intro c hc
      split_ifs at hc with hlt
      · rw [List.dropLast_concat] at hc
        exact hg c hc
      · rcases List.mem_append.1 hc with hc | hc
        · exact hg c hc
        · rw [List.mem_singleton.1 hc]; omega

theorem partitionChain_head (fuel : Nat) (hf : 1 ≤ fuel) (q : List Nat) :
    (partitionChain fuel q).head? = some q := by
  obtain ⟨n, rfl⟩ : ∃ n, fuel = n + 1 := ⟨fuel - 1, by omega⟩
  simp [partitionChain]

/-- What `findPossibleIsoGroup` computes when `orderOfGenerator` returns `n` and the value
`G.order / n % 2 ^ 32` of `orderOfQgroup` is not `0`, with the map of partitions made
explicit: every node lists the chain of partitions from `[exponent]`. -/
theorem findPossibleIsoGroupState_chain_core (G : Group) (generator : Tuple) (n : Nat)
    (hn : orderOfGenerator G generator = .ok n) (hq : 0 < G.order / n % 2 ^ 32) :
    ∃ factors N, factorProduct factors = G.order / n % 2 ^ 32 ∧ SMap.Sorted factors ∧
      (∀ kv ∈ factors, Nat.Prime kv.1 ∧ 1 ≤ kv.2) ∧ 1 ≤ N ∧
      ∀ fuel, N ≤ fuel →
        quotientPartitions fuel G generator = .ok (chainNodes fuel factors) ∧
        List.Forall₂ IsPartitionNode factors (chainNodes fuel factors) ∧
        ∀ groups, findPossibleIsoGroupState fuel groups G generator =
          .ok (chainNodes fuel factors,
            groups ++ (((choices (partitionLists (chainNodes fuel factors))).map
              candidateOf).filter
                (fun c => decide (c.largestOrderElement ≤ G.largestOrderElement))),
            (choices (partitionLists (chainNodes fuel factors))).map candidateOf) := by
  have hn0 : n ≠ 0 := by
    rintro rfl
    simp at hq
  obtain ⟨factors, N₁, h4, h5, h6, h7⟩ := findPossibleIsoGroupState_core G generator n hn hq
  obtain ⟨N₂, hN₂⟩ := partitionAll_chain factors h5 (fun kv hkv => (h6 kv hkv).2)
  refine ⟨factors, max N₁ (max N₂ 1), h4, h5, h6,
    le_trans (le_max_right _ _) (le_max_right _ _), ?_⟩
  intro fuel hf
  obtain ⟨g1, nodes, g2, g3, g4⟩ := h7 fuel (le_trans (le_max_left _ _) hf)
  obtain ⟨c1, c2⟩ := hN₂ [] (by simp) fuel
    (le_trans (le_trans (le_max_left _ _) (le_max_right _ _)) hf)
  have hq' : quotientPartitions fuel G generator = .ok (chainNodes fuel factors) := by
    simp only [quotientPartitions, hn, if_neg hn0, g1, c1, List.nil_append]
  have hsame : nodes = chainNodes fuel factors := by
    rw [g2] at hq'
    injection hq'
  subst hsame
  exact ⟨g2, g3, g4⟩

/-- What `findPossibleIsoGroup` computes when the order of `G` is below `2 ^ 32`, with the
map of partitions made explicit: every node lists the chain of partitions from
`[exponent]`. -/
theorem findPossibleIsoGroupState_chain (G : Group) (generator : Tuple) (hG : G.Valid)
    (hlen : generator.length = G.products.length) (hsmall : G.order < 2 ^ 32) :
    ∃ n factors N, orderOfGenerator G generator = .ok n ∧ 0 < n ∧ n ∣ G.order ∧
      factorProduct factors = G.order / n ∧ SMap.Sorted factors ∧
      (∀ kv ∈ factors, Nat.Prime kv.1 ∧ 1 ≤ kv.2) ∧ 1 ≤ N ∧
      ∀ fuel, N ≤ fuel →
        quotientPartitions fuel G generator = .ok (chainNodes fuel factors) ∧
        List.Forall₂ IsPartitionNode factors (chainNodes fuel factors) ∧
        ∀ groups, findPossibleIsoGroupState fuel groups G generator =
          .ok (chainNodes fuel factors,
            groups ++ (((choices (partitionLists (chainNodes fuel factors))).map
              candidateOf).filter
                (fun c => decide (c.largestOrderElement ≤ G.largestOrderElement))),
            (choices (partitionLists (chainNodes fuel factors))).map candidateOf) := by
  obtain ⟨n, h1, h2, h3, h4, h5⟩ := quotient_order_fits G generator hG hlen hsmall
  obtain ⟨factors, N, f1, f2, f3, f4, f5⟩ :=
    findPossibleIsoGroupState_chain_core G generator n h1 (by rw [h4]; exact h5)
  rw [h4] at f1
  exact ⟨n, factors, N, h1, h2, h3, f1, f2, f3, f4, f5⟩

theorem partitionChain_two (fuel : Nat) (hf : 2 ≤ fuel) :
    partitionChain fuel [2] = [[2], [1, 1]] := by
  obtain ⟨k, rfl⟩ : ∃ k, fuel = k + 2 := ⟨fuel - 2, by omega⟩
  have h1 : nextPartition [2] = some [1, 1] := by decide
  have h2 : nextPartition [1, 1] = none := by decide
  simp only [partitionChain, h1, h2]

/-- C12, as amended. For `G = Z_2 x Z_2` and generator `(0,0)` the order of the generator
is `1` and the quotient order is `4`; the candidate loop of `findPossibleIsoGroup` (given
enough fuel) builds the two candidates `Z_4` and `Z_2 x Z_2`, in this order, and the list it
returns holds `Z_2 x Z_2` only: `Z_4` is dropped, its `largestOrderElement` `4` being
larger than the `2` of `G`. -/
theorem scenario_B_candidates :
    orderOfGenerator ⟨[2, 2]⟩ [0, 0] = .ok 1 ∧ Group.order ⟨[2, 2]⟩ / 1 = 4 ∧
    Group.largestOrderElement ⟨[2, 2]⟩ = 2 ∧ Group.largestOrderElement ⟨[4]⟩ = 4 ∧
    ∃ N, ∀ fuel, N ≤ fuel →
      findPossibleIsoGroupState fuel [] ⟨[2, 2]⟩ [0, 0] =
        .ok ([(2, { partitions := [[2], [1, 1]], iterator := 0 })], [⟨[2, 2]⟩],
          [⟨[4]⟩, ⟨[2, 2]⟩]) ∧
      findPossibleIsoGroup fuel [] ⟨[2, 2]⟩ [0, 0] = .ok [⟨[2, 2]⟩] := by
  refine ⟨by decide, by decide, by decide, by decide, ?_⟩
  obtain ⟨n, factors, N, h1, _, _, h4, h5, h6, _, h8⟩ :=
    findPossibleIsoGroupState_chain ⟨[2, 2]⟩ [0, 0] (by decide) (by decide) (by decide)
  have hn : n = 1 := by
    have : orderOfGenerator ⟨[2, 2]⟩ [0, 0] = .ok 1 := by decide
    rw [h1] at this
    injection this
  subst hn
  have hfac : factors = [(2, 2)] := by
    apply factors_unique factors [(2, 2)] h5 (by decide) h6
    · intro kv hkv
      rw [List.mem_singleton.1 hkv]
      exact ⟨Nat.prime_two, by decide⟩
    · rw [h4]; decide
  subst hfac
  refine ⟨max N 2, ?_⟩
  intro fuel hf
  obtain ⟨_, _, hstate⟩ := h8 fuel (le_trans (le_max_left _ _) hf)
  have hchain : chainNodes fuel [(2, 2)] =
      [(2, { partitions := [[2], [1, 1]], iterator := 0 })] := by
    simp only [chainNodes, List.map_cons, List.map_nil,
      partitionChain_two fuel (le_trans (le_max_right _ _) hf)]
  have hs := hstate []
  rw [hchain] at hs
  have hs' : findPossibleIsoGroupState fuel [] ⟨[2, 2]⟩ [0, 0] =
      .ok ([(2, { partitions := [[2], [1, 1]], iterator := 0 })], [⟨[2, 2]⟩],
        [⟨[4]⟩, ⟨[2, 2]⟩]) := by
    rw [hs]
    decide
  exact ⟨hs', findPossibleIsoGroup_of_state hs'⟩

/-- C12 as stated fails: for `G = Z_2 x Z_2` and generator `(0,0)` the list that
`findPossibleIsoGroup` returns is `[Z_2 x Z_2]`, and for no fuel does a returned list
hold `Z_4`. -/
theorem scenario_B_without_Z4 :
    findPossibleIsoGroup 10 [] ⟨[2, 2]⟩ [0, 0] = .ok [⟨[2, 2]⟩] ∧
    ¬ ∃ fuel groups, findPossibleIsoGroup fuel [] ⟨[2, 2]⟩ [0, 0] = .ok groups ∧
      (⟨[4]⟩ : Group) ∈ groups := by
  refine ⟨by decide, ?_⟩
  rintro ⟨fuel, groups, h, hmem⟩
  unfold findPossibleIsoGroup findPossibleIsoGroupState at h
  cases hq : quotientPartitions fuel ⟨[2, 2]⟩ [0, 0] with
  | error e => rw [hq] at h; simp at h
  | ok partitions =>
    rw [hq] at h
    simp only at h
    cases hc : candidateLoop ⟨[2, 2]⟩ fuel partitions [] [] with
    | error e => rw [hc] at h; simp at h
    | ok r =>
      rw [hc] at h
      obtain ⟨a, b, c⟩ := r
      simp only at h
      injection h with h
      subst h
      have := candidateLoop_bound ⟨[2, 2]⟩ fuel partitions [] [] _ (by simp) hc _ hmem
      revert this
      decide

/-! ### The residual of the trial division -/

/-- The function `primeFactorize` is its two loops followed by the last `if`. -/
theorem primeFactorize_eq_trialDivision (fuel n : Nat) (primes : SMap Nat) :
    primeFactorize fuel n primes =
      match trialDivision fuel n primes with
      | .error e => .error e
      | .ok (n, primes) =>
        if n ≠ 1 then
          match SMap.find primes n with
          | none => .ok (SMap.assign primes n 1)
          | some _ => .ok (SMap.incr primes n)
        else .ok primes := by
  unfold primeFactorize trialDivision
  generalize (if n % 2 = 0 then divideOut fuel 2 n (SMap.assign primes 2 0)
    else Except.ok (n, primes)) = r
  cases r with
  | error e => rfl
  | ok v => rfl

/-- The two loops of `primeFactorize`, from an empty map: the keys recorded are primes with
positive exponents, and the residual is `1` or a prime that is not a key. -/
theorem trialDivision_spec (n fuel : Nat) (hn : 0 < n) (hf : n ≤ fuel) :
    ∃ residual before, trialDivision fuel n [] = .ok (residual, before) ∧
      0 < residual ∧ residual * factorProduct before = n ∧ SMap.Sorted before ∧
      (∀ kv ∈ before, Nat.Prime kv.1 ∧ 1 ≤ kv.2) ∧
      (residual ≠ 1 → Nat.Prime residual ∧ SMap.find before residual = none) := by
  have key : ∀ (m : Nat) (ps : SMap Nat), 0 < m → m ≤ fuel → ¬ 2 ∣ m → SMap.Sorted ps →
      (∀ kv ∈ ps, kv.1 < 3 ∧ Nat.Prime kv.1 ∧ 1 ≤ kv.2) → m * factorProduct ps = n →
      ∃ residual before, oddLoop fuel fuel 3 m ps = .ok (residual, before) ∧
        0 < residual ∧ residual * factorProduct before = n ∧ SMap.Sorted before ∧
        (∀ kv ∈ before, Nat.Prime kv.1 ∧ 1 ≤ kv.2) ∧
        (residual ≠ 1 → Nat.Prime residual ∧ SMap.find before residual = none) := by
    intro m ps hm hmf h2m hs hkeys hprod
    obtain ⟨n', primes', p', f1, f2, f3, f4, f5, f6, f7⟩ :=
      oddLoop_full fuel fuel 3 m ps (le_refl 3) (by decide) hm (by omega) (by omega) hmf
        (by
          intro d hd hlt
          have : d = 2 := by omega
          rw [this]; exact h2m) hs hkeys
    refine ⟨n', primes', f1, f3, by rw [f2, hprod], f4, fun kv hkv => (f5 kv hkv).2, ?_⟩
    intro h1
    refine ⟨prime_of_small n' p' (by omega) f6 f7, ?_⟩
    rw [SMap.find_eq_none]
    intro kv hkv heq
    obtain ⟨g1, g2, _⟩ := f5 kv hkv
    exact f7 kv.1 g2.two_le g1 (by rw [heq])
  unfold trialDivision
  split_ifs with h2
  · obtain ⟨n₁, primes₁, e1, e2, e3, e4, e5, e6, e7, e8⟩ :=
      divideOut_full 2 Nat.prime_two fuel n (SMap.assign [] 2 0) hn h2 hf
        (sorted_assign_empty 2 0) (by
          intro kv hkv hk
          simp [SMap.assign, SMap.update] at hkv
          rw [hkv] at hk
          exact absurd rfl hk)
    rw [e1]
    simp only
    apply key n₁ primes₁ e3 (le_trans (Nat.le_of_dvd hn e4) hf) e5 e6
    · intro kv hkv
      refine ⟨?_, e7 kv hkv⟩
      rcases e8 kv hkv with h | h
      · omega
      · simp [SMap.assign, SMap.update] at h
        rw [h]; decide
    · rw [e2]; simp [SMap.assign, SMap.update, factorProduct]
  · simp only
    exact key n [] hn hf (fun hd => h2 (Nat.mod_eq_zero_of_dvd hd))
      (by simp [SMap.Sorted]) (by simp) (by simp [factorProduct])

/-- C16. For every positive `n` (and fuel at least `n`) the two trial division loops of
`primeFactorize`, started with an empty map, record only primes as keys, each with an
exponent of at least `1`, and leave a residual that is `1` or a prime that is not a key of
the map; so the last `if` never takes the branch that increments an entry, and every key
of the map that `primeFactorize` returns is a prime with an exponent of at least `1`. -/
theorem primeFactorize_keys_prime (n fuel : Nat) (hn : 0 < n) (hf : n ≤ fuel) :
    ∃ residual before primes, trialDivision fuel n [] = .ok (residual, before) ∧
      (∀ kv ∈ before, Nat.Prime kv.1 ∧ 1 ≤ kv.2) ∧
      (residual ≠ 1 → Nat.Prime residual ∧ SMap.find before residual = none) ∧
      primeFactorize fuel n [] = .ok primes ∧
      primes = (if residual ≠ 1 then SMap.assign before residual 1 else before) ∧
      ∀ kv ∈ primes, Nat.Prime kv.1 ∧ 1 ≤ kv.2 := by
  obtain ⟨residual, before, h1, _, _, h4, h5, h6⟩ := trialDivision_spec n fuel hn hf
  have hres : primeFactorize fuel n [] =
      .ok (if residual ≠ 1 then SMap.assign before residual 1 else before) := by
    rw [primeFactorize_eq_trialDivision, h1]
    simp only
    split_ifs with hr
    · rw [(h6 hr).2]
    · rfl
  refine ⟨residual, before, _, h1, h5, h6, hres, rfl, ?_⟩
  intro kv hkv
  split_ifs at hkv with hr
  · rcases SMap.mem_update_sorted before h4 residual _ kv hkv with h | h
    · rw [h]; exact ⟨(h6 hr).1, le_refl 1⟩
    · exact h5 kv h.1
  · exact h5 kv hkv

theorem primeFactorize_keys_prime_witness :
    0 < 360 ∧ 360 ≤ 360 ∧
    trialDivision 360 360 [] = .ok (5, [(2, 3), (3, 2)]) ∧
    primeFactorize 360 360 [] = .ok [(2, 3), (3, 2), (5, 1)] ∧
    trialDivision 49 49 [] = .ok (1, [(7, 2)]) ∧
    primeFactorize 7 7 [] = .ok [(7, 1)] ∧
    ∃ residual before primes, trialDivision 360 360 [] = .ok (residual, before) ∧
      (∀ kv ∈ before, Nat.Prime kv.1 ∧ 1 ≤ kv.2) ∧
      (residual ≠ 1 → Nat.Prime residual ∧ SMap.find before residual = none) ∧
      primeFactorize 360 360 [] = .ok primes ∧
      primes = (if residual ≠ 1 then SMap.assign before residual 1 else before) ∧
      ∀ kv ∈ primes, Nat.Prime kv.1 ∧ 1 ≤ kv.2 :=
  ⟨by decide, by decide, by decide, by decide, by decide, by decide,
    primeFactorize_keys_prime 360 360 (by decide) (by decide)⟩

/-- C18. For every `G` with positive factor orders, every generator in range, every
initial tracker and fuel at least `G.order`, `calcElementOrders` runs to its end: no
`std::find` on the working pool returns `end()` (the embedding would yield
`Err.undefined` there), neither for an element put into `H` nor for an element `h + e` of
a new coset.  The cosets formed list every element of `G` exactly once: no element occurs
twice, the cosets are pairwise disjoint, and together they are all of `G`, which is when
the pool is empty and the loop stops. -/
theorem calcElementOrders_erase_succeeds (G : Group) (generator : Tuple) (fuel : Nat)
    (tracker : SMap Nat) (hG : G.Valid) (hgen : G.Mem generator) (hf : G.order ≤ fuel) :
    ∃ H pool qGroup tracker',
      identityCoset fuel G generator = .ok (H, pool) ∧
      (H ++ pool).Perm G.generateElements ∧
      calcElementOrdersState fuel G generator tracker = .ok (qGroup, tracker') ∧
      (qGroup.map (fun C => C.elements)).flatten.Perm G.generateElements ∧
      (qGroup.map (fun C => C.elements)).flatten.Nodup ∧
      (∀ C ∈ qGroup, C.elements.Nodup) ∧
      qGroup.Pairwise (fun A B => List.Disjoint A.elements B.elements) := by
  haveI := Fact.mk hG
  have hid := identityCoset_spec (Elem.ofMem generator hgen) fuel
    (le_trans (Elem.addOrderOf_le _) hf)
  obtain ⟨cs, h1, h2, _⟩ := calcElementOrdersState_spec (Elem.ofMem generator hgen) fuel hf tracker
  have hnd0 := (List.Perm.nodup_iff h2).2 G.nodup_generateElements
  have hH := (List.nodup_append.1 hnd0).1
  have hperm : ∀ (C₀ : Coset), C₀.elements = (List.range' 1
      (addOrderOf (Elem.ofMem generator hgen))).map (fun i => (i • Elem.ofMem generator hgen).1) →
      ((C₀ :: cs).map (fun C => C.elements)).flatten.Perm G.generateElements := by
    intro C₀ hC₀
    rw [List.map_cons, List.flatten_cons, hC₀]
    exact h2
  have hp := hperm ⟨_, 1⟩ rfl
  have hnd := (List.Perm.nodup_iff hp).2 G.nodup_generateElements
  have hj := List.nodup_flatten.1 hnd
  refine ⟨_, _, _, _, hid, ?_, h1, hp, hnd, ?_, ?_⟩
  · apply append_diff_perm G.nodup_generateElements hH
    intro x hx
    obtain ⟨i, _, rfl⟩ := List.mem_map.1 hx
    exact (G.mem_generateElements _).2 (i • Elem.ofMem generator hgen).2
  · intro C hC
    exact hj.1 _ (List.mem_map.2 ⟨C, hC, rfl⟩)
  · exact List.pairwise_map.1 hj.2

theorem calcElementOrders_erase_succeeds_witness :
    Group.Valid ⟨[4, 2]⟩ ∧ Group.Mem ⟨[4, 2]⟩ [2, 0] ∧ Group.order ⟨[4, 2]⟩ ≤ 8 ∧
    calcElementOrdersState 8 ⟨[4, 2]⟩ [2, 0] [] =
      .ok ([⟨[[2, 0], [0, 0]], 1⟩, ⟨[[2, 1], [0, 1]], 2⟩, ⟨[[3, 0], [1, 0]], 2⟩,
        ⟨[[3, 1], [1, 1]], 2⟩], [(1, 1), (2, 3)]) ∧
    ∃ H pool qGroup tracker',
      identityCoset 8 ⟨[4, 2]⟩ [2, 0] = .ok (H, pool) ∧
      (H ++ pool).Perm (Group.generateElements ⟨[4, 2]⟩) ∧
      calcElementOrdersState 8 ⟨[4, 2]⟩ [2, 0] [] = .ok (qGroup, tracker') ∧
      (qGroup.map (fun C => C.elements)).flatten.Perm (Group.generateElements ⟨[4, 2]⟩) ∧
      (qGroup.map (fun C => C.elements)).flatten.Nodup ∧
      (∀ C ∈ qGroup, C.elements.Nodup) ∧
      qGroup.Pairwise (fun A B => List.Disjoint A.elements B.elements) :=
  ⟨by decide, by decide, by decide, by decide,
    calcElementOrders_erase_succeeds ⟨[4, 2]⟩ [2, 0] 8 [] (by decide) (by decide) (by decide)⟩

/-! ### Coset orders divide the order of the quotient -/

theorem IsQuotientOrder.dvd {G : Group} [Fact G.Valid] {g e : Elem G} {q : Nat}
    (h : IsQuotientOrder g e q) : q ∣ G.order / addOrderOf g := by
  rw [isQuotientOrder_iff_addOrderOf] at h
  rw [← h, ← card_quotient g]
  exact addOrderOf_dvd_natCard _

/-- The histogram of `calcElementOrders` for an initial tracker `tracker` that is sorted:
order `1` is set to `1`, and every other order has its count in `tracker` increased by the
number of cosets of that order. -/
theorem calcElementOrders_tracker {G : Group} [hG : Fact G.Valid] (g : Elem G) (fuel : Nat)
    (hf : G.order ≤ fuel) (tracker : SMap Nat) (hs : SMap.Sorted tracker) :
    ∃ hist, calcElementOrders fuel G g.1 tracker = .ok hist ∧ SMap.Sorted hist ∧
      ∀ k, SMap.find hist k =
        if k = 1 then some 1
        else if G.cosetCount g.1 k = 0 then SMap.find tracker k
        else some ((SMap.find tracker k).getD 0 + G.cosetCount g.1 k) := by
  obtain ⟨orders, h1, h2, _, h4⟩ := calcElementOrders_spec g fuel hf tracker
  have hs1 : SMap.Sorted (SMap.assign tracker 1 1) := SMap.sorted_update _ _ _ hs
  obtain ⟨s1, s2⟩ := foldl_tally_spec orders (SMap.assign tracker 1 1) hs1
  have hone : orders.count 1 = 0 := by
    rw [List.count_eq_zero]
    intro hmem
    obtain ⟨e, he, hq⟩ := h4 1 hmem
    have := hq.2.1
    rw [one_nsmul] at this
    exact he this
  refine ⟨_, h1, s1, ?_⟩
  intro k
  rw [s2 k]
  have hfind : SMap.find (SMap.assign tracker 1 1) k =
      if k = 1 then some 1 else SMap.find tracker k := SMap.find_update tracker 1 _ hs k
  by_cases hk : k = 1
  · subst hk
    rw [hone, if_pos rfl, if_pos rfl, hfind, if_pos rfl]
  · have hcount : G.cosetCount g.1 k = orders.count k := by
      rw [h2 k, List.count_cons, if_neg (by simpa using fun h : 1 = k => hk h.symm)]
      simp
    rw [if_neg hk, hfind, if_neg hk, hcount]

/-- C15, as amended. For every `G` with positive factor orders, every generator in range
and fuel at least `G.order`: two calls of `calcElementOrders` that are each given an
empty tracker return the same histogram (also for different fuel).  A call given the
tracker `hist` that a first call filled sets the count of order `1` to `1` again and adds
to the count of every other order the number of cosets of that order, which doubles it;
its result is `hist` again exactly when `hist` is `{1: 1}`, the histogram of a trivial
quotient. -/
theorem calcElementOrders_twice (G : Group) (generator : Tuple) (fuel fuel' : Nat)
    (hG : G.Valid) (hgen : G.Mem generator) (hf : G.order ≤ fuel) (hf' : G.order ≤ fuel') :
    ∃ hist hist₂, calcElementOrders fuel G generator [] = .ok hist ∧
      calcElementOrders fuel' G generator [] = .ok hist ∧
      calcElementOrders fuel G generator hist = .ok hist₂ ∧
      (∀ k, SMap.find hist₂ k =
        if k = 1 then some 1 else (SMap.find hist k).map (fun c => 2 * c)) ∧
      (hist₂ = hist ↔ hist = [(1, 1)]) := by
  haveI := Fact.mk hG
  obtain ⟨g, hg⟩ : ∃ g : Elem G, g.1 = generator := ⟨Elem.ofMem generator hgen, rfl⟩
  subst hg
  obtain ⟨hist, e1, s1, f1⟩ := calcElementOrders_hist g fuel hf
  have e1' : calcElementOrders fuel' G g.1 [] = .ok hist := by
    obtain ⟨hist', e, s, f⟩ := calcElementOrders_hist g fuel' hf'
    rw [e]
    congr 1
    exact SMap.ext_of_find _ _ s s1 (fun k => by rw [f k, f1 k])
  obtain ⟨hist₂, e2, s2, f2⟩ := calcElementOrders_tracker g fuel hf hist s1
  have hone : SMap.find hist 1 = some 1 := by
    obtain ⟨h0, e0, _, f0⟩ := calcElementOrders_tracker g fuel hf [] (by simp [SMap.Sorted])
    rw [e1] at e0
    injection e0 with e0
    rw [e0, f0 1, if_pos rfl]
  have hfind : ∀ k, SMap.find hist₂ k =
      if k = 1 then some 1 else (SMap.find hist k).map (fun c => 2 * c) := by
    intro k
    rw [f2 k]
    by_cases hk : k = 1
    · rw [if_pos hk, if_pos hk]
    · rw [if_neg hk, if_neg hk, f1 k]
      by_cases hc : G.cosetCount g.1 k = 0
      · rw [if_pos hc, if_pos hc]; rfl
      · rw [if_neg hc, if_neg hc]
        simp only [Option.getD_some, Option.map_some']
        congr 1
        omega
  have hsingle : ∀ k, SMap.find [(1, 1)] k = if k = 1 then some 1 else none := by
    intro k
    simp only [SMap.find]
  refine ⟨hist, hist₂, e1, e1', e2, hfind, ?_⟩
  constructor
  · intro heq
    apply SMap.ext_of_find _ _ s1 (by simp [SMap.Sorted])
    intro k
    rw [hsingle k]
    by_cases hk : k = 1
    · rw [if_pos hk, hk, hone]
    · rw [if_neg hk]
      have h1 := hfind k
      rw [heq, if_neg hk, f1 k] at h1
      by_cases hc : G.cosetCount g.1 k = 0
      · rw [f1 k, if_pos hc]
      · rw [if_neg hc] at h1
        simp only [Option.map_some', Option.some.injEq] at h1
        omega
  · intro heq
    apply SMap.ext_of_find _ _ s2 s1
    intro k
    rw [hfind k, heq, hsingle k]
    by_cases hk : k = 1
    · rw [if_pos hk, if_pos hk]
    · rw [if_neg hk, if_neg hk]; rfl

theorem calcElementOrders_twice_witness :
    Group.Valid ⟨[4, 2]⟩ ∧ Group.Mem ⟨[4, 2]⟩ [2, 0] ∧ Group.order ⟨[4, 2]⟩ ≤ 8 ∧
    Group.order ⟨[4, 2]⟩ ≤ 9 ∧
    ∃ hist hist₂, calcElementOrders 8 ⟨[4, 2]⟩ [2, 0] [] = .ok hist ∧
      calcElementOrders 9 ⟨[4, 2]⟩ [2, 0] [] = .ok hist ∧
      calcElementOrders 8 ⟨[4, 2]⟩ [2, 0] hist = .ok hist₂ ∧
      (∀ k, SMap.find hist₂ k =
        if k = 1 then some 1 else (SMap.find hist k).map (fun c => 2 * c)) ∧
      (hist₂ = hist ↔ hist = [(1, 1)]) :=
  ⟨by decide, by decide, by decide, by decide,
    calcElementOrders_twice ⟨[4, 2]⟩ [2, 0] 8 9 (by decide) (by decide) (by decide)
      (by decide)⟩

/-- C15 as stated fails: for `G = Z_2 x Z_2` and generator `(0,0)` the first call returns
`{1: 1, 2: 3}`, and a second call given this tracker returns `{1: 1, 2: 6}`. -/
theorem calcElementOrders_not_idempotent :
    calcElementOrders 4 ⟨[2, 2]⟩ [0, 0] [] = .ok [(1, 1), (2, 3)] ∧
    calcElementOrders 4 ⟨[2, 2]⟩ [0, 0] [(1, 1), (2, 3)] = .ok [(1, 1), (2, 6)] ∧
    calcElementOrders 4 ⟨[2, 2]⟩ [0, 0] [(1, 1), (2, 3)] ≠
      calcElementOrders 4 ⟨[2, 2]⟩ [0, 0] [] := by
  decide

/-! ### The largest key of a histogram and the narrowing step -/

theorem eraseIdx_append_length (pre : List Group) (g : Group) (rest : List Group) :
    (pre ++ g :: rest).eraseIdx pre.length = pre ++ rest := by
  induction pre with
  | nil => rfl
  | cons a pre ih => simp [List.eraseIdx, ih]

/-- The narrowing loop keeps, in order, the candidates whose `largestOrderElement` is not
below `maxOrder`. -/
theorem narrowLoop_spec (maxOrder : Nat) :
    ∀ (fuel : Nat) (pre suf : List Group), (pre ++ suf).length < 2 ^ 32 → suf.length < fuel →
      narrowLoop maxOrder fuel pre.length (pre ++ suf) =
        .ok (pre ++ suf.filter (fun g => decide (¬ g.largestOrderElement < maxOrder))) := by
  intro fuel
  induction fuel with
  | zero => intro _ _ _ h; omega
  | succ fuel ih =>
    intro pre suf hlen hf
    unfold narrowLoop
    cases suf with
    | nil => simp
    | cons g rest =>
      have hi : pre.length < (pre ++ g :: rest).length := by simp
      have hget : (pre ++ g :: rest)[pre.length]? = some g := by
        rw [List.getElem?_append_right (le_refl _)]
        simp
      have hsmall : pre.length < 2 ^ 32 := by omega
      rw [if_pos hi, hget]
      simp only
      by_cases hlt : g.largestOrderElement < maxOrder
      · rw [if_pos hlt, eraseIdx_append_length]
        have hidx : ((pre.length + 2 ^ 32 - 1) % 2 ^ 32 + 1) % 2 ^ 32 = pre.length := by omega
        rw [hidx, ih pre rest (by simp at hlen ⊢; omega) (by simp at hf; omega)]
        simp [hlt]
      · rw [if_neg hlt]
        have hidx : (pre.length + 1) % 2 ^ 32 = (pre ++ [g]).length := by
          simp only [List.length_append, List.length_cons, List.length_nil] at hlen ⊢
          omega
        have happ : pre ++ g :: rest = (pre ++ [g]) ++ rest := by simp
        rw [hidx, happ, ih (pre ++ [g]) rest (by rw [← happ]; exact hlen)
          (by simp at hf; omega)]
        rw [List.filter_cons, if_pos (by simpa using hlt)]
        simp

/-- The largest key of a sorted map is its largest key: a key that no key exceeds. -/
theorem lastKey_of_max (m : SMap Nat) (hs : SMap.Sorted m) (kv : Nat × Nat) (hkv : kv ∈ m)
    (hmax : ∀ kv' ∈ m, kv'.1 ≤ kv.1) : lastKey m = .ok kv.1 := by
  rcases List.eq_nil_or_concat m with rfl | ⟨init, l, rfl⟩
  · cases hkv
  · rw [List.concat_eq_append] at hs hkv hmax ⊢
    unfold lastKey
    rw [List.getLast?_concat]
    simp only
    congr 1
    have hl := hmax l (by simp)
    rcases List.mem_append.1 hkv with h | h
    · have hsort : (init.map Prod.fst ++ [l.1]).Pairwise (· < ·) := by
        have := hs
        unfold SMap.Sorted at this
        simpa using this
      have := (List.pairwise_append.1 hsort).2.2 kv.1 (List.mem_map_of_mem _ h) l.1 (by simp)
      omega
    · rw [List.mem_singleton.1 h]

/-- Some element of a group has the least common multiple of the factor orders as its
order. -/
theorem exists_addOrderOf_eq_largestOrderElement (C : Group) [hC : Fact C.Valid] :
    ∃ u : Elem C, addOrderOf u = C.largestOrderElement := by
  have hmem : C.Mem (C.products.map (fun p => 1 % p)) := by
    unfold Group.Mem
    rw [List.forall₂_map_left_iff, List.forall₂_same]
    intro p hp
    exact Nat.mod_lt _ (hC.out p hp)
  refine ⟨Elem.ofMem _ hmem, Nat.dvd_antisymm ?_ ?_⟩
  · exact addOrderOf_dvd_of_nsmul_eq_zero (Elem.largestOrderElement_nsmul _)
  · have h1 := (Elem.nsmul_eq_zero_iff (Elem.ofMem _ hmem)
      (addOrderOf (Elem.ofMem _ hmem))).1 (addOrderOf_nsmul_eq_zero _)
    rw [Group.largestOrderElement_dvd_iff]
    intro p hp
    have h2 := h1 (p, 1 % p) (mem_zip_map _ _ p hp)
    simp only at h2
    by_cases hp1 : p = 1
    · rw [hp1]; exact one_dvd _
    · have hp0 := hC.out p hp
      rw [Nat.mod_eq_of_lt (by omega), Nat.mul_one] at h2
      exact h2

/-- The histogram of a group with the identity as generator: its keys divide the least
common multiple of the factor orders, which is its largest key. -/
theorem calcElementOrders_identity_lastKey (C : Group) [hC : Fact C.Valid] (fuel : Nat)
    (hf : C.order ≤ fuel) :
    ∃ hist, calcElementOrders fuel C C.identity [] = .ok hist ∧ SMap.Sorted hist ∧
      lastKey hist = .ok C.largestOrderElement ∧
      ∀ kv ∈ hist, kv.1 ∣ C.largestOrderElement := by
  obtain ⟨hist, e1, s1, _⟩ := calcElementOrders_hist (0 : Elem C) fuel hf
  obtain ⟨hist', e2, f2⟩ := calcElementOrders_identity_hist C fuel hf
  have e1' : calcElementOrders fuel C C.identity [] = .ok hist := e1
  have hsame : hist' = hist := by
    rw [e2] at e1'
    injection e1'
  subst hsame
  have hdvd : ∀ kv ∈ hist', kv.1 ∣ C.largestOrderElement := by
    intro kv hkv
    have hfind := (SMap.mem_iff_find hist' s1 kv).1 hkv
    rw [f2 kv.1] at hfind
    split_ifs at hfind with hc
    have hne : Nonempty { x : Elem C // addOrderOf x = kv.1 } := by
      by_contra hemp
      rw [not_nonempty_iff] at hemp
      exact hc Nat.card_of_isEmpty
    obtain ⟨⟨x, hx⟩⟩ := hne
    rw [← hx]
    exact addOrderOf_dvd_of_nsmul_eq_zero (Elem.largestOrderElement_nsmul x)
  refine ⟨hist', e2, s1, ?_, hdvd⟩
  obtain ⟨u, hu⟩ := exists_addOrderOf_eq_largestOrderElement C
  have hcard : Nat.card { x : Elem C // addOrderOf x = C.largestOrderElement } ≠ 0 := by
    haveI : Finite (Elem C) := Finite.of_fintype _
    haveI : Nonempty { x : Elem C // addOrderOf x = C.largestOrderElement } := ⟨⟨u, hu⟩⟩
    exact Nat.card_pos.ne'
  have hmem : (C.largestOrderElement,
      Nat.card { x : Elem C // addOrderOf x = C.largestOrderElement }) ∈ hist' := by
    rw [SMap.mem_iff_find hist' s1, f2, if_neg hcard]
  have := lastKey_of_max hist' s1 _ hmem (fun kv' hkv' =>
    Nat.le_of_dvd (C.largestOrderElement_pos hC.out) (hdvd kv' hkv'))
  exact this

/-- C19. For every group `C` with positive factor orders (and fuel at least `C.order`) the
largest key of the histogram `calcElementOrders(C, identity)` is `largestOrderElement`,
the least common multiple of the factor orders: every key divides it and it is the order
of an element `u` (the least `k ≥ 1` with `k * u = 0` in `C`, which `orderOfGenerator`
returns when it is below `2 ^ 32`).  So when the histogram `GStats` of `G/H` is the histogram of a candidate
`C`, the `maxOrder` of the narrowing step of `main` is `C.largestOrderElement`: the step
keeps exactly the candidates whose `largestOrderElement` is not below it, and `C` is
among them. -/
theorem largestOrderElement_is_max_order (C : Group) (fuel : Nat) (hC : C.Valid)
    (hf : C.order ≤ fuel) :
    ∃ GStats, calcElementOrders fuel C C.identity [] = .ok GStats ∧
      lastKey GStats = .ok C.largestOrderElement ∧
      (∀ kv ∈ GStats, kv.1 ∣ C.largestOrderElement) ∧
      (∃ u, C.Mem u ∧ 1 ≤ C.largestOrderElement ∧ annihilates C u C.largestOrderElement ∧
        (∀ m, 1 ≤ m → annihilates C u m → C.largestOrderElement ≤ m) ∧
        (C.largestOrderElement < 2 ^ 32 →
          orderOfGenerator C u = .ok C.largestOrderElement)) ∧
      ∀ (groups : List Group) (fuel' : Nat), groups.length < 2 ^ 32 → groups.length < fuel' →
        ∃ kept, narrow fuel' GStats groups = .ok kept ∧
          kept = groups.filter
            (fun g => decide (¬ g.largestOrderElement < C.largestOrderElement)) ∧
          (C ∈ groups → C ∈ kept) := by
  haveI := Fact.mk hC
  obtain ⟨hist, h1, _, h3, h4⟩ := calcElementOrders_identity_lastKey C fuel hf
  obtain ⟨u, hu⟩ := exists_addOrderOf_eq_largestOrderElement C
  have hu1 : annihilates C u.1 C.largestOrderElement := by
    rw [← Elem.nsmul_eq_zero_iff, ← hu]
    exact addOrderOf_nsmul_eq_zero u
  have hu2 : ∀ m, 1 ≤ m → annihilates C u.1 m → C.largestOrderElement ≤ m := by
    intro m hm ha
    rw [← hu]
    apply Nat.le_of_dvd hm
    apply addOrderOf_dvd_of_nsmul_eq_zero
    rw [Elem.nsmul_eq_zero_iff]
    exact ha
  refine ⟨hist, h1, h3, h4,
    ⟨u.1, u.2, C.largestOrderElement_pos hC, hu1, hu2, fun hlt => ?_⟩, ?_⟩
  · rw [← hu]
    exact orderOfGenerator_eq_addOrderOf u (by rw [hu]; exact hlt)
  intro groups fuel' hlen hfuel
  have hrun := narrowLoop_spec C.largestOrderElement fuel' [] groups (by simpa using hlen) hfuel
  simp only [List.length_nil, List.nil_append] at hrun
  refine ⟨_, by simp only [narrow, h3, hrun], rfl, ?_⟩
  intro hmem
  rw [List.mem_filter]
  exact ⟨hmem, by simp⟩

theorem largestOrderElement_is_max_order_witness :
    Group.Valid ⟨[4, 6]⟩ ∧ Group.order ⟨[4, 6]⟩ ≤ 24 ∧
    Group.largestOrderElement ⟨[4, 6]⟩ = 12 ∧
    calcElementOrders 24 ⟨[4, 6]⟩ (Group.identity ⟨[4, 6]⟩) [] =
      .ok [(1, 1), (2, 3), (3, 2), (4, 4), (6, 6), (12, 8)] ∧
    narrow 5 [(1, 1), (2, 3)] [⟨[4]⟩, ⟨[2, 2]⟩] = .ok [⟨[4]⟩, ⟨[2, 2]⟩] ∧
    narrow 5 [(1, 1), (2, 1), (4, 2)] [⟨[4]⟩, ⟨[2, 2]⟩] = .ok [⟨[4]⟩] ∧
    ∃ GStats, calcElementOrders 24 ⟨[4, 6]⟩ (Group.identity ⟨[4, 6]⟩) [] = .ok GStats ∧
      lastKey GStats = .ok (Group.largestOrderElement ⟨[4, 6]⟩) ∧
      (∀ kv ∈ GStats, kv.1 ∣ Group.largestOrderElement ⟨[4, 6]⟩) ∧
      (∃ u, Group.Mem ⟨[4, 6]⟩ u ∧ 1 ≤ Group.largestOrderElement ⟨[4, 6]⟩ ∧
        annihilates ⟨[4, 6]⟩ u (Group.largestOrderElement ⟨[4, 6]⟩) ∧
        (∀ m, 1 ≤ m → annihilates ⟨[4, 6]⟩ u m → Group.largestOrderElement ⟨[4, 6]⟩ ≤ m) ∧
        (Group.largestOrderElement ⟨[4, 6]⟩ < 2 ^ 32 →
          orderOfGenerator ⟨[4, 6]⟩ u = .ok (Group.largestOrderElement ⟨[4, 6]⟩))) ∧
      ∀ (groups : List Group) (fuel' : Nat), groups.length < 2 ^ 32 → groups.length < fuel' →
        ∃ kept, narrow fuel' GStats groups = .ok kept ∧
          kept = groups.filter
            (fun g => decide (¬ g.largestOrderElement < Group.largestOrderElement ⟨[4, 6]⟩)) ∧
          ((⟨[4, 6]⟩ : Group) ∈ groups → (⟨[4, 6]⟩ : Group) ∈ kept) :=
  ⟨by decide, by decide, by decide, by decide, by decide, by decide,
    largestOrderElement_is_max_order ⟨[4, 6]⟩ 24 (by decide) (by decide)⟩

/-! ### Groups with a single cyclic factor -/

theorem orderOfGenerator_single (n : Nat) (hn : 1 ≤ n) :
    orderOfGenerator ⟨[n]⟩ [0] = .ok 1 := by
  have hn0 : n ≠ 0 := by omega
  simp [orderOfGenerator, orderOfGeneratorLoop, Nat.div_self hn, hn0]

theorem Group.largestOrderElement_dvd_order (G : Group) : G.largestOrderElement ∣ G.order := by
  rw [Group.largestOrderElement_dvd_iff, Group.order_eq_prod]
  exact fun p hp => List.dvd_prod hp

theorem coprime_factorProduct (p e : Nat) (hp : Nat.Prime p) (fs : SMap Nat)
    (h : ∀ kv ∈ fs, Nat.Prime kv.1 ∧ kv.1 ≠ p) : Nat.Coprime (p ^ e) (factorProduct fs) := by
  unfold factorProduct
  rw [Nat.coprime_list_prod_right_iff]
  intro x hx
  obtain ⟨kv, hkv, rfl⟩ := List.mem_map.1 hx
  have := h kv hkv
  exact Nat.Coprime.pow e kv.2 ((Nat.coprime_primes hp this.1).2 (fun e => this.2 e.symm))

/-- The product of the greatest common divisors of `d` with the prime powers of a
factorisation is the greatest common divisor of `d` with the number factored. -/
theorem prod_gcd_prime_powers (d : Nat) :
    ∀ (factors : SMap Nat), SMap.Sorted factors → (∀ kv ∈ factors, Nat.Prime kv.1) →
      ((factors.map (fun pe => pe.1 ^ pe.2)).map (Nat.gcd d)).prod =
        Nat.gcd d (factorProduct factors) := by
  intro factors
  induction factors with
  | nil => intro _ _; simp [factorProduct]
  | cons hd tl ih =>
    intro hs hp
    obtain ⟨p, e⟩ := hd
    rw [SMap.sorted_cons] at hs
    have hprime : Nat.Prime p := hp (p, e) (List.mem_cons_self _ _)
    have hp' : ∀ kv ∈ tl, Nat.Prime kv.1 := fun kv hkv => hp kv (List.mem_cons_of_mem _ hkv)
    have hcop := coprime_factorProduct p e hprime tl (fun kv hkv =>
      ⟨hp' kv hkv, by have := hs.1 kv hkv; omega⟩)
    have hfp : factorProduct ((p, e) :: tl) = p ^ e * factorProduct tl := by
      simp [factorProduct]
    rw [List.map_cons, List.map_cons, List.prod_cons, ih hs.2 hp', hfp,
      Nat.Coprime.gcd_mul d hcop]

theorem forall₂_singleton_choice (factors : SMap Nat) (he : ∀ kv ∈ factors, 1 ≤ kv.2) :
    List.Forall₂ (fun pe pp => pp.1 = pe.1 ∧ IsPartitionOf pe.2 pp.2) factors
      (factors.map (fun pe => (pe.1, [pe.2]))) := by
  rw [List.forall₂_map_right_iff, List.forall₂_same]
  intro pe hpe
  exact ⟨rfl, isPartitionOf_singleton pe.2 (he pe hpe)⟩

theorem candidateOf_singletons (factors : SMap Nat) :
    candidateOf (factors.map (fun pe => (pe.1, [pe.2]))) =
      ⟨factors.map (fun pe => pe.1 ^ pe.2)⟩ := by
  unfold candidateOf
  congr 1
  induction factors with
  | nil => rfl
  | cons hd tl ih => simp [ih]

theorem choices_chainNodes_head (fuel : Nat) (hf : 1 ≤ fuel) (factors : SMap Nat) :
    (choices (partitionLists (chainNodes fuel factors))).head? =
      some (factors.map (fun pe => (pe.1, [pe.2]))) := by
  have h := choices_head (fun pl => pl.2.head?.getD [])
    (partitionLists (chainNodes fuel factors)) (by
      intro pl hpl
      simp only [partitionLists, chainNodes, List.map_map, List.mem_map] at hpl
      obtain ⟨pe, _, rfl⟩ := hpl
      simp [partitionChain_head fuel hf])
  rw [h]
  congr 1
  simp only [partitionLists, chainNodes, List.map_map]
  apply List.map_congr_left
  intro pe _
  simp [partitionChain_head fuel hf]

/-- The list of `findPossibleIsoGroup` for `G = Z_n` and the identity as generator: the
candidates of all choices of partitions for the factorisation of `n`, none pruned, the
first being the candidate whose factors are the prime powers of `n`. -/
theorem cyclic_candidates_spec (n : Nat) (hn : 1 ≤ n) (hn32 : n < 2 ^ 32) :
    ∃ factors N, factorProduct factors = n ∧ SMap.Sorted factors ∧
      (∀ kv ∈ factors, Nat.Prime kv.1 ∧ 1 ≤ kv.2) ∧ n ≤ N ∧ 1 ≤ N ∧
      ∀ fuel, N ≤ fuel →
        List.Forall₂ IsPartitionNode factors (chainNodes fuel factors) ∧
        findPossibleIsoGroup fuel [] ⟨[n]⟩ [0] =
          .ok ((choices (partitionLists (chainNodes fuel factors))).map candidateOf) ∧
        ∃ rest, choices (partitionLists (chainNodes fuel factors)) =
          factors.map (fun pe => (pe.1, [pe.2])) :: rest := by
  have hG : Group.Valid ⟨[n]⟩ := by
    intro p hp
    simp only [List.mem_singleton] at hp
    omega
  have hord : Group.order ⟨[n]⟩ = n := by simp [Group.order]
  have hloe : Group.largestOrderElement ⟨[n]⟩ = n := by simp [Group.largestOrderElement]
  obtain ⟨k, factors, N, h1, _, _, h4, h5, h6, h7, h8⟩ :=
    findPossibleIsoGroupState_chain ⟨[n]⟩ [0] hG rfl (by rw [hord]; exact hn32)
  have hk : k = 1 := by
    rw [orderOfGenerator_single n hn] at h1
    injection h1 with h1
    exact h1.symm
  subst hk
  rw [hord, Nat.div_one] at h4
  refine ⟨factors, max N n, h4, h5, h6, le_max_right _ _, le_trans h7 (le_max_left _ _), ?_⟩
  intro fuel hf
  have hf1 : N ≤ fuel := le_trans (le_max_left _ _) hf
  obtain ⟨_, g2, g3⟩ := h8 fuel hf1
  refine ⟨g2, ?_, ?_⟩
  · have hs := findPossibleIsoGroup_of_state (g3 [])
    rw [hs, List.nil_append]
    congr 1
    rw [List.filter_eq_self]
    intro c hc
    obtain ⟨ch, hch, rfl⟩ := List.mem_map.1 hc
    have hpart := forall₂_choice_of_node g2 ((mem_choices_iff _ _).1 hch)
    have ho := order_candidateOf_of_partition hpart
    have hd := (candidateOf ch).largestOrderElement_dvd_order
    rw [ho, h4] at hd
    simp only [decide_eq_true_eq, hloe]
    exact Nat.le_of_dvd hn hd
  · have hhead := choices_chainNodes_head fuel (le_trans h7 hf1) factors
    cases hc : choices (partitionLists (chainNodes fuel factors)) with
    | nil => rw [hc] at hhead; simp at hhead
    | cons c rest =>
      rw [hc] at hhead
      simp only [List.head?_cons, Option.some.injEq] at hhead
      exact ⟨rest, by rw [hhead]⟩

/-- The candidate whose factors are the prime powers of `n` has the histogram of `Z_n`. -/
theorem cyclic_first_hist (n : Nat) (hn : 1 ≤ n) (factors : SMap Nat)
    (hs : SMap.Sorted factors) (hp : ∀ kv ∈ factors, Nat.Prime kv.1 ∧ 1 ≤ kv.2)
    (hprod : factorProduct factors = n) (fuel : Nat) (hf : n ≤ fuel) :
    (candidateOf (factors.map (fun pe => (pe.1, [pe.2])))).Valid ∧
    calcElementOrders fuel (candidateOf (factors.map (fun pe => (pe.1, [pe.2]))))
        (candidateOf (factors.map (fun pe => (pe.1, [pe.2])))).identity [] =
      calcElementOrders fuel ⟨[n]⟩ [0] [] := by
  have hG : Group.Valid ⟨[n]⟩ := by
    intro p hp
    simp only [List.mem_singleton] at hp
    omega
  haveI := Fact.mk hG
  have hord : Group.order ⟨[n]⟩ = n := by simp [Group.order]
  have hp' : ∀ kv ∈ factors, Nat.Prime kv.1 := fun kv hkv => (hp kv hkv).1
  have h₀ := forall₂_singleton_choice factors (fun kv hkv => (hp kv hkv).2)
  obtain ⟨ch, hch, hc, ⟨φ⟩⟩ := exists_choice_equiv (0 : Elem ⟨[n]⟩) factors hs hp
    (by rw [addOrderOf_zero, hord, Nat.div_one, hprod])
  haveI := Fact.mk hc
  have hcf : (candidateOf ch).order ≤ fuel := by
    rw [order_candidateOf_of_partition hch, hprod]; exact hf
  have ehist : calcElementOrders fuel ⟨[n]⟩ [0] [] =
      calcElementOrders fuel (candidateOf ch) (candidateOf ch).identity [] :=
    calcElementOrders_of_equiv (0 : Elem ⟨[n]⟩) φ fuel fuel (by rw [hord]; exact hf) hcf
  have hsame : ch = factors.map (fun pe => (pe.1, [pe.2])) := by
    apply choice_eq_of_prod_gcd hs hp' hch h₀
    intro d hd
    have h1 := @prod_gcd_eq_of_hist (candidateOf ch) ⟨[n]⟩ _ _ fuel fuel hcf
      (by rw [hord]; exact hf) ehist.symm d hd
    rw [h1, candidateOf_singletons, prod_gcd_prime_powers d factors hs hp', hprod]
    simp
  rw [← hsame]
  exact ⟨hc, ehist.symm⟩

/-- C13. For every `G` with a single cyclic factor `Z_n`, `n ≥ 1` (a factor order that
an `unsigned` holds, `n < 2 ^ 32`), and the identity as generator, the list of `findPossibleIsoGroup` (given enough fuel) is not empty and its
first candidate has the histogram of `G`: `calcElementOrders(candidate, identity)` is
`calcElementOrders(G, identity)`.  So the match loop of `main` stops at the first
candidate, on the list as returned and also on the list after the narrowing step of
`main`, which keeps the first candidate in first place. -/
theorem single_factor_first_match (n : Nat) (hn : 1 ≤ n) (hn32 : n < 2 ^ 32) :
    ∃ N, ∀ fuel, N ≤ fuel →
      ∃ c rest hist, findPossibleIsoGroup fuel [] ⟨[n]⟩ (Group.identity ⟨[n]⟩) =
          .ok (c :: rest) ∧
        calcElementOrders fuel ⟨[n]⟩ (Group.identity ⟨[n]⟩) [] = .ok hist ∧
        calcElementOrders fuel c c.identity [] = .ok hist ∧
        matchLoop fuel hist (c :: rest) = .ok (some c) ∧
        ∀ fuel', (c :: rest).length < 2 ^ 32 → (c :: rest).length < fuel' →
          ∃ kept, narrow fuel' hist (c :: rest) = .ok (c :: kept) ∧
            matchLoop fuel hist (c :: kept) = .ok (some c) := by
  have hG : Group.Valid ⟨[n]⟩ := by
    intro p hp
    simp only [List.mem_singleton] at hp
    omega
  haveI := Fact.mk hG
  have hid : Group.identity ⟨[n]⟩ = [0] := rfl
  have hord : Group.order ⟨[n]⟩ = n := by simp [Group.order]
  obtain ⟨factors, N, h1, h2, h3, h4, _, h6⟩ := cyclic_candidates_spec n hn hn32
  refine ⟨N, ?_⟩
  intro fuel hf
  obtain ⟨_, g2, rest, g3⟩ := h6 fuel hf
  obtain ⟨hc, hfirst⟩ := cyclic_first_hist n hn factors h2 h3 h1 fuel (le_trans h4 hf)
  haveI := Fact.mk hc
  obtain ⟨hist, e1, _, _⟩ := calcElementOrders_hist (0 : Elem ⟨[n]⟩) fuel
    (by rw [hord]; exact le_trans h4 hf)
  have e1' : calcElementOrders fuel ⟨[n]⟩ [0] [] = .ok hist := e1
  rw [e1'] at hfirst
  have hmatch : ∀ tail, matchLoop fuel hist
      (candidateOf (factors.map (fun pe => (pe.1, [pe.2]))) :: tail) =
      .ok (some (candidateOf (factors.map (fun pe => (pe.1, [pe.2]))))) := by
    intro tail
    simp only [matchLoop, hfirst, if_true]
  refine ⟨candidateOf (factors.map (fun pe => (pe.1, [pe.2]))), rest.map candidateOf, hist,
    ?_, by rw [hid]; exact e1', hfirst, hmatch _, ?_⟩
  · rw [hid, g2, g3, List.map_cons]
  · intro fuel' hlen hfuel'
    obtain ⟨hist', k1, _, k3, _⟩ := calcElementOrders_identity_lastKey
      (candidateOf (factors.map (fun pe => (pe.1, [pe.2])))) fuel (by
        rw [order_candidateOf_of_partition
          (forall₂_singleton_choice factors (fun kv hkv => (h3 kv hkv).2)), h1]
        exact le_trans h4 hf)
    rw [hfirst] at k1
    injection k1 with k1
    subst k1
    have hrun := narrowLoop_spec
      (candidateOf (factors.map (fun pe => (pe.1, [pe.2])))).largestOrderElement fuel' []
      (candidateOf (factors.map (fun pe => (pe.1, [pe.2]))) :: rest.map candidateOf)
      (by simpa using hlen) hfuel'
    simp only [List.length_nil, List.nil_append] at hrun
    rw [List.filter_cons, if_pos (by simp)] at hrun
    have hnarrow : ∀ kept, narrowLoop
        (candidateOf (factors.map (fun pe => (pe.1, [pe.2])))).largestOrderElement fuel' 0
        (candidateOf (factors.map (fun pe => (pe.1, [pe.2]))) :: rest.map candidateOf) =
          .ok kept →
        narrow fuel' hist
          (candidateOf (factors.map (fun pe => (pe.1, [pe.2]))) :: rest.map candidateOf) =
          .ok kept := by
      intro kept hk
      simp only [narrow, k3]
      exact hk
    exact ⟨_, hnarrow _ hrun, hmatch _⟩

theorem single_factor_first_match_witness :
    1 ≤ 4 ∧ 4 < 2 ^ 32 ∧
    findPossibleIsoGroup 10 [] ⟨[4]⟩ (Group.identity ⟨[4]⟩) = .ok [⟨[4]⟩, ⟨[2, 2]⟩] ∧
    calcElementOrders 10 ⟨[4]⟩ (Group.identity ⟨[4]⟩) [] = .ok [(1, 1), (2, 1), (4, 2)] ∧
    matchLoop 10 [(1, 1), (2, 1), (4, 2)] [⟨[4]⟩, ⟨[2, 2]⟩] = .ok (some ⟨[4]⟩) ∧
    findPossibleIsoGroup 10 [] ⟨[6]⟩ (Group.identity ⟨[6]⟩) = .ok [⟨[2, 3]⟩] ∧
    calcElementOrders 10 ⟨[6]⟩ (Group.identity ⟨[6]⟩) [] =
      calcElementOrders 10 ⟨[2, 3]⟩ (Group.identity ⟨[2, 3]⟩) [] ∧
    ∃ N, ∀ fuel, N ≤ fuel →
      ∃ c rest hist, findPossibleIsoGroup fuel [] ⟨[4]⟩ (Group.identity ⟨[4]⟩) =
          .ok (c :: rest) ∧
        calcElementOrders fuel ⟨[4]⟩ (Group.identity ⟨[4]⟩) [] = .ok hist ∧
        calcElementOrders fuel c c.identity [] = .ok hist ∧
        matchLoop fuel hist (c :: rest) = .ok (some c) ∧
        ∀ fuel', (c :: rest).length < 2 ^ 32 → (c :: rest).length < fuel' →
          ∃ kept, narrow fuel' hist (c :: rest) = .ok (c :: kept) ∧
            matchLoop fuel hist (c :: kept) = .ok (some c) :=
  ⟨by decide, by decide, by decide, by decide, by decide, by decide, by decide,
    single_factor_first_match 4 (by decide) (by decide)⟩

theorem isPartitionOf_pred_one (e : Nat) (he : 2 ≤ e) : IsPartitionOf e [e - 1, 1] := by
  refine ⟨?_, ?_, ?_⟩
  · simp [List.Sorted]; omega
  · intro x hx
    simp only [List.mem_cons, List.mem_singleton, List.not_mem_nil, or_false] at hx
    omega
  · simp; omega

theorem choices_single (p : Nat) (ps : List (List Nat)) :
    choices [(p, ps)] = ps.map (fun part => [(p, part)]) := by
  simp [choices]

/-- When the list of `findPossibleIsoGroup` for `Z_n` and the identity is the single
candidate `Z_n`, then `n` is a prime. -/
theorem cyclic_single_candidate_prime (n : Nat) (hn : 2 ≤ n) (hn32 : n < 2 ^ 32) :
    ∃ N, ∀ fuel, N ≤ fuel →
      ∃ groups, findPossibleIsoGroup fuel [] ⟨[n]⟩ [0] = .ok groups ∧
        (groups = [⟨[n]⟩] → Nat.Prime n) := by
  obtain ⟨factors, N, h1, h2, h3, _, _, h6⟩ := cyclic_candidates_spec n (by omega) hn32
  refine ⟨N, ?_⟩
  intro fuel hf
  obtain ⟨g1, g2, rest, g3⟩ := h6 fuel hf
  refine ⟨_, g2, ?_⟩
  intro heq
  rw [g3, List.map_cons, candidateOf_singletons] at heq
  have hrest : rest = [] := by
    have := congrArg List.length heq
    simp only [List.length_cons, List.length_map, List.length_nil] at this
    exact List.length_eq_zero.1 (by omega)
  have hfac : factors.map (fun pe => pe.1 ^ pe.2) = [n] := by
    have := List.head_eq_of_cons_eq heq
    injection this
  obtain ⟨pe, hpe⟩ : ∃ pe, factors = [pe] := by
    have := congrArg List.length hfac
    simp only [List.length_map, List.length_singleton] at this
    exact List.length_eq_one.1 this
  subst hpe
  obtain ⟨p, e⟩ := pe
  simp only [List.map_cons, List.map_nil, List.cons.injEq, and_true] at hfac
  obtain ⟨hprime, he⟩ := h3 (p, e) (List.mem_singleton.2 rfl)
  simp only at hprime he
  have hnode : IsPartitionNode (p, e) (p, { partitions := partitionChain fuel [e], iterator := 0 }) := by
    have := g1
    simp only [chainNodes, List.map_cons, List.map_nil] at this
    cases this with
    | cons a _ => exact a
  have hlen : (partitionChain fuel [e]).length = 1 := by
    have := congrArg List.length g3
    rw [hrest] at this
    simp only [chainNodes, partitionLists, List.map_cons, List.map_nil, choices_single,
      List.length_map, List.length_singleton] at this
    exact this
  have he1 : e = 1 := by
    by_contra hne
    have he2 : 2 ≤ e := by omega
    obtain ⟨a, ha⟩ := List.length_eq_one.1 hlen
    have m1 : [e] ∈ partitionChain fuel [e] :=
      (hnode.2.2.2 [e]).2 (isPartitionOf_singleton e he)
    have m2 : [e - 1, 1] ∈ partitionChain fuel [e] :=
      (hnode.2.2.2 [e - 1, 1]).2 (isPartitionOf_pred_one e he2)
    rw [ha, List.mem_singleton] at m1 m2
    have := m1.trans m2.symm
    simp at this
  rw [he1, pow_one] at hfac
  rw [← hfac]
  exact hprime

theorem partitionChain_one (fuel : Nat) (hf : 1 ≤ fuel) : partitionChain fuel [1] = [[1]] := by
  obtain ⟨k, rfl⟩ : ∃ k, fuel = k + 1 := ⟨fuel - 1, by omega⟩
  have h1 : nextPartition [1] = none := by decide
  simp only [partitionChain, h1]

/-- C14, as amended. For every `G` with a single cyclic factor `Z_n`, `n ≥ 2` (a factor
order that an `unsigned` holds, `n < 2 ^ 32`), and the identity as generator, the list that `findPossibleIsoGroup` produces (given enough fuel) is
the single candidate `G` itself, the factor list `[n]`, if and only if `n` is a prime. -/
theorem single_factor_single_candidate_iff (n : Nat) (hn : 2 ≤ n) (hn32 : n < 2 ^ 32) :
    ∃ N, ∀ fuel, N ≤ fuel →
      ∃ groups, findPossibleIsoGroup fuel [] ⟨[n]⟩ (Group.identity ⟨[n]⟩) = .ok groups ∧
        (groups = [⟨[n]⟩] ↔ Nat.Prime n) := by
  have hid : Group.identity ⟨[n]⟩ = [0] := rfl
  obtain ⟨N₁, hN₁⟩ := cyclic_single_candidate_prime n hn hn32
  obtain ⟨factors, N₂, h1, h2, h3, _, h5, h6⟩ := cyclic_candidates_spec n (by omega) hn32
  refine ⟨max N₁ N₂, ?_⟩
  intro fuel hf
  obtain ⟨groups, g1, g2⟩ := hN₁ fuel (le_trans (le_max_left _ _) hf)
  have hf2 : N₂ ≤ fuel := le_trans (le_max_right _ _) hf
  obtain ⟨_, k2, _⟩ := h6 fuel hf2
  refine ⟨groups, by rw [hid]; exact g1, g2, ?_⟩
  intro hprime
  have hfac : factors = [(n, 1)] := by
    apply factors_unique factors [(n, 1)] h2 (by simp [SMap.Sorted]) h3
    · intro kv hkv
      rw [List.mem_singleton.1 hkv]
      exact ⟨hprime, le_refl 1⟩
    · rw [h1]; simp [factorProduct]
  rw [g1] at k2
  injection k2 with k2
  rw [k2, hfac]
  simp only [chainNodes, partitionLists, List.map_cons, List.map_nil, choices_single,
    partitionChain_one fuel (le_trans h5 hf2)]
  simp [candidateOf]

theorem single_factor_single_candidate_iff_witness :
    2 ≤ 5 ∧ 5 < 2 ^ 32 ∧ findPossibleIsoGroup 10 [] ⟨[5]⟩ (Group.identity ⟨[5]⟩) = .ok [⟨[5]⟩] ∧
    ∃ N, ∀ fuel, N ≤ fuel →
      ∃ groups, findPossibleIsoGroup fuel [] ⟨[5]⟩ (Group.identity ⟨[5]⟩) = .ok groups ∧
        (groups = [⟨[5]⟩] ↔ Nat.Prime 5) :=
  ⟨by decide, by decide, by decide,
    single_factor_single_candidate_iff 5 (by decide) (by decide)⟩

/-- C14 as stated fails: for `n = 4` the list holds two candidates, `Z_4` and
`Z_2 x Z_2`, and for no bound is it the single candidate `Z_4` from that fuel on; for
`n = 6` the list holds one candidate, whose factor list is `[2, 3]` and not `[6]`. -/
theorem single_factor_several_candidates :
    findPossibleIsoGroup 10 [] ⟨[4]⟩ (Group.identity ⟨[4]⟩) = .ok [⟨[4]⟩, ⟨[2, 2]⟩] ∧
    findPossibleIsoGroup 10 [] ⟨[6]⟩ (Group.identity ⟨[6]⟩) = .ok [⟨[2, 3]⟩] ∧
    ¬ ∃ N, ∀ fuel, N ≤ fuel →
      findPossibleIsoGroup fuel [] ⟨[4]⟩ (Group.identity ⟨[4]⟩) = .ok [⟨[4]⟩] := by
  refine ⟨by decide, by decide, ?_⟩
  rintro ⟨N, hN⟩
  obtain ⟨N₁, hN₁⟩ := cyclic_single_candidate_prime 4 (by decide) (by decide)
  obtain ⟨groups, g1, g2⟩ := hN₁ (max N N₁) (le_max_right _ _)
  have h := hN (max N N₁) (le_max_left _ _)
  have hid : Group.identity ⟨[4]⟩ = [0] := rfl
  rw [hid, g1] at h
  injection h with h
  exact absurd (g2 h) (by decide)

/-- When `findPossibleIsoGroup` returns, the caller has the list it returns. -/
theorem findPossibleIsoGroupInOut_of_ok {fuel : Nat} {groups gs : List Group} {G : Group}
    {generator : Tuple} (h : findPossibleIsoGroup fuel groups G generator = .ok gs) :
    findPossibleIsoGroupInOut fuel groups G generator = some gs := by
  unfold findPossibleIsoGroup findPossibleIsoGroupState at h
  unfold findPossibleIsoGroupInOut
  cases hq : quotientPartitions fuel G generator with
  | error e => rw [hq] at h; simp at h
  | ok partitions =>
    rw [hq] at h
    simp only at h ⊢
    cases hc : candidateLoop G fuel partitions groups [] with
    | error e => rw [hc] at h; simp at h
    | ok r =>
      rw [hc] at h
      obtain ⟨a, b, c⟩ := r
      simp only at h ⊢
      injection h with h
      rw [h]

/-! ### A quotient order that does not fit an `unsigned` -/

/-- The run of `findPossibleIsoGroup` for `G = Z_65538 x Z_65538` and the identity as
generator: the value kept in `orderOfQgroup` is `262148 = 2 ^ 2 * 65537`, two candidates
are built and none is kept. -/
theorem wrapped_quotient_run :
    ∃ N, ∀ fuel, N ≤ fuel →
      findPossibleIsoGroupState fuel [] ⟨[65538, 65538]⟩ [0, 0] =
        .ok ([(2, { partitions := [[2], [1, 1]], iterator := 0 }),
            (65537, { partitions := [[1]], iterator := 0 })], [],
          [⟨[4, 65537]⟩, ⟨[2, 2, 65537]⟩]) := by
  obtain ⟨factors, N, h4, h5, h6, h7, h8⟩ :=
    findPossibleIsoGroupState_chain_core ⟨[65538, 65538]⟩ [0, 0] 1 (by decide) (by decide)
  have hfac : factors = [(2, 2), (65537, 1)] := by
    apply factors_unique factors [(2, 2), (65537, 1)] h5 (by decide) h6
    · intro kv hkv
      simp only [List.mem_cons, List.mem_singleton, List.not_mem_nil, or_false] at hkv
      rcases hkv with rfl | rfl
      · exact ⟨Nat.prime_two, by decide⟩
      · exact ⟨by norm_num, by decide⟩
    · rw [h4]; decide
  subst hfac
  refine ⟨max N 2, ?_⟩
  intro fuel hf
  obtain ⟨_, _, hstate⟩ := h8 fuel (le_trans (le_max_left _ _) hf)
  have hf2 : 2 ≤ fuel := le_trans (le_max_right _ _) hf
  have hchain : chainNodes fuel [(2, 2), (65537, 1)] =
      [(2, { partitions := [[2], [1, 1]], iterator := 0 }),
        (65537, { partitions := [[1]], iterator := 0 })] := by
    simp only [chainNodes, List.map_cons, List.map_nil, partitionChain_two fuel hf2,
      partitionChain_one fuel (by omega)]
  have hs := hstate []
  rw [hchain] at hs
  rw [hs]
  decide

/-- C2 as stated fails when the order of the quotient does not fit an `unsigned`: for
`G = Z_65538 x Z_65538` and the identity as generator the order of the quotient is
`2 ^ 32 + 262148`; the value kept in `orderOfQgroup` is `262148 = 2 ^ 2 * 65537`, both
candidates built for it have a largest element order above `65538`, that of `G`, and the
list returned is empty. -/
theorem no_candidate_for_wrapped_quotient :
    Group.Valid ⟨[65538, 65538]⟩ ∧ Group.Mem ⟨[65538, 65538]⟩ [0, 0] ∧
    Group.order ⟨[65538, 65538]⟩ = 2 ^ 32 + 262148 ∧
    Group.largestOrderElement ⟨[65538, 65538]⟩ = 65538 ∧
    Group.largestOrderElement ⟨[4, 65537]⟩ = 262148 ∧
    Group.largestOrderElement ⟨[2, 2, 65537]⟩ = 131074 ∧
    findPossibleIsoGroup 300 [] ⟨[65538, 65538]⟩ [0, 0] = .ok [] ∧
    ∃ N, ∀ fuel, N ≤ fuel → findPossibleIsoGroup fuel [] ⟨[65538, 65538]⟩ [0, 0] = .ok [] := by
  refine ⟨by decide, by decide, by decide, by decide, by decide, by decide, by decide, ?_⟩
  obtain ⟨N, hN⟩ := wrapped_quotient_run
  exact ⟨N, fun fuel hf => findPossibleIsoGroup_of_state (hN fuel hf)⟩

/-- C8 as stated fails when the order of the quotient does not fit an `unsigned`: for
`G = Z_65538 x Z_65538` and the identity as generator the order of the quotient is
`65538 * 65538 = 2 ^ 32 + 262148 = 2 ^ 2 * 3 ^ 4 * 11 ^ 2 * 331 ^ 2`; the value kept in
`orderOfQgroup` and factored is `262148 = 2 ^ 2 * 65537`, and the two candidates built are
those of the partitions of the exponents of `2` and `65537`: no partition of the exponent
of `3` is chosen, and `65537` is not a prime of the order of the quotient. -/
theorem candidateLoop_of_wrapped_quotient :
    Group.Valid ⟨[65538, 65538]⟩ ∧ Group.Mem ⟨[65538, 65538]⟩ [0, 0] ∧
    orderOfGenerator ⟨[65538, 65538]⟩ [0, 0] = .ok 1 ∧
    Group.order ⟨[65538, 65538]⟩ / 1 = 2 ^ 32 + 262148 ∧
    Group.order ⟨[65538, 65538]⟩ / 1 = factorProduct [(2, 2), (3, 4), (11, 2), (331, 2)] ∧
    ¬ 65537 ∣ Group.order ⟨[65538, 65538]⟩ / 1 ∧
    primeFactorize 300 (Group.order ⟨[65538, 65538]⟩ / 1 % 2 ^ 32) [] =
      .ok [(2, 2), (65537, 1)] ∧
    ∃ N, ∀ fuel, N ≤ fuel →
      findPossibleIsoGroupState fuel [] ⟨[65538, 65538]⟩ [0, 0] =
        .ok ([(2, { partitions := [[2], [1, 1]], iterator := 0 }),
            (65537, { partitions := [[1]], iterator := 0 })], [],
          [⟨[4, 65537]⟩, ⟨[2, 2, 65537]⟩]) :=
  ⟨by decide, by decide, by decide, by decide, by decide, by decide, by decide,
    wrapped_quotient_run⟩

end FiniteAbelianClassifier
